import Mathlib

/-!
Adaptive replacement cache (`arc.c`): embedding and verification.

The cache of `src/arc.c` is embedded as a pure state machine.

* Objects live in a memory `objs`; the address of an object is its index.
  The four lists hold addresses, most recently used first (the C list is
  circular: `list_add` inserts right after the list head, `head.prev` is
  the least recently used entry).
* Every `unsigned long` is a natural number below `ULONG_MOD = 2 ^ 64`;
  `+=`, `-=`, `+` and `-` wrap modulo `ULONG_MOD`.
* The host callbacks are inputs and outputs of a call: what `create` and
  `fetch` answer is an argument of `arc_lookup`; every callback invocation
  is appended to `trace`.
* Undefined behaviour of the C program (a null dereference, a division by
  zero, the entry of an empty list) is a `Fault`.
* In the statements, sums and differences of size fields and of `p` are
  `unsigned long` values (`uadd`, `usub`, `% ULONG_MOD`) unless a statement
  says otherwise; `weight` is the sum of the member sizes as a number.
* A hit in a ghost list divides by the size field of that list before
  `arc_move` runs; `fetch` is reached exactly when that field is not zero.
-/

namespace ARC

/-- Number of values of a C `unsigned long` (LP64). -/
abbrev ULONG_MOD : Nat := 18446744073709551616

/-- The macro `MAX(a, b)` of `arc.c`. -/
def MAX (a b : Nat) : Nat := if a > b then a else b

/-- The macro `MIN(a, b)` of `arc.c`. -/
def MIN (a b : Nat) : Nat := if a < b then a else b

/-- Unsigned addition `a + b`. -/
def uadd (a b : Nat) : Nat := (a + b) % ULONG_MOD

/-- Unsigned subtraction `a - b` (operands below `ULONG_MOD`). -/
def usub (a b : Nat) : Nat := (a + ULONG_MOD - b) % ULONG_MOD

/-- The four `struct arc_state` members of `struct arc`; a value of this
type stands for the pointer `&cache->mrug`, `&cache->mru`, ... -/
inductive arc_list where
  | mrug
  | mru
  | mfu
  | mfug
  deriving DecidableEq, Repr

/-- Ways in which the C program leaves defined behaviour. `outOfFuel` is
not a behaviour of the program: it marks a loop of the model that was cut
off before its condition became false. -/
inductive Fault where
  | nullDeref
  | divByZero
  | badPointer
  | useAfterFree
  | outOfFuel
  deriving DecidableEq, Repr

/-- Invocations of the host callbacks, and of `arc_balance`. -/
inductive Event where
  | create (key : Nat)
  | fetch (obj : Nat)
  | evict (obj : Nat)
  | destroy (obj : Nat)
  | balance (size : Nat)
  | invalid
  deriving DecidableEq, Repr

/-- The `struct arc_state`: running size and the list, head first. -/
structure arc_state where
  size : Nat
  head : List Nat
  deriving DecidableEq, Repr

/-- The `struct arc_object`, with the key the host keeps next to it. The
list linkage is the position of the address in a list of `arc`. -/
structure arc_object where
  key : Nat
  size : Nat
  state : Option arc_list
  deriving DecidableEq, Repr

/-- The `struct arc`. `hash` holds the addresses linked in the hash table
(`hash_for_each` visits every entry), `objs` is the memory of the objects
and `trace` the callback invocations so far. `underflow` is a mark of the
model, not a field of the C structure: it is set once a `-=` on the size
field of a list wrapped below zero. -/
structure arc where
  c : Nat
  p : Nat
  mrug : arc_state
  mru : arc_state
  mfu : arc_state
  mfug : arc_state
  hash : List Nat
  objs : List arc_object
  trace : List Event
  underflow : Bool
  deriving DecidableEq, Repr

/-- Dereference of a state pointer. -/
def arc.get (cache : arc) : arc_list → arc_state
  | .mrug => cache.mrug
  | .mru => cache.mru
  | .mfu => cache.mfu
  | .mfug => cache.mfug

/-- Store through a state pointer. -/
def arc.set (cache : arc) (l : arc_list) (st : arc_state) : arc :=
  match l with
  | .mrug => { cache with mrug := st }
  | .mru => { cache with mru := st }
  | .mfu => { cache with mfu := st }
  | .mfug => { cache with mfug := st }

/-- The statement `state->size -= size`. -/
def arc.subSize (cache : arc) (l : arc_list) (size : Nat) : arc :=
  { cache.set l { cache.get l with size := usub (cache.get l).size size } with
    underflow := cache.underflow || decide ((cache.get l).size < size) }

/-- The statement `state->size += size`. -/
def arc.addSize (cache : arc) (l : arc_list) (size : Nat) : arc :=
  cache.set l { cache.get l with size := uadd (cache.get l).size size }

/-- The call `list_del(&obj->head)`: the node leaves the list it is linked
in, whichever it is. -/
def arc.listDel (cache : arc) (obj : Nat) : arc :=
  { cache with
    mrug := { cache.mrug with head := cache.mrug.head.erase obj }
    mru := { cache.mru with head := cache.mru.head.erase obj }
    mfu := { cache.mfu with head := cache.mfu.head.erase obj }
    mfug := { cache.mfug with head := cache.mfug.head.erase obj } }

/-- The call `list_add(&obj->head, &state->head)`: insertion at the head. -/
def arc.listAdd (cache : arc) (obj : Nat) (l : arc_list) : arc :=
  cache.set l { cache.get l with head := obj :: (cache.get l).head }

/-- Append a callback invocation to the trace. -/
def arc.log (cache : arc) (e : Event) : arc :=
  { cache with trace := cache.trace ++ [e] }

/-- The assignment `obj->state = state`. -/
def arc.setState (cache : arc) (obj : Nat) (l : arc_list) : arc :=
  match cache.objs[obj]? with
  | some o => { cache with objs := cache.objs.set obj { o with state := some l } }
  | none => cache

/-- Function `arc_hash_insert`. -/
def arc_hash_insert (cache : arc) (_key : Nat) (obj : Nat) : arc :=
  { cache with hash := obj :: cache.hash }

/-- Function `arc_hash_lookup`: the first entry of the table that `cmp`
finds equal to the key. -/
def arc_hash_lookup (cache : arc) (key : Nat) : Option Nat :=
  cache.hash.find? (fun obj =>
    match cache.objs[obj]? with
    | some o => o.key == key
    | none => false)

/-- Function `arc_object_init`; the size is converted to `unsigned long`. -/
def arc_object_init (key : Nat) (size : Nat) : arc_object :=
  { key := key, size := size % ULONG_MOD, state := none }

/-- The head of `arc_move`: `if (obj->state)` the object leaves its list
and the size of that list is reduced. `o` is the object at `obj`. -/
def arc.unlink (cache : arc) (obj : Nat) (o : arc_object) : arc :=
  match o.state with
  | some l => (cache.subSize l o.size).listDel obj
  | none => cache

/-- The tail of `arc_move` from `list_add(&obj->head, &state->head)` on. -/
def arc.link (cache : arc) (obj : Nat) (l : arc_list) : Except Fault (arc × Option Nat) :=
  let c1 := (cache.listAdd obj l).setState obj l
  match c1.objs[obj]? with
  | none => .error .badPointer
  | some o => .ok (c1.addSize l o.size, some obj)

/-- Function `arc_move`, with the call of `arc_balance` left open as
`balance`. `fetchOk` is the answer of the `fetch` callback if it is asked. -/
def arc_move_gen (balance : arc → Nat → Except Fault arc) (cache : arc) (obj : Nat)
    (state : Option arc_list) (fetchOk : Bool) : Except Fault (arc × Option Nat) :=
  match cache.objs[obj]? with
  | none => .error .badPointer
  | some o =>
    let c1 := cache.unlink obj o
    match state with
    | none =>
      .ok (({ c1 with hash := c1.hash.erase obj } : arc).log (.destroy obj), none)
    | some st =>
      if st = .mrug ∨ st = .mfug then
        (c1.log (.evict obj)).link obj st
      else if o.state ≠ some .mru ∧ o.state ≠ some .mfu then
        match balance c1 o.size with
        | .error e => .error e
        | .ok c2 =>
          let c3 := c2.log (.fetch obj)
          if fetchOk then
            c3.link obj st
          else
            match c3.objs[obj]? with
            | none => .error .badPointer
            | some o3 =>
              match o3.state with
              | none => .error .nullDeref
              | some l => .ok ((c3.addSize l o3.size).listAdd obj l, none)
      else
        c1.link obj st

/-- The calls of `arc_move` made by `arc_balance`: their target is a ghost
list or `NULL`, and on those paths `arc_move` does not call `arc_balance`. -/
def arc_move_leaf (cache : arc) (obj : Nat) (state : Option arc_list) :
    Except Fault (arc × Option Nat) :=
  arc_move_gen (fun _ _ => .error .outOfFuel) cache obj state true

/-- Function `arc_state_lru`: the entry before the list head. -/
def arc_state_lru (state : arc_state) : Except Fault Nat :=
  match state.head.getLast? with
  | some obj => .ok obj
  | none => .error .badPointer

/-- One evaluation of the first `while` of `arc_balance`: `none` when the
loop is left, the next state when the body ran. -/
def arc_balance_step1 (size : Nat) (cache : arc) : Except Fault (Option arc) :=
  if uadd (uadd cache.mru.size cache.mfu.size) size > cache.c then
    if cache.mru.size > cache.p then
      match arc_state_lru cache.mru with
      | .error e => .error e
      | .ok obj =>
        match arc_move_leaf cache obj (some .mrug) with
        | .error e => .error e
        | .ok r => .ok (some r.1)
    else if cache.mfu.size > 0 then
      match arc_state_lru cache.mfu with
      | .error e => .error e
      | .ok obj =>
        match arc_move_leaf cache obj (some .mfug) with
        | .error e => .error e
        | .ok r => .ok (some r.1)
    else .ok none
  else .ok none

/-- One evaluation of the second `while` of `arc_balance`. -/
def arc_balance_step2 (cache : arc) : Except Fault (Option arc) :=
  if uadd cache.mrug.size cache.mfug.size > cache.c then
    if cache.mfug.size > cache.p then
      match arc_state_lru cache.mfug with
      | .error e => .error e
      | .ok obj =>
        match arc_move_leaf cache obj none with
        | .error e => .error e
        | .ok r => .ok (some r.1)
    else if cache.mrug.size > 0 then
      match arc_state_lru cache.mrug with
      | .error e => .error e
      | .ok obj =>
        match arc_move_leaf cache obj none with
        | .error e => .error e
        | .ok r => .ok (some r.1)
    else .ok none
  else .ok none

/-- A `while` loop run for at most `fuel` passes through its body. -/
def arc_while (step : arc → Except Fault (Option arc)) : Nat → arc → Except Fault arc
  | 0, cache =>
    match step cache with
    | .error e => .error e
    | .ok none => .ok cache
    | .ok (some _) => .error .outOfFuel
  | fuel + 1, cache =>
    match step cache with
    | .error e => .error e
    | .ok none => .ok cache
    | .ok (some c1) => arc_while step fuel c1

/-- Function `arc_balance`. Each pass of the first loop takes an entry out
of `mru` or `mfu` and each pass of the second one out of `mrug` or `mfug`,
which bounds the passes by the lengths of the lists. -/
def arc_balance (cache : arc) (size : Nat) : Except Fault arc :=
  let c0 := cache.log (.balance size)
  match arc_while (arc_balance_step1 size) (c0.mru.head.length + c0.mfu.head.length) c0 with
  | .error e => .error e
  | .ok c1 =>
    arc_while arc_balance_step2 (c1.mrug.head.length + c1.mfug.head.length) c1

/-- Function `arc_move`. -/
def arc_move (cache : arc) (obj : Nat) (state : Option arc_list) (fetchOk : Bool) :
    Except Fault (arc × Option Nat) :=
  arc_move_gen arc_balance cache obj state fetchOk

/-- Function `arc_create` (the allocation succeeds). -/
def arc_create (c : Nat) : arc :=
  { c := c % ULONG_MOD
    p := (c % ULONG_MOD) >>> 1
    mrug := ⟨0, []⟩
    mru := ⟨0, []⟩
    mfu := ⟨0, []⟩
    mfug := ⟨0, []⟩
    hash := []
    objs := []
    trace := []
    underflow := false }

/-- Function `arc_lookup`. `created` is what the `create` callback answers
if it is asked (`none` for `NULL`, else the size it passes to
`arc_object_init`), `fetchOk` what `fetch` answers (`true` for `0`). The
result is the new cache and the returned pointer. -/
def arc_lookup (cache : arc) (key : Nat) (created : Option Nat) (fetchOk : Bool) :
    Except Fault (arc × Option Nat) :=
  match arc_hash_lookup cache key with
  | none =>
    let c0 := cache.log (.create key)
    match created with
    | none => .ok (c0, none)
    | some size =>
      let obj := c0.objs.length
      let c1 : arc := { c0 with objs := c0.objs ++ [arc_object_init key size] }
      arc_move (arc_hash_insert c1 key obj) obj (some .mru) fetchOk
  | some obj =>
    match cache.objs[obj]? with
    | none => .error .badPointer
    | some o =>
      if o.state = some .mru ∨ o.state = some .mfu then
        arc_move cache obj (some .mfu) fetchOk
      else if o.state = some .mrug then
        if cache.mrug.size = 0 then .error .divByZero
        else
          arc_move
            { cache with
              p := MIN cache.c (uadd cache.p (MAX (cache.mfug.size / cache.mrug.size) 1)) }
            obj (some .mfu) fetchOk
      else if o.state = some .mfug then
        if cache.mfug.size = 0 then .error .divByZero
        else
          arc_move
            { cache with
              p := MAX 0 (usub cache.p (MAX (cache.mrug.size / cache.mfug.size) 1)) }
            obj (some .mfu) fetchOk
      else
        .ok (cache.log .invalid, none)

/-- One `list_for_each_entry (obj, &state->head, head) arc_move(cache, obj, NULL)`
of `arc_destroy`. The loop is not entered on an empty list. Otherwise its
body unlinks the first entry (`list_del` poisons its links) and has it
destroyed by the host; the loop then reads `obj->head.next` of that entry
to go on, which is a use after free. -/
def arc_destroy_walk (cache : arc) (l : arc_list) : Except Fault arc :=
  match (cache.get l).head with
  | [] => .ok cache
  | obj :: _ =>
    match arc_move cache obj none true with
    | .error e => .error e
    | .ok _ => .error .useAfterFree

/-- Function `arc_destroy`, up to `kfree(cache)`: the lists are walked in
the order `mru`, `mrug`, `mfu`, `mfug`. -/
def arc_destroy (cache : arc) : Except Fault arc :=
  match arc_destroy_walk cache .mru with
  | .error e => .error e
  | .ok c1 =>
    match arc_destroy_walk c1 .mrug with
    | .error e => .error e
    | .ok c2 =>
      match arc_destroy_walk c2 .mfu with
      | .error e => .error e
      | .ok c3 => arc_destroy_walk c3 .mfug

/-- One call of `arc_lookup` with the answers of the host. -/
structure Call where
  key : Nat
  created : Option Nat
  fetchOk : Bool
  deriving DecidableEq, Repr

/-- A sequence of `arc_lookup` calls. -/
def arc_run : arc → List Call → Except Fault arc
  | cache, [] => .ok cache
  | cache, call :: rest =>
    match arc_lookup cache call.key call.created call.fetchOk with
    | .error e => .error e
    | .ok r => arc_run r.1 rest

/-! ## Well-formed caches -/

/-- The `size` field of the object at an address (`0` outside the memory). -/
def objSize (cache : arc) (obj : Nat) : Nat :=
  match cache.objs[obj]? with
  | some o => o.size
  | none => 0

/-- The weight of a list: the sum of the sizes of its members. -/
def weight (cache : arc) (l : arc_list) : Nat :=
  ((cache.get l).head.map (objSize cache)).sum

/-- The object is linked in none of the four lists. -/
def Detached (cache : arc) (obj : Nat) : Prop :=
  ∀ l, obj ∉ (cache.get l).head

/-- The structural and accounting invariant of the cache. It holds between
the calls of `arc_lookup` and also inside `arc_move`, while one object is
unlinked. -/
structure Inv (cache : arc) : Prop where
  nodup : ∀ l, (cache.get l).head.Nodup
  state_of_mem : ∀ l obj, obj ∈ (cache.get l).head →
    ∃ o : arc_object, cache.objs[obj]? = some o ∧ o.state = some l
  acct : ∀ l, (cache.get l).size = weight cache l % ULONG_MOD
  size_lt : ∀ (obj : Nat) (o : arc_object), cache.objs[obj]? = some o → o.size < ULONG_MOD
  hash_nodup : cache.hash.Nodup
  mem_hash : ∀ l obj, obj ∈ (cache.get l).head → obj ∈ cache.hash
  hash_obj : ∀ obj, obj ∈ cache.hash → ∃ o : arc_object, cache.objs[obj]? = some o
  hash_key : ∀ (i j : Nat) (oi oj : arc_object), i ∈ cache.hash → j ∈ cache.hash →
    cache.objs[i]? = some oi → cache.objs[j]? = some oj → oi.key = oj.key → i = j

/-- Every object of the hash table is in one of the lists, the object
`pend` that `arc_move` is moving apart. -/
def Closed (cache : arc) (pend : Option Nat) : Prop :=
  ∀ obj, obj ∈ cache.hash → some obj = pend ∨ ∃ l, obj ∈ (cache.get l).head

/-- The states of a cache of capacity `c` that calls of `arc_lookup`
reach from `arc_create`, whatever the host answers. -/
def Reachable (c : Nat) (cache : arc) : Prop :=
  ∃ calls, arc_run (arc_create c) calls = .ok cache

/-- The calls in which `create` and `fetch` succeed. -/
def Call.succeeds (call : Call) : Prop :=
  call.created.isSome = true ∧ call.fetchOk = true

/-- What a run of `arc_balance`, or a part of it, leaves alone: `p`, `c`,
the objects that are in no list, the keys and sizes of all objects; it
takes objects out of the hash table and only calls `evict` and `destroy`. -/
structure Frame (s s' : arc) : Prop where
  p_eq : s'.p = s.p
  c_eq : s'.c = s.c
  len : s'.objs.length = s.objs.length
  obj_eq : ∀ obj, Detached s obj → s'.objs[obj]? = s.objs[obj]? ∧ Detached s' obj
  hash_keep : ∀ obj, Detached s obj → obj ∈ s.hash → obj ∈ s'.hash
  hash_sub : ∀ obj, obj ∈ s'.hash → obj ∈ s.hash
  trace : ∃ mid, s'.trace = s.trace ++ mid ∧
    ∀ e, e ∈ mid → (∃ i, e = Event.evict i) ∨ (∃ i, e = Event.destroy i)

/-- The state after `arc_move(cache, obj, state)` for a ghost list `state`:
the object `o` at `obj` is unlinked, evicted and linked at the head of the
ghost list. -/
def arc.evicted (cache : arc) (obj : Nat) (o : arc_object) (g : arc_list) : arc :=
  ((((cache.unlink obj o).log (.evict obj)).listAdd obj g).setState obj g).addSize g o.size

/-- The state after `arc_move(cache, obj, NULL)`. -/
def arc.destroyed (cache : arc) (obj : Nat) (o : arc_object) : arc :=
  ({ cache.unlink obj o with hash := (cache.unlink obj o).hash.erase obj } : arc).log
    (.destroy obj)

/-- The state after `arc_move(cache, obj, state)` for an object `o` at
`obj` that is in `mru` or `mfu` and a target `state` that is `mru` or `mfu`:
the object is unlinked and linked at the head of the target. -/
def arc.moved (cache : arc) (obj : Nat) (o : arc_object) (st : arc_list) : arc :=
  (((cache.unlink obj o).listAdd obj st).setState obj st).addSize st o.size

/-- The state in which `arc_move` leaves a cache `cache` that `arc_balance`
returned, after a successful `fetch` of the object `o` at `obj`. -/
def arc.fetched (cache : arc) (obj : Nat) (o : arc_object) (st : arc_list) : arc :=
  ((((cache.log (.fetch obj)).listAdd obj st).setState obj st).addSize st o.size)

/-- The state in which `arc_move` leaves a cache `cache` that `arc_balance`
returned, after a failed `fetch` of an object that came from the list `l`. -/
def arc.restored (cache : arc) (obj : Nat) (o : arc_object) (l : arc_list) : arc :=
  ((cache.log (.fetch obj)).addSize l o.size).listAdd obj l

/-- The cache of `arc_lookup` on a miss, after `create` returned a new
object of the given size at the next free address and `arc_hash_insert`
put it into the hash table. -/
def arc.created (cache : arc) (key size : Nat) : arc :=
  arc_hash_insert
    { cache.log (.create key) with objs := cache.objs ++ [arc_object_init key size] }
    key cache.objs.length

/-- The value that `arc_lookup` assigns to `p` on a hit in `mrug`. -/
def p_mrug_hit (cache : arc) : Nat :=
  MIN cache.c (uadd cache.p (MAX (cache.mfug.size / cache.mrug.size) 1))

/-- The value that `arc_lookup` assigns to `p` on a hit in `mfug`. -/
def p_mfug_hit (cache : arc) : Nat :=
  MAX 0 (usub cache.p (MAX (cache.mrug.size / cache.mfug.size) 1))

/-- The cache after a sequence of calls on a fresh cache of capacity `c`
(the fresh cache itself if the sequence runs into a fault). -/
def cacheAfter (c : Nat) (calls : List Call) : arc :=
  match arc_run (arc_create c) calls with
  | .ok cache => cache
  | .error _ => arc_create c

/-- A lookup of `key` in which `create` answers an object of size 1 and
`fetch` succeeds. -/
def Call.unit (key : Nat) : Call := ⟨key, some 1, true⟩

/-- The cache of capacity 4 after the lookups of keys 0, 1, 2, 3, one record
of size 1 each: `mru` holds the addresses 3, 2, 1, 0. -/
def cache_cold : arc :=
  cacheAfter 4 [Call.unit 0, Call.unit 1, Call.unit 2, Call.unit 3]

/-- The cache `cache_cold` after the lookup of key 4: `mru` holds 4, 3, 2, 1
and `mrug` holds 0. -/
def cache_spill : arc :=
  cacheAfter 4 [Call.unit 0, Call.unit 1, Call.unit 2, Call.unit 3, Call.unit 4]

/-- The key of the object at an address (`0` outside the memory). -/
def keyAt (cache : arc) (obj : Nat) : Nat :=
  match cache.objs[obj]? with
  | some o => o.key
  | none => 0

/-- The records of the four lists: `mru`, `mfu`, `mrug`, `mfug`. -/
def listed (cache : arc) : List Nat :=
  cache.mru.head ++ cache.mfu.head ++ cache.mrug.head ++ cache.mfug.head

/-- The number of passes through the body that `arc_while` makes. -/
def arc_while_passes (step : arc → Except Fault (Option arc)) : Nat → arc → Nat
  | 0, _ => 0
  | fuel + 1, cache =>
    match step cache with
    | .ok (some c1) => 1 + arc_while_passes step fuel c1
    | _ => 0

/-- The cache `s'` comes from `s` by steps of the first loop of
`arc_balance`: the records `S1` left the tail of `mru` for the head of
`mrug` and the records `S2` the tail of `mfu` for the head of `mfug`, each
of them evicted once (`ev` lists the calls of `evict` in their order);
nothing else was called and `p`, `c`, the hash table and the mark
`underflow` apart, nothing else changed. -/
def Trimmed (s s' : arc) : Prop :=
  ∃ S1 S2 ev : List Nat, s.mru.head = s'.mru.head ++ S1 ∧ s'.mrug.head = S1 ++ s.mrug.head ∧
    s.mfu.head = s'.mfu.head ++ S2 ∧ s'.mfug.head = S2 ++ s.mfug.head ∧
    s'.trace = s.trace ++ ev.map Event.evict ∧ ev.Perm (S1 ++ S2) ∧
    s'.p = s.p ∧ s'.c = s.c ∧ s'.hash = s.hash

/-- The cache `s'` comes from `s` by steps of the second loop of
`arc_balance`: the records `D1` left the tail of `mrug` and the records `D2`
the tail of `mfug`, each of them was destroyed once and left the hash table
(`ev` lists the calls of `destroy` in their order); `mru`, `mfu`, `p` and
`c` are unchanged. -/
def Dropped (s s' : arc) : Prop :=
  ∃ D1 D2 ev : List Nat, s.mrug.head = s'.mrug.head ++ D1 ∧ s.mfug.head = s'.mfug.head ++ D2 ∧
    s'.trace = s.trace ++ ev.map Event.destroy ∧ ev.Perm (D1 ++ D2) ∧
    (∀ obj, obj ∈ s'.hash ↔ obj ∈ s.hash ∧ obj ∉ D1 ++ D2) ∧
    s'.mru = s.mru ∧ s'.mfu = s.mfu ∧ s'.p = s.p ∧ s'.c = s.c

/-- The addresses `top - 1`, `top - 2`, ..., `top - len`, in that order. -/
def countdown (top len : Nat) : List Nat :=
  (List.range len).map (fun j => top - 1 - j)

/-- The cache of capacity `c` after the lookups of the pairwise distinct
keys `done`, one record of size 1 each: the record of the `i`-th key is at
address `i`; `mru` holds the newest `min n c` addresses, newest first,
`mrug` the `min (n - c) c` addresses before them, `mfu` and `mfug` are
empty, `p` is `c / 2`, and `destroy` was called on every older record. -/
structure Cold (c : Nat) (done : List Nat) (s : arc) : Prop where
  c_eq : s.c = c
  p_eq : s.p = c / 2
  keys : s.objs.map (fun o => o.key) = done
  sizes : ∀ x, x ∈ s.objs.map (fun o => o.size) → x = 1
  mru : s.mru = ⟨min done.length c, countdown done.length (min done.length c)⟩
  mrug : s.mrug = ⟨min (done.length - c) c,
    countdown (done.length - c) (min (done.length - c) c)⟩
  mfu : s.mfu = ⟨0, []⟩
  mfug : s.mfug = ⟨0, []⟩
  gone : ∀ i, i + min done.length c + min (done.length - c) c < done.length →
    Event.destroy i ∈ s.trace

/-- The sum of the sizes of the records of the four lists. -/
def listedWeight (cache : arc) : Nat :=
  weight cache .mru + weight cache .mfu + weight cache .mrug + weight cache .mfug

/-- The cache of capacity 1 after the lookups of keys 0, 1, 1 (records of
size 1, `fetch` succeeding) and a lookup of key 0 in which `fetch` fails:
`mrug` holds the record of key 0, `mfug` the record of key 1, `p = 1`. -/
def cache_ghosts : arc :=
  cacheAfter 1 [Call.unit 0, Call.unit 1, Call.unit 1, ⟨0, some 1, false⟩]

/-- The states that lookups in which `create` and `fetch` succeed reach. -/
def ReachableOk (c : Nat) (cache : arc) : Prop :=
  ∃ calls, (∀ call, call ∈ calls → Call.succeeds call) ∧
    arc_run (arc_create c) calls = .ok cache

/-! ## Field access after the primitive updates -/

@[simp] theorem get_set (s : arc) (l l' : arc_list) (st : arc_state) :
    (s.set l st).get l' = if l' = l then st else s.get l' := by
  cases l <;> cases l' <;> rfl

@[simp] theorem objs_set (s : arc) (l : arc_list) (st : arc_state) : (s.set l st).objs = s.objs := by
  cases l <;> rfl
@[simp] theorem hash_set (s : arc) (l : arc_list) (st : arc_state) : (s.set l st).hash = s.hash := by
  cases l <;> rfl
@[simp] theorem trace_set (s : arc) (l : arc_list) (st : arc_state) : (s.set l st).trace = s.trace := by
  cases l <;> rfl
@[simp] theorem p_set (s : arc) (l : arc_list) (st : arc_state) : (s.set l st).p = s.p := by
  cases l <;> rfl
@[simp] theorem c_set (s : arc) (l : arc_list) (st : arc_state) : (s.set l st).c = s.c := by
  cases l <;> rfl

@[simp] theorem get_listDel (s : arc) (obj : Nat) (l : arc_list) :
    (s.listDel obj).get l = { s.get l with head := (s.get l).head.erase obj } := by
  cases l <;> rfl
@[simp] theorem objs_listDel (s : arc) (obj : Nat) : (s.listDel obj).objs = s.objs := rfl
@[simp] theorem hash_listDel (s : arc) (obj : Nat) : (s.listDel obj).hash = s.hash := rfl
@[simp] theorem trace_listDel (s : arc) (obj : Nat) : (s.listDel obj).trace = s.trace := rfl
@[simp] theorem p_listDel (s : arc) (obj : Nat) : (s.listDel obj).p = s.p := rfl
@[simp] theorem c_listDel (s : arc) (obj : Nat) : (s.listDel obj).c = s.c := rfl

@[simp] theorem get_log (s : arc) (e : Event) (l : arc_list) : (s.log e).get l = s.get l := by
  cases l <;> rfl
@[simp] theorem objs_log (s : arc) (e : Event) : (s.log e).objs = s.objs := rfl
@[simp] theorem hash_log (s : arc) (e : Event) : (s.log e).hash = s.hash := rfl
@[simp] theorem trace_log (s : arc) (e : Event) : (s.log e).trace = s.trace ++ [e] := rfl
@[simp] theorem p_log (s : arc) (e : Event) : (s.log e).p = s.p := rfl
@[simp] theorem c_log (s : arc) (e : Event) : (s.log e).c = s.c := rfl

@[simp] theorem get_setState (s : arc) (obj : Nat) (l l' : arc_list) :
    (s.setState obj l).get l' = s.get l' := by
  unfold arc.setState; split <;> cases l' <;> rfl
@[simp] theorem hash_setState (s : arc) (obj : Nat) (l : arc_list) :
    (s.setState obj l).hash = s.hash := by
  unfold arc.setState; split <;> rfl
@[simp] theorem trace_setState (s : arc) (obj : Nat) (l : arc_list) :
    (s.setState obj l).trace = s.trace := by
  unfold arc.setState; split <;> rfl
@[simp] theorem p_setState (s : arc) (obj : Nat) (l : arc_list) : (s.setState obj l).p = s.p := by
  unfold arc.setState; split <;> rfl
@[simp] theorem c_setState (s : arc) (obj : Nat) (l : arc_list) : (s.setState obj l).c = s.c := by
  unfold arc.setState; split <;> rfl

theorem objs_setState (s : arc) (obj : Nat) (l : arc_list) (o : arc_object)
    (h : s.objs[obj]? = some o) :
    (s.setState obj l).objs = s.objs.set obj { o with state := some l } := by
  unfold arc.setState; rw [h]

@[simp] theorem get_hash_erase (s : arc) (h : List Nat) (l : arc_list) :
    ({ s with hash := h } : arc).get l = s.get l := by
  cases l <;> rfl
@[simp] theorem get_p_update (s : arc) (p : Nat) (l : arc_list) :
    ({ s with p := p } : arc).get l = s.get l := by
  cases l <;> rfl
@[simp] theorem get_objs_update (s : arc) (os : List arc_object) (l : arc_list) :
    ({ s with objs := os } : arc).get l = s.get l := by
  cases l <;> rfl
@[simp] theorem get_subSize (s : arc) (l l' : arc_list) (size : Nat) :
    (s.subSize l size).get l' =
      if l' = l then { s.get l with size := usub (s.get l).size size } else s.get l' := by
  cases l <;> cases l' <;> rfl
@[simp] theorem objs_subSize (s : arc) (l : arc_list) (size : Nat) :
    (s.subSize l size).objs = s.objs := by
  cases l <;> rfl
@[simp] theorem hash_subSize (s : arc) (l : arc_list) (size : Nat) :
    (s.subSize l size).hash = s.hash := by
  cases l <;> rfl
@[simp] theorem trace_subSize (s : arc) (l : arc_list) (size : Nat) :
    (s.subSize l size).trace = s.trace := by
  cases l <;> rfl
@[simp] theorem p_subSize (s : arc) (l : arc_list) (size : Nat) :
    (s.subSize l size).p = s.p := by
  cases l <;> rfl
@[simp] theorem c_subSize (s : arc) (l : arc_list) (size : Nat) :
    (s.subSize l size).c = s.c := by
  cases l <;> rfl
@[simp] theorem get_underflow_update (s : arc) (b : Bool) (l : arc_list) :
    ({ s with underflow := b } : arc).get l = s.get l := by
  cases l <;> rfl
@[simp] theorem get_hash_insert (s : arc) (k obj : Nat) (l : arc_list) :
    (arc_hash_insert s k obj).get l = s.get l := by
  cases l <;> rfl

/-- Reading the memory after `obj->state = state` elsewhere or here. -/
theorem getElem?_set_state (os : List arc_object) (obj id : Nat) (o : arc_object)
    (l : arc_list) (h : os[obj]? = some o) :
    (os.set obj { o with state := some l })[id]? =
      if id = obj then some { o with state := some l } else os[id]? := by
  rw [List.getElem?_set]
  by_cases hid : id = obj
  · subst hid
    have : id < os.length := by
      rcases List.getElem?_eq_some.1 h with ⟨hlt, _⟩; exact hlt
    simp [this]
  · have : ¬ obj = id := fun e => hid e.symm
    simp [hid, this]

/-! ## The two halves of `arc_move` -/

@[simp] theorem objs_unlink (s : arc) (obj : Nat) (o : arc_object) :
    (s.unlink obj o).objs = s.objs := by
  unfold arc.unlink; split <;> simp
@[simp] theorem hash_unlink (s : arc) (obj : Nat) (o : arc_object) :
    (s.unlink obj o).hash = s.hash := by
  unfold arc.unlink; split <;> simp
@[simp] theorem trace_unlink (s : arc) (obj : Nat) (o : arc_object) :
    (s.unlink obj o).trace = s.trace := by
  unfold arc.unlink; split <;> simp
@[simp] theorem p_unlink (s : arc) (obj : Nat) (o : arc_object) :
    (s.unlink obj o).p = s.p := by
  unfold arc.unlink; split <;> simp
@[simp] theorem c_unlink (s : arc) (obj : Nat) (o : arc_object) :
    (s.unlink obj o).c = s.c := by
  unfold arc.unlink; split <;> simp

theorem unlink_none (s : arc) (obj : Nat) (o : arc_object) (h : o.state = none) :
    s.unlink obj o = s := by
  unfold arc.unlink; rw [h]

theorem get_unlink_same (s : arc) (obj : Nat) (o : arc_object) (l : arc_list)
    (h : o.state = some l) :
    (s.unlink obj o).get l = ⟨usub (s.get l).size o.size, (s.get l).head.erase obj⟩ := by
  unfold arc.unlink; rw [h]; simp

theorem get_unlink_other (s : arc) (obj : Nat) (o : arc_object) (l l' : arc_list)
    (h : o.state = some l) (hne : l' ≠ l) (hnot : obj ∉ (s.get l').head) :
    (s.unlink obj o).get l' = s.get l' := by
  unfold arc.unlink; rw [h]
  simp [hne, List.erase_of_not_mem hnot]

theorem objSize_eq_of_objs (s s' : arc) (h : s'.objs = s.objs) (id : Nat) :
    objSize s' id = objSize s id := by
  unfold objSize; rw [h]

theorem weight_eq_of (s s' : arc) (l : arc_list) (h : s'.objs = s.objs)
    (hg : s'.get l = s.get l) : weight s' l = weight s l := by
  unfold weight; rw [hg]
  congr 1
  apply List.map_congr_left
  intro id _
  exact objSize_eq_of_objs s s' h id

/-- The invariant only reads the lists, the memory and the hash table. -/
theorem Inv.congr {s s' : arc} (hI : Inv s) (hg : ∀ l, s'.get l = s.get l)
    (ho : s'.objs = s.objs) (hh : s'.hash = s.hash) : Inv s' where
  nodup l := by rw [hg]; exact hI.nodup l
  state_of_mem l obj h := by rw [hg] at h; rw [ho]; exact hI.state_of_mem l obj h
  acct l := by rw [hg, weight_eq_of s s' l ho (hg l)]; exact hI.acct l
  size_lt obj o h := by rw [ho] at h; exact hI.size_lt obj o h
  hash_nodup := by rw [hh]; exact hI.hash_nodup
  mem_hash l obj h := by rw [hg] at h; rw [hh]; exact hI.mem_hash l obj h
  hash_obj obj h := by rw [hh] at h; rw [ho]; exact hI.hash_obj obj h
  hash_key i j oi oj hi hj hoi hoj hk := by
    rw [hh] at hi hj; rw [ho] at hoi hoj; exact hI.hash_key i j oi oj hi hj hoi hoj hk

/-- An object is in at most one list. -/
theorem Inv.list_unique {s : arc} (hI : Inv s) {l l' : arc_list} {obj : Nat}
    (h : obj ∈ (s.get l).head) (h' : obj ∈ (s.get l').head) : l = l' := by
  rcases hI.state_of_mem l obj h with ⟨o, ho, hs⟩
  rcases hI.state_of_mem l' obj h' with ⟨o', ho', hs'⟩
  rw [ho] at ho'
  cases ho'
  rw [hs] at hs'
  exact Option.some.inj hs'

theorem usub_weight (w size : Nat) (h : size < ULONG_MOD) :
    usub ((size + w) % ULONG_MOD) size = w % ULONG_MOD := by
  unfold usub
  simp only [ULONG_MOD] at *
  omega

theorem uadd_weight (w size : Nat) :
    uadd (w % ULONG_MOD) size = (size + w) % ULONG_MOD := by
  unfold uadd
  simp only [ULONG_MOD] at *
  omega

/-- Unlinking a listed object keeps the invariant and leaves the object in
no list. -/
theorem Inv.unlink {s : arc} (hI : Inv s) {obj : Nat} {o : arc_object} {l : arc_list}
    (ho : s.objs[obj]? = some o) (hl : o.state = some l) (hm : obj ∈ (s.get l).head) :
    Inv (s.unlink obj o) ∧ Detached (s.unlink obj o) obj := by
  have hother : ∀ l', l' ≠ l → obj ∉ (s.get l').head := fun l' hne hmem =>
    hne (hI.list_unique hmem hm)
  have hget : ∀ l', ((s.unlink obj o).get l').head = (s.get l').head.erase obj := by
    intro l'
    by_cases hne : l' = l
    · subst hne; rw [get_unlink_same s obj o l' hl]
    · rw [get_unlink_other s obj o l l' hl hne (hother l' hne),
        List.erase_of_not_mem (hother l' hne)]
  have hsub : ∀ l' id, id ∈ ((s.unlink obj o).get l').head → id ∈ (s.get l').head := by
    intro l' id hid
    rw [hget] at hid
    exact List.mem_of_mem_erase hid
  refine ⟨?_, ?_⟩
  · refine ⟨?_, ?_, ?_, ?_, ?_, ?_, ?_, ?_⟩
    · intro l'; rw [hget]; exact (hI.nodup l').erase obj
    · intro l' id hid
      rw [objs_unlink]
      exact hI.state_of_mem l' id (hsub l' id hid)
    · intro l'
      by_cases hne : l' = l
      · subst hne
        have hw : weight (s.unlink obj o) l' =
            ((List.map (objSize s) ((s.get l').head.erase obj))).sum := by
          unfold weight
          rw [get_unlink_same s obj o l' hl]
          congr 1
          apply List.map_congr_left
          intro id _
          exact objSize_eq_of_objs s _ (objs_unlink s obj o) id
        have hsum := List.sum_map_erase (objSize s) hm
        have hos : objSize s obj = o.size := by unfold objSize; rw [ho]
        rw [hw, get_unlink_same s obj o l' hl]
        show usub (s.get l').size o.size = _
        rw [hI.acct l']
        unfold weight
        rw [← hsum, hos]
        exact usub_weight _ _ (hI.size_lt obj o ho)
      · rw [weight_eq_of s _ l' (objs_unlink s obj o)
          (get_unlink_other s obj o l l' hl hne (hother l' hne)),
          get_unlink_other s obj o l l' hl hne (hother l' hne)]
        exact hI.acct l'
    · intro id o' h; rw [objs_unlink] at h; exact hI.size_lt id o' h
    · rw [hash_unlink]; exact hI.hash_nodup
    · intro l' id hid; rw [hash_unlink]; exact hI.mem_hash l' id (hsub l' id hid)
    · intro id hid; rw [hash_unlink] at hid; rw [objs_unlink]; exact hI.hash_obj id hid
    · intro i j oi oj hi hj hoi hoj hk
      rw [hash_unlink] at hi hj; rw [objs_unlink] at hoi hoj
      exact hI.hash_key i j oi oj hi hj hoi hoj hk
  · intro l' hmem
    rw [hget] at hmem
    exact ((hI.nodup l').mem_erase_iff.1 hmem).1 rfl

theorem objSize_eq_of_state (s s' : arc) (obj : Nat) (o : arc_object) (l : arc_list)
    (ho : s.objs[obj]? = some o)
    (hobjs : ∀ id, s'.objs[id]? = if id = obj then some { o with state := some l } else s.objs[id]?)
    (id : Nat) : objSize s' id = objSize s id := by
  unfold objSize
  rw [hobjs id]
  by_cases h : id = obj
  · subst h; simp [ho]
  · simp [h]

/-- Putting a detached, hashed object at the head of a list, with the size
of the list raised and the state of the object naming the list, keeps the
invariant. -/
theorem Inv.insert {s s' : arc} (hI : Inv s) {obj : Nat} {o : arc_object} {l : arc_list}
    (hd : Detached s obj) (ho : s.objs[obj]? = some o) (hh : obj ∈ s.hash)
    (hg : ∀ l', s'.get l' =
      if l' = l then ⟨uadd (s.get l).size o.size, obj :: (s.get l).head⟩ else s.get l')
    (hobjs : ∀ id, s'.objs[id]? =
      if id = obj then some { o with state := some l } else s.objs[id]?)
    (hhash : s'.hash = s.hash) : Inv s' := by
  have hsz := objSize_eq_of_state s s' obj o l ho hobjs
  refine ⟨?_, ?_, ?_, ?_, ?_, ?_, ?_, ?_⟩
  · intro l'
    rw [hg]
    by_cases h : l' = l
    · subst h; simp only [if_true]
      exact List.nodup_cons.2 ⟨hd l', hI.nodup l'⟩
    · simp only [h, if_false]; exact hI.nodup l'
  · intro l' id hid
    rw [hg] at hid
    by_cases h : l' = l
    · subst h
      simp only [if_true, List.mem_cons] at hid
      rw [hobjs]
      rcases hid with hid | hid
      · subst hid; simp
      · have hne : id ≠ obj := fun e => hd l' (e ▸ hid)
        simp only [hne, if_false]
        exact hI.state_of_mem l' id hid
    · simp only [h, if_false] at hid
      have hne : id ≠ obj := fun e => hd l' (e ▸ hid)
      rw [hobjs]
      simp only [hne, if_false]
      exact hI.state_of_mem l' id hid
  · intro l'
    have hw : weight s' l' = ((s'.get l').head.map (objSize s)).sum := by
      unfold weight
      congr 1
      exact List.map_congr_left (fun id _ => hsz id)
    rw [hw, hg]
    by_cases h : l' = l
    · subst h
      simp only [if_true, List.map_cons, List.sum_cons]
      have hos : objSize s obj = o.size := by unfold objSize; rw [ho]
      rw [hI.acct l', hos]
      exact uadd_weight _ _
    · simp only [h, if_false]; exact hI.acct l'
  · intro id o' h
    rw [hobjs] at h
    by_cases hid : id = obj
    · simp only [hid, if_true, Option.some.injEq] at h
      subst h
      exact hI.size_lt obj o ho
    · simp only [hid, if_false] at h
      exact hI.size_lt id o' h
  · rw [hhash]; exact hI.hash_nodup
  · intro l' id hid
    rw [hhash]
    rw [hg] at hid
    by_cases h : l' = l
    · subst h
      simp only [if_true, List.mem_cons] at hid
      rcases hid with hid | hid
      · subst hid; exact hh
      · exact hI.mem_hash l' id hid
    · simp only [h, if_false] at hid
      exact hI.mem_hash l' id hid
  · intro id hid
    rw [hhash] at hid
    rw [hobjs]
    by_cases h : id = obj
    · simp [h]
    · simp only [h, if_false]; exact hI.hash_obj id hid
  · intro i j oi oj hi hj hoi hoj hk
    rw [hhash] at hi hj
    have key : ∀ (id : Nat) (oid : arc_object), s'.objs[id]? = some oid →
        ∃ o' : arc_object, s.objs[id]? = some o' ∧ o'.key = oid.key := by
      intro id oid h
      rw [hobjs] at h
      by_cases hid : id = obj
      · simp only [hid, if_true, Option.some.injEq] at h
        subst h
        exact ⟨o, hid ▸ ho, rfl⟩
      · simp only [hid, if_false] at h
        exact ⟨oid, h, rfl⟩
    rcases key i oi hoi with ⟨oi', hoi', hki⟩
    rcases key j oj hoj with ⟨oj', hoj', hkj⟩
    exact hI.hash_key i j oi' oj' hi hj hoi' hoj' (by rw [hki, hkj, hk])

/-- The tail of `arc_move` succeeds on an object of the memory. -/
theorem link_eq (s : arc) (obj : Nat) (o : arc_object) (l : arc_list)
    (ho : s.objs[obj]? = some o) :
    s.link obj l = .ok (((s.listAdd obj l).setState obj l).addSize l o.size, some obj) := by
  unfold arc.link
  have h1 : (s.listAdd obj l).objs[obj]? = some o := by simp [arc.listAdd, ho]
  have h2 : ((s.listAdd obj l).setState obj l).objs[obj]? = some { o with state := some l } := by
    rw [objs_setState _ obj l o h1, getElem?_set_state _ obj obj o l h1]
    simp
  simp only [h2]

theorem get_linked (s : arc) (obj : Nat) (size : Nat) (l l' : arc_list) :
    (((s.listAdd obj l).setState obj l).addSize l size).get l' =
      if l' = l then ⟨uadd (s.get l).size size, obj :: (s.get l).head⟩ else s.get l' := by
  by_cases h : l' = l
  · subst h; simp [arc.addSize, arc.listAdd]
  · simp [arc.addSize, arc.listAdd, h]

theorem objs_linked (s : arc) (obj : Nat) (o : arc_object) (l : arc_list)
    (ho : s.objs[obj]? = some o) (id : Nat) :
    (((s.listAdd obj l).setState obj l).addSize l o.size).objs[id]? =
      if id = obj then some { o with state := some l } else s.objs[id]? := by
  have h1 : (s.listAdd obj l).objs[obj]? = some o := by simp [arc.listAdd, ho]
  simp only [arc.addSize, objs_set]
  rw [objs_setState _ obj l o h1, getElem?_set_state _ obj id o l h1]
  simp [arc.listAdd]

@[simp] theorem hash_linked (s : arc) (obj : Nat) (size : Nat) (l : arc_list) :
    (((s.listAdd obj l).setState obj l).addSize l size).hash = s.hash := by
  simp [arc.addSize, arc.listAdd]
@[simp] theorem trace_linked (s : arc) (obj : Nat) (size : Nat) (l : arc_list) :
    (((s.listAdd obj l).setState obj l).addSize l size).trace = s.trace := by
  simp [arc.addSize, arc.listAdd]
@[simp] theorem p_linked (s : arc) (obj : Nat) (size : Nat) (l : arc_list) :
    (((s.listAdd obj l).setState obj l).addSize l size).p = s.p := by
  simp [arc.addSize, arc.listAdd]
@[simp] theorem c_linked (s : arc) (obj : Nat) (size : Nat) (l : arc_list) :
    (((s.listAdd obj l).setState obj l).addSize l size).c = s.c := by
  simp [arc.addSize, arc.listAdd]

theorem Inv.link {s : arc} (hI : Inv s) {obj : Nat} {o : arc_object} (l : arc_list)
    (hd : Detached s obj) (ho : s.objs[obj]? = some o) (hh : obj ∈ s.hash) :
    Inv (((s.listAdd obj l).setState obj l).addSize l o.size) :=
  hI.insert hd ho hh (get_linked s obj o.size l) (objs_linked s obj o l ho)
    (hash_linked s obj o.size l)

theorem get_restored (s : arc) (obj : Nat) (size : Nat) (l l' : arc_list) :
    ((s.addSize l size).listAdd obj l).get l' =
      if l' = l then ⟨uadd (s.get l).size size, obj :: (s.get l).head⟩ else s.get l' := by
  by_cases h : l' = l
  · subst h; simp [arc.addSize, arc.listAdd]
  · simp [arc.addSize, arc.listAdd, h]

/-- The fetch-failure path of `arc_move` on an object that came from a list. -/
theorem Inv.restore {s : arc} (hI : Inv s) {obj : Nat} {o : arc_object} {l : arc_list}
    (hd : Detached s obj) (ho : s.objs[obj]? = some o) (hl : o.state = some l)
    (hh : obj ∈ s.hash) : Inv ((s.addSize l o.size).listAdd obj l) := by
  refine hI.insert hd ho hh (get_restored s obj o.size l) ?_ (by simp [arc.addSize, arc.listAdd])
  intro id
  have : ({ o with state := some l } : arc_object) = o := by
    cases o; simp only at hl; subst hl; rfl
  rw [this]
  by_cases h : id = obj
  · subst h; simp [arc.addSize, arc.listAdd, ho]
  · simp [arc.addSize, arc.listAdd, h]

/-! ## The moves made by `arc_balance` -/

theorem head_unlink {s : arc} (hI : Inv s) {obj : Nat} {o : arc_object} {l : arc_list}
    (hl : o.state = some l) (hm : obj ∈ (s.get l).head) (l' : arc_list) :
    ((s.unlink obj o).get l').head = (s.get l').head.erase obj := by
  by_cases hne : l' = l
  · subst hne; rw [get_unlink_same s obj o l' hl]
  · have hnot : obj ∉ (s.get l').head := fun hmem => hne (hI.list_unique hmem hm)
    rw [get_unlink_other s obj o l l' hl hne hnot, List.erase_of_not_mem hnot]

theorem size_unlink {s : arc} (hI : Inv s) {obj : Nat} {o : arc_object} {l : arc_list}
    (hl : o.state = some l) (hm : obj ∈ (s.get l).head) (l' : arc_list) :
    ((s.unlink obj o).get l').size =
      if l' = l then usub (s.get l).size o.size else (s.get l').size := by
  by_cases hne : l' = l
  · subst hne; rw [get_unlink_same s obj o l' hl]; simp
  · have hnot : obj ∉ (s.get l').head := fun hmem => hne (hI.list_unique hmem hm)
    rw [get_unlink_other s obj o l l' hl hne hnot]; simp [hne]

theorem mem_unlink {s : arc} (hI : Inv s) {obj : Nat} {o : arc_object} {l : arc_list}
    (hl : o.state = some l) (hm : obj ∈ (s.get l).head) (l' : arc_list) (id : Nat) :
    id ∈ ((s.unlink obj o).get l').head ↔ id ≠ obj ∧ id ∈ (s.get l').head := by
  rw [head_unlink hI hl hm l']
  exact (hI.nodup l').mem_erase_iff

theorem arc_move_gen_ghost (bal : arc → Nat → Except Fault arc) (s : arc) (obj : Nat)
    (o : arc_object) (g : arc_list) (f : Bool) (ho : s.objs[obj]? = some o)
    (hg : g = .mrug ∨ g = .mfug) :
    arc_move_gen bal s obj (some g) f = .ok (s.evicted obj o g, some obj) := by
  unfold arc_move_gen
  simp only [ho, hg, if_true]
  rw [link_eq _ obj o g (by simp [ho])]
  rfl

theorem arc_move_gen_none (bal : arc → Nat → Except Fault arc) (s : arc) (obj : Nat)
    (o : arc_object) (f : Bool) (ho : s.objs[obj]? = some o) :
    arc_move_gen bal s obj none f = .ok (s.destroyed obj o, none) := by
  unfold arc_move_gen
  simp only [ho]
  rfl

theorem get_evicted (s : arc) (obj : Nat) (o : arc_object) (g l' : arc_list) :
    (s.evicted obj o g).get l' =
      if l' = g then ⟨uadd ((s.unlink obj o).get g).size o.size,
        obj :: ((s.unlink obj o).get g).head⟩
      else (s.unlink obj o).get l' := by
  unfold arc.evicted
  rw [get_linked]
  simp

theorem objs_evicted (s : arc) (obj : Nat) (o : arc_object) (g : arc_list)
    (ho : s.objs[obj]? = some o) (id : Nat) :
    (s.evicted obj o g).objs[id]? =
      if id = obj then some { o with state := some g } else s.objs[id]? := by
  unfold arc.evicted
  rw [objs_linked _ obj o g (by simp [ho])]
  simp

@[simp] theorem hash_evicted (s : arc) (obj : Nat) (o : arc_object) (g : arc_list) :
    (s.evicted obj o g).hash = s.hash := by
  unfold arc.evicted; simp
@[simp] theorem trace_evicted (s : arc) (obj : Nat) (o : arc_object) (g : arc_list) :
    (s.evicted obj o g).trace = s.trace ++ [.evict obj] := by
  unfold arc.evicted; simp
@[simp] theorem p_evicted (s : arc) (obj : Nat) (o : arc_object) (g : arc_list) :
    (s.evicted obj o g).p = s.p := by
  unfold arc.evicted; simp
@[simp] theorem c_evicted (s : arc) (obj : Nat) (o : arc_object) (g : arc_list) :
    (s.evicted obj o g).c = s.c := by
  unfold arc.evicted; simp

@[simp] theorem get_destroyed (s : arc) (obj : Nat) (o : arc_object) (l' : arc_list) :
    (s.destroyed obj o).get l' = (s.unlink obj o).get l' := by
  unfold arc.destroyed; rw [get_log, get_hash_erase]
@[simp] theorem objs_destroyed (s : arc) (obj : Nat) (o : arc_object) :
    (s.destroyed obj o).objs = s.objs := by
  unfold arc.destroyed; simp
@[simp] theorem hash_destroyed (s : arc) (obj : Nat) (o : arc_object) :
    (s.destroyed obj o).hash = s.hash.erase obj := by
  unfold arc.destroyed; simp
@[simp] theorem trace_destroyed (s : arc) (obj : Nat) (o : arc_object) :
    (s.destroyed obj o).trace = s.trace ++ [.destroy obj] := by
  unfold arc.destroyed; simp
@[simp] theorem p_destroyed (s : arc) (obj : Nat) (o : arc_object) :
    (s.destroyed obj o).p = s.p := by
  unfold arc.destroyed; simp
@[simp] theorem c_destroyed (s : arc) (obj : Nat) (o : arc_object) :
    (s.destroyed obj o).c = s.c := by
  unfold arc.destroyed; simp

theorem mem_evicted {s : arc} (hI : Inv s) {obj : Nat} {o : arc_object} {l : arc_list}
    (hl : o.state = some l) (hm : obj ∈ (s.get l).head) (g l' : arc_list) (id : Nat) :
    id ∈ ((s.evicted obj o g).get l').head ↔
      (id = obj ∧ l' = g) ∨ (id ≠ obj ∧ id ∈ (s.get l').head) := by
  rw [get_evicted]
  by_cases h : l' = g
  · subst h
    simp only [if_true, List.mem_cons, mem_unlink hI hl hm]
    tauto
  · simp only [h, if_false, mem_unlink hI hl hm]
    tauto

theorem mem_destroyed {s : arc} (hI : Inv s) {obj : Nat} {o : arc_object} {l : arc_list}
    (hl : o.state = some l) (hm : obj ∈ (s.get l).head) (l' : arc_list) (id : Nat) :
    id ∈ ((s.destroyed obj o).get l').head ↔ id ≠ obj ∧ id ∈ (s.get l').head := by
  rw [get_destroyed]
  exact mem_unlink hI hl hm l' id

theorem Inv.evicted {s : arc} (hI : Inv s) {obj : Nat} {o : arc_object} {l : arc_list}
    (ho : s.objs[obj]? = some o) (hl : o.state = some l) (hm : obj ∈ (s.get l).head)
    (g : arc_list) : Inv (s.evicted obj o g) := by
  rcases hI.unlink ho hl hm with ⟨h1, hd⟩
  have h2 : Inv ((s.unlink obj o).log (.evict obj)) :=
    h1.congr (fun l' => get_log _ _ l') rfl rfl
  have hd2 : Detached ((s.unlink obj o).log (.evict obj)) obj := by
    intro l'; rw [get_log]; exact hd l'
  exact h2.link g hd2 (by simp [ho]) (by simpa using hI.mem_hash l obj hm)

theorem Inv.destroyed {s : arc} (hI : Inv s) {obj : Nat} {o : arc_object} {l : arc_list}
    (ho : s.objs[obj]? = some o) (hl : o.state = some l) (hm : obj ∈ (s.get l).head) :
    Inv (s.destroyed obj o) := by
  rcases hI.unlink ho hl hm with ⟨h1, hd⟩
  refine ⟨?_, ?_, ?_, ?_, ?_, ?_, ?_, ?_⟩
  · intro l'; rw [get_destroyed]; exact h1.nodup l'
  · intro l' id hid; rw [get_destroyed] at hid; rw [objs_destroyed]
    simpa using h1.state_of_mem l' id hid
  · intro l'
    rw [weight_eq_of (s.unlink obj o) _ l' (by simp) (get_destroyed s obj o l'), get_destroyed]
    exact h1.acct l'
  · intro id o' h; rw [objs_destroyed] at h; exact hI.size_lt id o' h
  · rw [hash_destroyed]; exact hI.hash_nodup.erase obj
  · intro l' id hid
    rw [hash_destroyed]
    have hid' := (mem_destroyed hI hl hm l' id).1 hid
    exact (List.mem_erase_of_ne hid'.1).2 (hI.mem_hash l' id hid'.2)
  · intro id hid
    rw [hash_destroyed] at hid; rw [objs_destroyed]
    exact hI.hash_obj id (List.mem_of_mem_erase hid)
  · intro i j oi oj hi hj hoi hoj hk
    rw [hash_destroyed] at hi hj; rw [objs_destroyed] at hoi hoj
    exact hI.hash_key i j oi oj (List.mem_of_mem_erase hi) (List.mem_of_mem_erase hj) hoi hoj hk

theorem Frame.refl (s : arc) : Frame s s where
  p_eq := rfl
  c_eq := rfl
  len := rfl
  obj_eq _ h := ⟨rfl, h⟩
  hash_keep _ _ h := h
  hash_sub _ h := h
  trace := ⟨[], by simp, by simp⟩

theorem Frame.trans {s1 s2 s3 : arc} (h12 : Frame s1 s2) (h23 : Frame s2 s3) : Frame s1 s3 where
  p_eq := h23.p_eq.trans h12.p_eq
  c_eq := h23.c_eq.trans h12.c_eq
  len := h23.len.trans h12.len
  obj_eq obj h := by
    rcases h12.obj_eq obj h with ⟨e1, d2⟩
    rcases h23.obj_eq obj d2 with ⟨e2, d3⟩
    exact ⟨e2.trans e1, d3⟩
  hash_keep obj h hh := h23.hash_keep obj (h12.obj_eq obj h).2 (h12.hash_keep obj h hh)
  hash_sub obj h := h12.hash_sub obj (h23.hash_sub obj h)
  trace := by
    rcases h12.trace with ⟨m1, e1, p1⟩
    rcases h23.trace with ⟨m2, e2, p2⟩
    refine ⟨m1 ++ m2, by rw [e2, e1, List.append_assoc], ?_⟩
    intro e he
    rcases List.mem_append.1 he with h | h
    · exact p1 e h
    · exact p2 e h

theorem frame_evicted {s : arc} (hI : Inv s) {obj : Nat} {o : arc_object} {l : arc_list}
    (ho : s.objs[obj]? = some o) (hl : o.state = some l) (hm : obj ∈ (s.get l).head)
    (g : arc_list) : Frame s (s.evicted obj o g) where
  p_eq := by simp
  c_eq := by simp
  len := by
    have h : ∀ id : Nat, (s.evicted obj o g).objs[id]? = none ↔ s.objs[id]? = none := by
      intro id
      rw [objs_evicted s obj o g ho]
      by_cases hid : id = obj
      · subst hid; simp [ho]
      · simp [hid]
    apply Nat.le_antisymm
    · exact List.getElem?_eq_none_iff.1 ((h _).2 (List.getElem?_eq_none (Nat.le_refl _)))
    · exact List.getElem?_eq_none_iff.1 ((h _).1 (List.getElem?_eq_none (Nat.le_refl _)))
  obj_eq id hd := by
    have hne : id ≠ obj := fun e => hd l (e ▸ hm)
    refine ⟨by rw [objs_evicted s obj o g ho]; simp [hne], ?_⟩
    intro l' hmem
    rcases (mem_evicted hI hl hm g l' id).1 hmem with h | h
    · exact hne h.1
    · exact hd l' h.2
  hash_keep id _ hh := by simpa using hh
  hash_sub id hh := by simpa using hh
  trace := ⟨[.evict obj], by simp, by simp⟩

theorem frame_destroyed {s : arc} (hI : Inv s) {obj : Nat} {o : arc_object} {l : arc_list}
    (hl : o.state = some l) (hm : obj ∈ (s.get l).head) :
    Frame s (s.destroyed obj o) where
  p_eq := by simp
  c_eq := by simp
  len := by simp
  obj_eq id hd := by
    refine ⟨by simp, ?_⟩
    intro l' hmem
    exact hd l' ((mem_destroyed hI hl hm l' id).1 hmem).2
  hash_keep id hd hh := by
    have hne : id ≠ obj := fun e => hd l (e ▸ hm)
    rw [hash_destroyed]
    exact (List.mem_erase_of_ne hne).2 hh
  hash_sub id hh := by
    rw [hash_destroyed] at hh
    exact List.mem_of_mem_erase hh
  trace := ⟨[.destroy obj], by simp, by simp⟩

theorem Closed.keep_evicted {s : arc} (hI : Inv s) {obj : Nat} {o : arc_object} {l : arc_list}
    (hl : o.state = some l) (hm : obj ∈ (s.get l).head) (g : arc_list) {pend : Option Nat}
    (hC : Closed s pend) : Closed (s.evicted obj o g) pend := by
  intro id hid
  rw [hash_evicted] at hid
  rcases hC id hid with h | ⟨l', h⟩
  · exact Or.inl h
  · right
    by_cases hne : id = obj
    · exact ⟨g, (mem_evicted hI hl hm g g id).2 (Or.inl ⟨hne, rfl⟩)⟩
    · exact ⟨l', (mem_evicted hI hl hm g l' id).2 (Or.inr ⟨hne, h⟩)⟩

theorem Closed.keep_destroyed {s : arc} (hI : Inv s) {obj : Nat} {o : arc_object} {l : arc_list}
    (hl : o.state = some l) (hm : obj ∈ (s.get l).head) {pend : Option Nat}
    (hC : Closed s pend) : Closed (s.destroyed obj o) pend := by
  intro id hid
  rw [hash_destroyed] at hid
  have hne : id ≠ obj := fun e => by
    subst e
    exact ((hI.hash_nodup.mem_erase_iff).1 hid).1 rfl
  rcases hC id (List.mem_of_mem_erase hid) with h | ⟨l', h⟩
  · exact Or.inl h
  · exact Or.inr ⟨l', (mem_destroyed hI hl hm l' id).2 ⟨hne, h⟩⟩

/-! ## The loops of `arc_balance` -/

/-- A list whose size field is not zero has a least recently used entry. -/
theorem lru_of_size_ne_zero {s : arc} (hI : Inv s) (l : arc_list) (h : (s.get l).size ≠ 0) :
    ∃ obj o, (s.get l).head.getLast? = some obj ∧ arc_state_lru (s.get l) = .ok obj ∧
      obj ∈ (s.get l).head ∧ s.objs[obj]? = some o ∧ o.state = some l := by
  have hne : (s.get l).head ≠ [] := by
    intro e
    apply h
    rw [hI.acct l]
    unfold weight
    rw [e]
    rfl
  rcases Option.isSome_iff_exists.1 (List.getLast?_isSome.2 hne) with ⟨obj, hobj⟩
  have hmem : obj ∈ (s.get l).head := by
    rcases List.getLast?_eq_some_iff.1 hobj with ⟨ys, hys⟩
    rw [hys]; simp
  rcases hI.state_of_mem l obj hmem with ⟨o, ho, hs⟩
  exact ⟨obj, o, hobj, by unfold arc_state_lru; rw [hobj], hmem, ho, hs⟩

theorem arc_move_leaf_ghost (s : arc) (obj : Nat) (o : arc_object) (g : arc_list)
    (ho : s.objs[obj]? = some o) (hg : g = .mrug ∨ g = .mfug) :
    arc_move_leaf s obj (some g) = .ok (s.evicted obj o g, some obj) :=
  arc_move_gen_ghost _ s obj o g true ho hg

theorem arc_move_leaf_none (s : arc) (obj : Nat) (o : arc_object)
    (ho : s.objs[obj]? = some o) :
    arc_move_leaf s obj none = .ok (s.destroyed obj o, none) :=
  arc_move_gen_none _ s obj o true ho

/-- What one evaluation of the first loop does on a well-formed cache. -/
theorem arc_balance_step1_spec {s : arc} (hI : Inv s) (size : Nat) :
    (arc_balance_step1 size s = .ok none ∧
      (¬ uadd (uadd s.mru.size s.mfu.size) size > s.c ∨ (s.mru.size ≤ s.p ∧ s.mfu.size = 0))) ∨
    (∃ obj o, uadd (uadd s.mru.size s.mfu.size) size > s.c ∧ s.mru.size > s.p ∧
      s.mru.head.getLast? = some obj ∧ obj ∈ (s.get .mru).head ∧ s.objs[obj]? = some o ∧
      o.state = some .mru ∧
      arc_balance_step1 size s = .ok (some (s.evicted obj o .mrug))) ∨
    (∃ obj o, uadd (uadd s.mru.size s.mfu.size) size > s.c ∧ ¬ s.mru.size > s.p ∧
      s.mfu.size > 0 ∧
      s.mfu.head.getLast? = some obj ∧ obj ∈ (s.get .mfu).head ∧ s.objs[obj]? = some o ∧
      o.state = some .mfu ∧
      arc_balance_step1 size s = .ok (some (s.evicted obj o .mfug))) := by
  unfold arc_balance_step1
  by_cases hc : uadd (uadd s.mru.size s.mfu.size) size > s.c
  · by_cases h1 : s.mru.size > s.p
    · right; left
      have hne : (s.get .mru).size ≠ 0 := by
        show s.mru.size ≠ 0
        omega
      rcases lru_of_size_ne_zero hI .mru hne with ⟨obj, o, hlast, hlru, hmem, ho, hs⟩
      refine ⟨obj, o, hc, h1, hlast, hmem, ho, hs, ?_⟩
      have hlru' : arc_state_lru s.mru = .ok obj := hlru
      simp only [hc, h1, if_true, hlru', arc_move_leaf_ghost s obj o .mrug ho (Or.inl rfl)]
    · by_cases h2 : s.mfu.size > 0
      · right; right
        have hne : (s.get .mfu).size ≠ 0 := by
          show s.mfu.size ≠ 0
          omega
        rcases lru_of_size_ne_zero hI .mfu hne with ⟨obj, o, hlast, hlru, hmem, ho, hs⟩
        refine ⟨obj, o, hc, h1, h2, hlast, hmem, ho, hs, ?_⟩
        have hlru' : arc_state_lru s.mfu = .ok obj := hlru
        simp only [hc, h1, h2, if_true, if_false, hlru',
          arc_move_leaf_ghost s obj o .mfug ho (Or.inr rfl)]
      · left
        refine ⟨by simp only [hc, h1, h2, if_true, if_false], Or.inr ⟨by omega, by omega⟩⟩
  · left
    exact ⟨by simp only [hc, if_false], Or.inl hc⟩

/-- What one evaluation of the second loop does on a well-formed cache. -/
theorem arc_balance_step2_spec {s : arc} (hI : Inv s) :
    (arc_balance_step2 s = .ok none ∧
      (¬ uadd s.mrug.size s.mfug.size > s.c ∨ (s.mfug.size ≤ s.p ∧ s.mrug.size = 0))) ∨
    (∃ obj o, uadd s.mrug.size s.mfug.size > s.c ∧ s.mfug.size > s.p ∧
      s.mfug.head.getLast? = some obj ∧ obj ∈ (s.get .mfug).head ∧ s.objs[obj]? = some o ∧
      o.state = some .mfug ∧
      arc_balance_step2 s = .ok (some (s.destroyed obj o))) ∨
    (∃ obj o, uadd s.mrug.size s.mfug.size > s.c ∧ ¬ s.mfug.size > s.p ∧
      s.mrug.size > 0 ∧
      s.mrug.head.getLast? = some obj ∧ obj ∈ (s.get .mrug).head ∧ s.objs[obj]? = some o ∧
      o.state = some .mrug ∧
      arc_balance_step2 s = .ok (some (s.destroyed obj o))) := by
  unfold arc_balance_step2
  by_cases hc : uadd s.mrug.size s.mfug.size > s.c
  · by_cases h1 : s.mfug.size > s.p
    · right; left
      have hne : (s.get .mfug).size ≠ 0 := by
        show s.mfug.size ≠ 0
        omega
      rcases lru_of_size_ne_zero hI .mfug hne with ⟨obj, o, hlast, hlru, hmem, ho, hs⟩
      refine ⟨obj, o, hc, h1, hlast, hmem, ho, hs, ?_⟩
      have hlru' : arc_state_lru s.mfug = .ok obj := hlru
      simp only [hc, h1, if_true, hlru', arc_move_leaf_none s obj o ho]
    · by_cases h2 : s.mrug.size > 0
      · right; right
        have hne : (s.get .mrug).size ≠ 0 := by
          show s.mrug.size ≠ 0
          omega
        rcases lru_of_size_ne_zero hI .mrug hne with ⟨obj, o, hlast, hlru, hmem, ho, hs⟩
        refine ⟨obj, o, hc, h1, h2, hlast, hmem, ho, hs, ?_⟩
        have hlru' : arc_state_lru s.mrug = .ok obj := hlru
        simp only [hc, h1, h2, if_true, if_false, hlru', arc_move_leaf_none s obj o ho]
      · left
        refine ⟨by simp only [hc, h1, h2, if_true, if_false], Or.inr ⟨by omega, by omega⟩⟩
  · left
    exact ⟨by simp only [hc, if_false], Or.inl hc⟩

/-- A loop whose body keeps `P`, is related by the preorder `R` and lowers
the measure `μ` ends within `μ` passes, in a state where its condition (or
its `break`) holds. -/
theorem arc_while_spec (step : arc → Except Fault (Option arc)) (P : arc → Prop)
    (R : arc → arc → Prop) (μ : arc → Nat) (hrefl : ∀ s, R s s)
    (htrans : ∀ a b c, R a b → R b c → R a c)
    (hstep : ∀ s, P s → step s = .ok none ∨
      ∃ s', step s = .ok (some s') ∧ P s' ∧ R s s' ∧ μ s' < μ s) :
    ∀ fuel s, P s → μ s ≤ fuel →
      ∃ s', arc_while step fuel s = .ok s' ∧ P s' ∧ R s s' ∧ step s' = .ok none := by
  intro fuel
  induction fuel with
  | zero =>
    intro s hP hμ
    rcases hstep s hP with h | ⟨s', _, _, _, hlt⟩
    · exact ⟨s, by simp only [arc_while, h], hP, hrefl s, h⟩
    · omega
  | succ n ih =>
    intro s hP hμ
    rcases hstep s hP with h | ⟨s', hs', hP', hR, hlt⟩
    · exact ⟨s, by simp only [arc_while, h], hP, hrefl s, h⟩
    · rcases ih s' hP' (by omega) with ⟨s'', h1, h2, h3, h4⟩
      exact ⟨s'', by simp only [arc_while, hs', h1], h2, htrans _ _ _ hR h3, h4⟩

theorem length_unlink {s : arc} (hI : Inv s) {obj : Nat} {o : arc_object} {l : arc_list}
    (hl : o.state = some l) (hm : obj ∈ (s.get l).head) (l' : arc_list) :
    ((s.unlink obj o).get l').head.length + (if l' = l then 1 else 0) =
      (s.get l').head.length := by
  rw [head_unlink hI hl hm l']
  by_cases h : l' = l
  · subst h
    have hpos : 0 < (s.get l').head.length := List.length_pos_of_mem hm
    rw [List.length_erase_of_mem hm]
    simp only [if_true]
    omega
  · have hnot : obj ∉ (s.get l').head := fun hmem => h (hI.list_unique hmem hm)
    rw [List.erase_of_not_mem hnot]
    simp [h]

theorem length_evicted {s : arc} (hI : Inv s) {obj : Nat} {o : arc_object} {l : arc_list}
    (hl : o.state = some l) (hm : obj ∈ (s.get l).head) (g l' : arc_list) (hne : l' ≠ g) :
    ((s.evicted obj o g).get l').head.length + (if l' = l then 1 else 0) =
      (s.get l').head.length := by
  rw [get_evicted]
  simp only [hne, if_false]
  exact length_unlink hI hl hm l'

theorem length_destroyed {s : arc} (hI : Inv s) {obj : Nat} {o : arc_object} {l : arc_list}
    (hl : o.state = some l) (hm : obj ∈ (s.get l).head) (l' : arc_list) :
    ((s.destroyed obj o).get l').head.length + (if l' = l then 1 else 0) =
      (s.get l').head.length := by
  rw [get_destroyed]
  exact length_unlink hI hl hm l'

/-- The first loop of `arc_balance` ends on a well-formed cache, within as
many passes as `mru` and `mfu` have entries. -/
theorem arc_balance_phase1 {s : arc} (hI : Inv s) {pend : Option Nat} (hC : Closed s pend)
    (size : Nat) :
    ∃ s1, arc_while (arc_balance_step1 size) (s.mru.head.length + s.mfu.head.length) s = .ok s1 ∧
      (Inv s1 ∧ Closed s1 pend) ∧ Frame s s1 ∧ arc_balance_step1 size s1 = .ok none := by
  refine arc_while_spec (arc_balance_step1 size) (fun s => Inv s ∧ Closed s pend) Frame
    (fun s => (s.get .mru).head.length + (s.get .mfu).head.length) Frame.refl
    (fun _ _ _ => Frame.trans) ?_ _ s ⟨hI, hC⟩ (Nat.le_refl _)
  intro s ⟨hI, hC⟩
  rcases arc_balance_step1_spec hI size with h | ⟨obj, o, _, _, _, hm, ho, hs, h⟩ |
    ⟨obj, o, _, _, _, _, hm, ho, hs, h⟩
  · exact Or.inl h.1
  · refine Or.inr ⟨_, h, ⟨hI.evicted ho hs hm _, hC.keep_evicted hI hs hm _⟩,
      frame_evicted hI ho hs hm _, ?_⟩
    have h1 : ((s.evicted obj o .mrug).get .mru).head.length + 1 =
        (s.get .mru).head.length := by
      simpa using length_evicted hI hs hm .mrug .mru (by decide)
    have h2 : ((s.evicted obj o .mrug).get .mfu).head.length =
        (s.get .mfu).head.length := by
      simpa using length_evicted hI hs hm .mrug .mfu (by decide)
    show ((s.evicted obj o .mrug).get .mru).head.length +
      ((s.evicted obj o .mrug).get .mfu).head.length <
        (s.get .mru).head.length + (s.get .mfu).head.length
    omega
  · refine Or.inr ⟨_, h, ⟨hI.evicted ho hs hm _, hC.keep_evicted hI hs hm _⟩,
      frame_evicted hI ho hs hm _, ?_⟩
    have h1 : ((s.evicted obj o .mfug).get .mfu).head.length + 1 =
        (s.get .mfu).head.length := by
      simpa using length_evicted hI hs hm .mfug .mfu (by decide)
    have h2 : ((s.evicted obj o .mfug).get .mru).head.length =
        (s.get .mru).head.length := by
      simpa using length_evicted hI hs hm .mfug .mru (by decide)
    show ((s.evicted obj o .mfug).get .mru).head.length +
      ((s.evicted obj o .mfug).get .mfu).head.length <
        (s.get .mru).head.length + (s.get .mfu).head.length
    omega

/-- The second loop of `arc_balance` ends on a well-formed cache, within as
many passes as `mrug` and `mfug` have entries. -/
theorem arc_balance_phase2 {s : arc} (hI : Inv s) {pend : Option Nat} (hC : Closed s pend) :
    ∃ s1, arc_while arc_balance_step2 (s.mrug.head.length + s.mfug.head.length) s = .ok s1 ∧
      (Inv s1 ∧ Closed s1 pend) ∧ Frame s s1 ∧ arc_balance_step2 s1 = .ok none := by
  refine arc_while_spec arc_balance_step2 (fun s => Inv s ∧ Closed s pend) Frame
    (fun s => (s.get .mrug).head.length + (s.get .mfug).head.length) Frame.refl
    (fun _ _ _ => Frame.trans) ?_ _ s ⟨hI, hC⟩ (Nat.le_refl _)
  intro s ⟨hI, hC⟩
  rcases arc_balance_step2_spec hI with h | ⟨obj, o, _, _, _, hm, ho, hs, h⟩ |
    ⟨obj, o, _, _, _, _, hm, ho, hs, h⟩
  · exact Or.inl h.1
  · refine Or.inr ⟨_, h, ⟨hI.destroyed ho hs hm, hC.keep_destroyed hI hs hm⟩,
      frame_destroyed hI hs hm, ?_⟩
    have h1 : ((s.destroyed obj o).get .mfug).head.length + 1 =
        (s.get .mfug).head.length := by
      simpa using length_destroyed (o := o) hI hs hm .mfug
    have h2 : ((s.destroyed obj o).get .mrug).head.length =
        (s.get .mrug).head.length := by
      simpa using length_destroyed (o := o) hI hs hm .mrug
    show ((s.destroyed obj o).get .mrug).head.length +
      ((s.destroyed obj o).get .mfug).head.length <
        (s.get .mrug).head.length + (s.get .mfug).head.length
    omega
  · refine Or.inr ⟨_, h, ⟨hI.destroyed ho hs hm, hC.keep_destroyed hI hs hm⟩,
      frame_destroyed hI hs hm, ?_⟩
    have h1 : ((s.destroyed obj o).get .mrug).head.length + 1 =
        (s.get .mrug).head.length := by
      simpa using length_destroyed (o := o) hI hs hm .mrug
    have h2 : ((s.destroyed obj o).get .mfug).head.length =
        (s.get .mfug).head.length := by
      simpa using length_destroyed (o := o) hI hs hm .mfug
    show ((s.destroyed obj o).get .mrug).head.length +
      ((s.destroyed obj o).get .mfug).head.length <
        (s.get .mrug).head.length + (s.get .mfug).head.length
    omega

/-- Function `arc_balance` returns on a well-formed cache. `s1` is the
state between the two loops. -/
theorem arc_balance_spec {s : arc} (hI : Inv s) {pend : Option Nat} (hC : Closed s pend)
    (size : Nat) :
    ∃ s1 s2, arc_balance s size = .ok s2 ∧ Inv s2 ∧ Closed s2 pend ∧
      Frame (s.log (.balance size)) s1 ∧ Frame s1 s2 ∧
      arc_balance_step1 size s1 = .ok none ∧ arc_balance_step2 s2 = .ok none := by
  have hI0 : Inv (s.log (.balance size)) := hI.congr (fun l => get_log _ _ l) rfl rfl
  have hC0 : Closed (s.log (.balance size)) pend := by
    intro id hid
    rcases hC id hid with h | ⟨l, h⟩
    · exact Or.inl h
    · exact Or.inr ⟨l, by rw [get_log]; exact h⟩
  rcases arc_balance_phase1 hI0 hC0 size with ⟨s1, e1, ⟨hI1, hC1⟩, hF1, hx1⟩
  rcases arc_balance_phase2 hI1 hC1 with ⟨s2, e2, ⟨hI2, hC2⟩, hF2, hx2⟩
  refine ⟨s1, s2, ?_, hI2, hC2, hF1, hF2, hx1, hx2⟩
  unfold arc_balance
  simp only [e1, e2]

/-! ## The calls of `arc_move` made by `arc_lookup` -/

theorem arc_move_resident (s : arc) (obj : Nat) (o : arc_object) (st : arc_list) (f : Bool)
    (ho : s.objs[obj]? = some o) (hst : st = .mru ∨ st = .mfu)
    (hsrc : o.state = some .mru ∨ o.state = some .mfu) :
    arc_move s obj (some st) f = .ok (s.moved obj o st, some obj) := by
  have hng : ¬ (st = .mrug ∨ st = .mfug) := by
    rcases hst with h | h <;> subst h <;> decide
  have hns : ¬ (o.state ≠ some .mru ∧ o.state ≠ some .mfu) := by
    rcases hsrc with h | h <;> simp [h]
  unfold arc_move arc_move_gen
  simp only [ho, hng, hns, if_false]
  rw [link_eq _ obj o st (by simp [ho])]
  rfl

theorem arc_move_admit (s : arc) (obj : Nat) (o : arc_object) (st : arc_list) (s2 : arc)
    (ho : s.objs[obj]? = some o) (hst : st = .mru ∨ st = .mfu)
    (hsrc : o.state ≠ some .mru ∧ o.state ≠ some .mfu)
    (hb : arc_balance (s.unlink obj o) o.size = .ok s2) (ho2 : s2.objs[obj]? = some o) :
    arc_move s obj (some st) true = .ok (s2.fetched obj o st, some obj) ∧
    (∀ l, o.state = some l →
      arc_move s obj (some st) false = .ok (s2.restored obj o l, none)) ∧
    (o.state = none → arc_move s obj (some st) false = .error .nullDeref) := by
  have hng : ¬ (st = .mrug ∨ st = .mfug) := by
    rcases hst with h | h <;> subst h <;> decide
  have ho3 : (s2.log (.fetch obj)).objs[obj]? = some o := by simp [ho2]
  refine ⟨?_, ?_, ?_⟩
  · unfold arc_move arc_move_gen
    simp only [ho, hng, hsrc, hb, if_false, if_true, and_self, not_false_eq_true, ne_eq]
    rw [link_eq _ obj o st ho3]
    rfl
  · intro l hl
    unfold arc_move arc_move_gen
    simp only [ho, hng, hb, if_false, ho3, hl, Bool.false_eq_true]
    have hsrc' : some l ≠ some .mru ∧ some l ≠ some .mfu := by rw [← hl]; exact hsrc
    rw [if_pos hsrc']
    rfl
  · intro hl
    unfold arc_move arc_move_gen
    simp only [ho, hng, hb, if_false, ho3, hl, Bool.false_eq_true]
    simp

@[simp] theorem hash_fetched (s : arc) (obj : Nat) (o : arc_object) (st : arc_list) :
    (s.fetched obj o st).hash = s.hash := by
  unfold arc.fetched; simp
@[simp] theorem trace_fetched (s : arc) (obj : Nat) (o : arc_object) (st : arc_list) :
    (s.fetched obj o st).trace = s.trace ++ [.fetch obj] := by
  unfold arc.fetched; simp
@[simp] theorem p_fetched (s : arc) (obj : Nat) (o : arc_object) (st : arc_list) :
    (s.fetched obj o st).p = s.p := by
  unfold arc.fetched; simp
@[simp] theorem c_fetched (s : arc) (obj : Nat) (o : arc_object) (st : arc_list) :
    (s.fetched obj o st).c = s.c := by
  unfold arc.fetched; simp

theorem get_fetched (s : arc) (obj : Nat) (o : arc_object) (st l' : arc_list) :
    (s.fetched obj o st).get l' =
      if l' = st then ⟨uadd (s.get st).size o.size, obj :: (s.get st).head⟩ else s.get l' := by
  unfold arc.fetched
  rw [get_linked]
  simp

theorem objs_fetched (s : arc) (obj : Nat) (o : arc_object) (st : arc_list)
    (ho : s.objs[obj]? = some o) (id : Nat) :
    (s.fetched obj o st).objs[id]? =
      if id = obj then some { o with state := some st } else s.objs[id]? := by
  unfold arc.fetched
  rw [objs_linked _ obj o st (by simp [ho])]
  simp

@[simp] theorem hash_restored (s : arc) (obj : Nat) (o : arc_object) (l : arc_list) :
    (s.restored obj o l).hash = s.hash := by
  unfold arc.restored; simp [arc.addSize, arc.listAdd]
@[simp] theorem trace_restored (s : arc) (obj : Nat) (o : arc_object) (l : arc_list) :
    (s.restored obj o l).trace = s.trace ++ [.fetch obj] := by
  unfold arc.restored; simp [arc.addSize, arc.listAdd]
@[simp] theorem p_restored (s : arc) (obj : Nat) (o : arc_object) (l : arc_list) :
    (s.restored obj o l).p = s.p := by
  unfold arc.restored; simp [arc.addSize, arc.listAdd]
@[simp] theorem c_restored (s : arc) (obj : Nat) (o : arc_object) (l : arc_list) :
    (s.restored obj o l).c = s.c := by
  unfold arc.restored; simp [arc.addSize, arc.listAdd]
@[simp] theorem objs_restored (s : arc) (obj : Nat) (o : arc_object) (l : arc_list) :
    (s.restored obj o l).objs = s.objs := by
  unfold arc.restored; simp [arc.addSize, arc.listAdd]

theorem get_restored' (s : arc) (obj : Nat) (o : arc_object) (l l' : arc_list) :
    (s.restored obj o l).get l' =
      if l' = l then ⟨uadd (s.get l).size o.size, obj :: (s.get l).head⟩ else s.get l' := by
  unfold arc.restored
  rw [get_restored]
  simp

theorem Inv.fetched {s : arc} (hI : Inv s) {obj : Nat} {o : arc_object} (st : arc_list)
    (hd : Detached s obj) (ho : s.objs[obj]? = some o) (hh : obj ∈ s.hash) :
    Inv (s.fetched obj o st) :=
  hI.insert hd ho hh (get_fetched s obj o st) (objs_fetched s obj o st ho) (hash_fetched s obj o st)

theorem Inv.restored {s : arc} (hI : Inv s) {obj : Nat} {o : arc_object} {l : arc_list}
    (hd : Detached s obj) (ho : s.objs[obj]? = some o) (hl : o.state = some l)
    (hh : obj ∈ s.hash) : Inv (s.restored obj o l) := by
  have h1 : Inv (s.log (.fetch obj)) := hI.congr (fun l' => get_log _ _ l') rfl rfl
  have hd1 : Detached (s.log (.fetch obj)) obj := by
    intro l'; rw [get_log]; exact hd l'
  exact h1.restore hd1 (by simpa using ho) hl (by simpa using hh)

/-- Once the moved object is at the head of a list, every hashed object is
in a list again. -/
theorem Closed.keep_insert {s s' : arc} {obj : Nat} {l : arc_list} {size : Nat}
    (hC : Closed s (some obj))
    (hg : ∀ l', s'.get l' =
      if l' = l then ⟨size, obj :: (s.get l).head⟩ else s.get l')
    (hhash : s'.hash = s.hash) : Closed s' none := by
  intro id hid
  rw [hhash] at hid
  right
  rcases hC id hid with h | ⟨l', h⟩
  · refine ⟨l, ?_⟩
    rw [hg]; simp only [if_true]
    cases h
    exact List.mem_cons_self _ _
  · refine ⟨l', ?_⟩
    rw [hg]
    by_cases e : l' = l
    · subst e; simp only [if_true]; exact List.mem_cons_of_mem _ h
    · simp only [e, if_false]; exact h

/-- The admission of an unlinked object: `arc_balance` returns, leaves the
object and the invariant alone, and both outcomes of `fetch` end in a
well-formed cache. -/
theorem admit_spec {s : arc} (hI : Inv s) {obj : Nat} {o : arc_object}
    (hC : Closed s (some obj)) (hd : Detached s obj) (ho : s.objs[obj]? = some o)
    (hh : obj ∈ s.hash) :
    ∃ s1 s2, arc_balance s o.size = .ok s2 ∧ Inv s2 ∧ Closed s2 (some obj) ∧
      Frame (s.log (.balance o.size)) s1 ∧ Frame s1 s2 ∧
      arc_balance_step1 o.size s1 = .ok none ∧ arc_balance_step2 s2 = .ok none ∧
      Detached s2 obj ∧ s2.objs[obj]? = some o ∧ obj ∈ s2.hash ∧
      (∀ st, Inv (s2.fetched obj o st) ∧ Closed (s2.fetched obj o st) none) ∧
      (∀ l, o.state = some l → Inv (s2.restored obj o l) ∧ Closed (s2.restored obj o l) none) := by
  rcases arc_balance_spec hI hC o.size with ⟨s1, s2, hb, hI2, hC2, hF1, hF2, hx1, hx2⟩
  have hF := hF1.trans hF2
  have hd0 : Detached (s.log (.balance o.size)) obj := by
    intro l'; rw [get_log]; exact hd l'
  rcases hF.obj_eq obj hd0 with ⟨hobj, hd2⟩
  have ho2 : s2.objs[obj]? = some o := by rw [hobj]; simpa using ho
  have hh2 : obj ∈ s2.hash := hF.hash_keep obj hd0 (by simpa using hh)
  refine ⟨s1, s2, hb, hI2, hC2, hF1, hF2, hx1, hx2, hd2, ho2, hh2, ?_, ?_⟩
  · intro st
    exact ⟨hI2.fetched st hd2 ho2 hh2,
      hC2.keep_insert (get_fetched s2 obj o st) (hash_fetched s2 obj o st)⟩
  · intro l hl
    exact ⟨hI2.restored hd2 ho2 hl hh2,
      hC2.keep_insert (get_restored' s2 obj o l) (hash_restored s2 obj o l)⟩

/-! ## The cases of `arc_lookup` -/

theorem arc_hash_lookup_some {s : arc} {key obj : Nat} (h : arc_hash_lookup s key = some obj) :
    obj ∈ s.hash ∧ ∃ o : arc_object, s.objs[obj]? = some o ∧ o.key = key := by
  unfold arc_hash_lookup at h
  refine ⟨List.mem_of_find?_eq_some h, ?_⟩
  have hp := List.find?_some h
  cases ho : s.objs[obj]? with
  | none => simp [ho] at hp
  | some o =>
    simp only [ho, beq_iff_eq] at hp
    exact ⟨o, rfl, hp⟩

theorem arc_hash_lookup_none {s : arc} {key : Nat} (h : arc_hash_lookup s key = none)
    (obj : Nat) (o : arc_object) (hm : obj ∈ s.hash) (ho : s.objs[obj]? = some o) :
    o.key ≠ key := by
  unfold arc_hash_lookup at h
  have hp := List.find?_eq_none.1 h obj hm
  simp only [ho, beq_iff_eq] at hp
  exact hp

/-- With distinct keys in the table the entry that `cmp` accepts is found. -/
theorem arc_hash_lookup_of_mem {s : arc} (hI : Inv s) {key obj : Nat} {o : arc_object}
    (hm : obj ∈ s.hash) (ho : s.objs[obj]? = some o) (hk : o.key = key) :
    arc_hash_lookup s key = some obj := by
  cases h : arc_hash_lookup s key with
  | none => exact absurd hk (arc_hash_lookup_none h obj o hm ho)
  | some obj' =>
    rcases arc_hash_lookup_some h with ⟨hm', o', ho', hk'⟩
    rw [hI.hash_key obj' obj o' o hm' hm ho' ho (hk'.trans hk.symm)]

/-- A key of the table belongs to an object of exactly one list, named by
the state of the object. -/
theorem hit_list {s : arc} (hI : Inv s) (hC : Closed s none) {key obj : Nat}
    (h : arc_hash_lookup s key = some obj) :
    ∃ (o : arc_object) (l : arc_list), s.objs[obj]? = some o ∧ o.key = key ∧
      o.state = some l ∧ obj ∈ (s.get l).head ∧ obj ∈ s.hash := by
  rcases arc_hash_lookup_some h with ⟨hm, o, ho, hk⟩
  rcases hC obj hm with h' | ⟨l, hl⟩
  · cases h'
  · rcases hI.state_of_mem l obj hl with ⟨o', ho', hs⟩
    rw [ho] at ho'
    cases ho'
    exact ⟨o, l, ho, hk, hs, hl, hm⟩

theorem Inv.set_p {s : arc} (hI : Inv s) (p : Nat) : Inv { s with p := p } :=
  hI.congr (fun l => get_p_update s p l) rfl rfl

theorem Closed.keep_p {s : arc} {pend : Option Nat} (hC : Closed s pend) (p : Nat) :
    Closed { s with p := p } pend := by
  intro id hid
  rcases hC id hid with h | ⟨l, h⟩
  · exact Or.inl h
  · exact Or.inr ⟨l, by rw [get_p_update]; exact h⟩

/-- The state in which `arc_move` holds an object of a list in its hands. -/
theorem unlink_spec {s : arc} (hI : Inv s) (hC : Closed s none) {obj : Nat} {o : arc_object}
    {l : arc_list} (ho : s.objs[obj]? = some o) (hl : o.state = some l)
    (hm : obj ∈ (s.get l).head) :
    Inv (s.unlink obj o) ∧ Closed (s.unlink obj o) (some obj) ∧ Detached (s.unlink obj o) obj ∧
      (s.unlink obj o).objs[obj]? = some o ∧ obj ∈ (s.unlink obj o).hash := by
  rcases hI.unlink ho hl hm with ⟨h1, hd⟩
  refine ⟨h1, ?_, hd, by simpa using ho, by simpa using hI.mem_hash l obj hm⟩
  intro id hid
  rw [hash_unlink] at hid
  by_cases e : id = obj
  · exact Or.inl (by rw [e])
  · rcases hC id hid with h | ⟨l', h⟩
    · cases h
    · exact Or.inr ⟨l', (mem_unlink hI hl hm l' id).2 ⟨e, h⟩⟩

theorem get_moved (s : arc) (obj : Nat) (o : arc_object) (st l' : arc_list) :
    (s.moved obj o st).get l' =
      if l' = st then ⟨uadd ((s.unlink obj o).get st).size o.size,
        obj :: ((s.unlink obj o).get st).head⟩
      else (s.unlink obj o).get l' := by
  unfold arc.moved
  rw [get_linked]

theorem objs_moved (s : arc) (obj : Nat) (o : arc_object) (st : arc_list)
    (ho : s.objs[obj]? = some o) (id : Nat) :
    (s.moved obj o st).objs[id]? =
      if id = obj then some { o with state := some st } else s.objs[id]? := by
  unfold arc.moved
  rw [objs_linked _ obj o st (by simp [ho])]
  simp

@[simp] theorem hash_moved (s : arc) (obj : Nat) (o : arc_object) (st : arc_list) :
    (s.moved obj o st).hash = s.hash := by
  unfold arc.moved; simp
@[simp] theorem trace_moved (s : arc) (obj : Nat) (o : arc_object) (st : arc_list) :
    (s.moved obj o st).trace = s.trace := by
  unfold arc.moved; simp
@[simp] theorem p_moved (s : arc) (obj : Nat) (o : arc_object) (st : arc_list) :
    (s.moved obj o st).p = s.p := by
  unfold arc.moved; simp
@[simp] theorem c_moved (s : arc) (obj : Nat) (o : arc_object) (st : arc_list) :
    (s.moved obj o st).c = s.c := by
  unfold arc.moved; simp

theorem moved_spec {s : arc} (hI : Inv s) (hC : Closed s none) {obj : Nat} {o : arc_object}
    {l : arc_list} (ho : s.objs[obj]? = some o) (hl : o.state = some l)
    (hm : obj ∈ (s.get l).head) (st : arc_list) :
    Inv (s.moved obj o st) ∧ Closed (s.moved obj o st) none := by
  rcases unlink_spec hI hC ho hl hm with ⟨h1, hC1, hd, ho1, hh1⟩
  refine ⟨h1.link st hd ho1 hh1, ?_⟩
  exact hC1.keep_insert (fun l' => by rw [get_moved]) (by simp)

theorem arc_lookup_resident {s : arc} {key obj : Nat} {o : arc_object}
    (hk : arc_hash_lookup s key = some obj) (ho : s.objs[obj]? = some o)
    (hsrc : o.state = some .mru ∨ o.state = some .mfu) (created : Option Nat) (f : Bool) :
    arc_lookup s key created f = .ok (s.moved obj o .mfu, some obj) := by
  unfold arc_lookup
  simp only [hk, ho, hsrc, if_true]
  exact arc_move_resident s obj o .mfu f ho (Or.inr rfl) hsrc

theorem arc_lookup_mrug {s : arc} {key obj : Nat} {o : arc_object}
    (hk : arc_hash_lookup s key = some obj) (ho : s.objs[obj]? = some o)
    (hs : o.state = some .mrug) (created : Option Nat) (f : Bool) :
    arc_lookup s key created f =
      if s.mrug.size = 0 then .error .divByZero
      else arc_move { s with p := p_mrug_hit s } obj (some .mfu) f := by
  unfold arc_lookup
  simp only [hk, ho, hs]
  rfl

theorem arc_lookup_mfug {s : arc} {key obj : Nat} {o : arc_object}
    (hk : arc_hash_lookup s key = some obj) (ho : s.objs[obj]? = some o)
    (hs : o.state = some .mfug) (created : Option Nat) (f : Bool) :
    arc_lookup s key created f =
      if s.mfug.size = 0 then .error .divByZero
      else arc_move { s with p := p_mfug_hit s } obj (some .mfu) f := by
  unfold arc_lookup
  simp only [hk, ho, hs]
  rfl

theorem arc_lookup_miss {s : arc} {key : Nat} (hk : arc_hash_lookup s key = none)
    (size : Nat) (f : Bool) :
    arc_lookup s key (some size) f =
      arc_move (s.created key size) s.objs.length (some .mru) f := by
  unfold arc_lookup
  simp only [hk]
  rfl

theorem arc_lookup_miss_none {s : arc} {key : Nat} (hk : arc_hash_lookup s key = none)
    (f : Bool) :
    arc_lookup s key none f = .ok (s.log (.create key), none) := by
  unfold arc_lookup
  simp only [hk]

@[simp] theorem get_created (s : arc) (key size : Nat) (l : arc_list) :
    (s.created key size).get l = s.get l := by
  cases l <;> rfl
@[simp] theorem objs_created (s : arc) (key size : Nat) :
    (s.created key size).objs = s.objs ++ [arc_object_init key size] := rfl
@[simp] theorem hash_created (s : arc) (key size : Nat) :
    (s.created key size).hash = s.objs.length :: s.hash := rfl
@[simp] theorem trace_created (s : arc) (key size : Nat) :
    (s.created key size).trace = s.trace ++ [.create key] := rfl
@[simp] theorem p_created (s : arc) (key size : Nat) : (s.created key size).p = s.p := rfl
@[simp] theorem c_created (s : arc) (key size : Nat) : (s.created key size).c = s.c := rfl

theorem getElem?_snoc (os : List arc_object) (o : arc_object) (id : Nat) :
    (os ++ [o])[id]? = if id = os.length then some o else os[id]? := by
  rw [List.getElem?_append]
  by_cases h : id < os.length
  · have : id ≠ os.length := by omega
    simp [h, this]
  · by_cases e : id = os.length
    · subst e; simp
    · have h1 : os.length ≤ id := by omega
      have h2 : id - os.length ≠ 0 := by omega
      simp only [h, e, if_false, List.getElem?_eq_none h1]
      cases hk : id - os.length with
      | zero => exact absurd hk h2
      | succ k => rfl

/-- The cache between `arc_hash_insert` and `arc_move` on a miss. -/
theorem created_spec {s : arc} (hI : Inv s) (hC : Closed s none) {key : Nat}
    (hk : arc_hash_lookup s key = none) (size : Nat) :
    Inv (s.created key size) ∧ Closed (s.created key size) (some s.objs.length) ∧
      Detached (s.created key size) s.objs.length ∧
      (s.created key size).objs[s.objs.length]? = some (arc_object_init key size) ∧
      s.objs.length ∈ (s.created key size).hash := by
  have hnone : s.objs[s.objs.length]? = none := List.getElem?_eq_none (Nat.le_refl _)
  have hold : ∀ (id : Nat) (o : arc_object), s.objs[id]? = some o →
      (s.objs ++ [arc_object_init key size])[id]? = some o := by
    intro id o h
    rw [getElem?_snoc]
    have : id ≠ s.objs.length := fun e => by rw [e, hnone] at h; cases h
    simp [this, h]
  have hfresh : s.objs.length ∉ s.hash := by
    intro hm
    rcases hI.hash_obj _ hm with ⟨o, ho⟩
    rw [hnone] at ho; cases ho
  have hdet : Detached (s.created key size) s.objs.length := by
    intro l hm
    rw [get_created] at hm
    exact hfresh (hI.mem_hash l _ hm)
  refine ⟨⟨?_, ?_, ?_, ?_, ?_, ?_, ?_, ?_⟩, ?_, hdet, ?_, ?_⟩
  · intro l; rw [get_created]; exact hI.nodup l
  · intro l id hid
    rw [get_created] at hid
    rcases hI.state_of_mem l id hid with ⟨o, ho, hs⟩
    exact ⟨o, hold id o ho, hs⟩
  · intro l
    have hw : weight (s.created key size) l = weight s l := by
      unfold weight
      rw [get_created]
      congr 1
      apply List.map_congr_left
      intro id hid
      rcases hI.state_of_mem l id hid with ⟨o, ho, _⟩
      unfold objSize
      rw [objs_created, hold id o ho, ho]
    rw [hw, get_created]
    exact hI.acct l
  · intro id o h
    rw [objs_created, getElem?_snoc] at h
    by_cases e : id = s.objs.length
    · simp only [e, if_true, Option.some.injEq] at h
      subst h
      exact Nat.mod_lt _ (by decide)
    · simp only [e, if_false] at h
      exact hI.size_lt id o h
  · rw [hash_created]
    exact List.nodup_cons.2 ⟨hfresh, hI.hash_nodup⟩
  · intro l id hid
    rw [get_created] at hid
    rw [hash_created]
    exact List.mem_cons_of_mem _ (hI.mem_hash l id hid)
  · intro id hid
    rw [hash_created, List.mem_cons] at hid
    rw [objs_created, getElem?_snoc]
    by_cases e : id = s.objs.length
    · simp [e]
    · simp only [e, if_false]
      rcases hid with h | h
      · exact absurd h e
      · exact hI.hash_obj id h
  · intro i j oi oj hi hj hoi hoj hkey
    rw [hash_created, List.mem_cons] at hi hj
    rw [objs_created, getElem?_snoc] at hoi hoj
    by_cases ei : i = s.objs.length
    · by_cases ej : j = s.objs.length
      · rw [ei, ej]
      · exfalso
        simp only [ei, if_true, Option.some.injEq] at hoi
        simp only [ej, if_false] at hoj
        rcases hj with h | h
        · exact ej h
        · apply arc_hash_lookup_none hk j oj h hoj
          rw [← hkey, ← hoi]; rfl
    · by_cases ej : j = s.objs.length
      · exfalso
        simp only [ej, if_true, Option.some.injEq] at hoj
        simp only [ei, if_false] at hoi
        rcases hi with h | h
        · exact ei h
        · apply arc_hash_lookup_none hk i oi h hoi
          rw [hkey, ← hoj]; rfl
      · simp only [ei, if_false] at hoi
        simp only [ej, if_false] at hoj
        rcases hi with h | h
        · exact absurd h ei
        · rcases hj with h' | h'
          · exact absurd h' ej
          · exact hI.hash_key i j oi oj h h' hoi hoj hkey
  · intro id hid
    rw [hash_created, List.mem_cons] at hid
    rcases hid with h | h
    · exact Or.inl (by rw [h])
    · rcases hC id h with h' | ⟨l, h'⟩
      · cases h'
      · exact Or.inr ⟨l, by rw [get_created]; exact h'⟩
  · rw [objs_created, getElem?_snoc]; simp
  · rw [hash_created]; exact List.mem_cons_self _ _

/-- A miss on a well-formed cache: `arc_balance` returns; a successful
`fetch` ends in the cache `fetched`, a failed one in a null dereference. -/
theorem miss_spec {s : arc} (hI : Inv s) (hC : Closed s none) {key : Nat}
    (hk : arc_hash_lookup s key = none) (size : Nat) :
    ∃ s1 s2, arc_balance (s.created key size) (size % ULONG_MOD) = .ok s2 ∧
      Inv s2 ∧ Closed s2 (some s.objs.length) ∧
      Frame ((s.created key size).log (.balance (size % ULONG_MOD))) s1 ∧ Frame s1 s2 ∧
      arc_balance_step1 (size % ULONG_MOD) s1 = .ok none ∧ arc_balance_step2 s2 = .ok none ∧
      Detached s2 s.objs.length ∧
      s2.objs[s.objs.length]? = some (arc_object_init key size) ∧ s.objs.length ∈ s2.hash ∧
      arc_lookup s key (some size) true =
        .ok (s2.fetched s.objs.length (arc_object_init key size) .mru, some s.objs.length) ∧
      arc_lookup s key (some size) false = .error .nullDeref ∧
      Inv (s2.fetched s.objs.length (arc_object_init key size) .mru) ∧
      Closed (s2.fetched s.objs.length (arc_object_init key size) .mru) none := by
  rcases created_spec hI hC hk size with ⟨hI0, hC0, hd0, ho0, hh0⟩
  rcases admit_spec hI0 hC0 hd0 ho0 hh0 with
    ⟨s1, s2, hb, hI2, hC2, hF1, hF2, hx1, hx2, hd2, ho2, hh2, hfe, _⟩
  have hun : (s.created key size).unlink s.objs.length (arc_object_init key size) =
      s.created key size := unlink_none _ _ _ rfl
  have hmove := arc_move_admit (s.created key size) s.objs.length (arc_object_init key size)
    .mru s2 ho0 (Or.inl rfl) ⟨by simp [arc_object_init], by simp [arc_object_init]⟩
    (by rw [hun]; exact hb) ho2
  refine ⟨s1, s2, hb, hI2, hC2, hF1, hF2, hx1, hx2, hd2, ho2, hh2, ?_, ?_, (hfe .mru).1,
    (hfe .mru).2⟩
  · rw [arc_lookup_miss hk]; exact hmove.1
  · rw [arc_lookup_miss hk]; exact hmove.2.2 rfl

/-- A hit in a ghost list `l`, after `arc_lookup` assigned `p'` to `p`:
`arc_balance` returns on the cache without the object; a successful `fetch`
ends in the cache `fetched`, a failed one in the cache `restored`. -/
theorem ghost_spec {s : arc} (hI : Inv s) (hC : Closed s none) {obj : Nat} {o : arc_object}
    {l : arc_list} (ho : s.objs[obj]? = some o) (hl : o.state = some l)
    (hg : l = .mrug ∨ l = .mfug) (hm : obj ∈ (s.get l).head) (p' : Nat) :
    ∃ s1 s2, arc_balance (({ s with p := p' } : arc).unlink obj o) o.size = .ok s2 ∧
      Inv s2 ∧ Closed s2 (some obj) ∧
      Frame ((({ s with p := p' } : arc).unlink obj o).log (.balance o.size)) s1 ∧ Frame s1 s2 ∧
      arc_balance_step1 o.size s1 = .ok none ∧ arc_balance_step2 s2 = .ok none ∧
      Detached s2 obj ∧ s2.objs[obj]? = some o ∧ obj ∈ s2.hash ∧
      arc_move { s with p := p' } obj (some .mfu) true = .ok (s2.fetched obj o .mfu, some obj) ∧
      arc_move { s with p := p' } obj (some .mfu) false = .ok (s2.restored obj o l, none) ∧
      Inv (s2.fetched obj o .mfu) ∧ Closed (s2.fetched obj o .mfu) none ∧
      Inv (s2.restored obj o l) ∧ Closed (s2.restored obj o l) none := by
  have hIp := hI.set_p p'
  have hCp := hC.keep_p p'
  have hop : ({ s with p := p' } : arc).objs[obj]? = some o := ho
  have hmp : obj ∈ (({ s with p := p' } : arc).get l).head := by rw [get_p_update]; exact hm
  rcases unlink_spec hIp hCp hop hl hmp with ⟨hI0, hC0, hd0, ho0, hh0⟩
  rcases admit_spec hI0 hC0 hd0 ho0 hh0 with
    ⟨s1, s2, hb, hI2, hC2, hF1, hF2, hx1, hx2, hd2, ho2, hh2, hfe, hre⟩
  have hsrc : o.state ≠ some .mru ∧ o.state ≠ some .mfu := by
    rw [hl]; rcases hg with h | h <;> subst h <;> simp
  have hmove := arc_move_admit { s with p := p' } obj o .mfu s2 hop (Or.inr rfl) hsrc hb ho2
  exact ⟨s1, s2, hb, hI2, hC2, hF1, hF2, hx1, hx2, hd2, ho2, hh2, hmove.1, hmove.2.1 l hl,
    (hfe .mfu).1, (hfe .mfu).2, (hre l hl).1, (hre l hl).2⟩

/-- Every call of `arc_lookup` that returns keeps the cache well-formed. -/
theorem arc_lookup_inv {s s' : arc} (hI : Inv s) (hC : Closed s none) {key : Nat}
    {created : Option Nat} {f : Bool} {r : Option Nat}
    (h : arc_lookup s key created f = .ok (s', r)) : Inv s' ∧ Closed s' none := by
  cases hk : arc_hash_lookup s key with
  | none =>
    cases created with
    | none =>
      rw [arc_lookup_miss_none hk] at h
      cases h
      refine ⟨hI.congr (fun l => get_log _ _ l) rfl rfl, ?_⟩
      intro id hid
      rcases hC id hid with h' | ⟨l, h'⟩
      · exact Or.inl h'
      · exact Or.inr ⟨l, by rw [get_log]; exact h'⟩
    | some size =>
      rcases miss_spec hI hC hk size with
        ⟨s1, s2, _, _, _, _, _, _, _, _, _, _, ht, hf, hIf, hCf⟩
      cases f with
      | true => rw [ht] at h; cases h; exact ⟨hIf, hCf⟩
      | false => rw [hf] at h; cases h
  | some obj =>
    rcases hit_list hI hC hk with ⟨o, l, ho, _, hl, hm, _⟩
    cases l with
    | mru =>
      rw [arc_lookup_resident hk ho (Or.inl hl)] at h
      cases h
      exact moved_spec hI hC ho hl hm .mfu
    | mfu =>
      rw [arc_lookup_resident hk ho (Or.inr hl)] at h
      cases h
      exact moved_spec hI hC ho hl hm .mfu
    | mrug =>
      rw [arc_lookup_mrug hk ho hl] at h
      by_cases hz : s.mrug.size = 0
      · rw [if_pos hz] at h; cases h
      · rw [if_neg hz] at h
        rcases ghost_spec hI hC ho hl (Or.inl rfl) hm (p_mrug_hit s) with
          ⟨s1, s2, _, _, _, _, _, _, _, _, _, _, ht, hf, hIf, hCf, hIr, hCr⟩
        cases f with
        | true => rw [ht] at h; cases h; exact ⟨hIf, hCf⟩
        | false => rw [hf] at h; cases h; exact ⟨hIr, hCr⟩
    | mfug =>
      rw [arc_lookup_mfug hk ho hl] at h
      by_cases hz : s.mfug.size = 0
      · rw [if_pos hz] at h; cases h
      · rw [if_neg hz] at h
        rcases ghost_spec hI hC ho hl (Or.inr rfl) hm (p_mfug_hit s) with
          ⟨s1, s2, _, _, _, _, _, _, _, _, _, _, ht, hf, hIf, hCf, hIr, hCr⟩
        cases f with
        | true => rw [ht] at h; cases h; exact ⟨hIf, hCf⟩
        | false => rw [hf] at h; cases h; exact ⟨hIr, hCr⟩

theorem arc_create_inv (c : Nat) : Inv (arc_create c) ∧ Closed (arc_create c) none := by
  refine ⟨⟨?_, ?_, ?_, ?_, ?_, ?_, ?_, ?_⟩, ?_⟩
  · intro l; cases l <;> exact List.nodup_nil
  · intro l id h; cases l <;> cases h
  · intro l; cases l <;> rfl
  · intro id o h; simp [arc_create] at h
  · exact List.nodup_nil
  · intro l id h; cases l <;> cases h
  · intro id h; cases h
  · intro i j oi oj hi; cases hi
  · intro id h; cases h

theorem arc_run_inv {calls : List Call} : ∀ {s s' : arc}, Inv s → Closed s none →
    arc_run s calls = .ok s' → Inv s' ∧ Closed s' none := by
  induction calls with
  | nil =>
    intro s s' hI hC h
    simp only [arc_run] at h
    cases h
    exact ⟨hI, hC⟩
  | cons call rest ih =>
    intro s s' hI hC h
    simp only [arc_run] at h
    cases hl : arc_lookup s call.key call.created call.fetchOk with
    | error e => rw [hl] at h; cases h
    | ok r =>
      rw [hl] at h
      rcases @arc_lookup_inv s r.1 hI hC _ _ _ r.2 hl with ⟨hI1, hC1⟩
      exact ih hI1 hC1 h

/-- Every reachable cache is well-formed. -/
theorem Reachable.inv {c : Nat} {s : arc} (h : Reachable c s) : Inv s ∧ Closed s none := by
  rcases h with ⟨calls, h⟩
  exact arc_run_inv (arc_create_inv c).1 (arc_create_inv c).2 h

theorem ReachableOk.reachable {c : Nat} {s : arc} (h : ReachableOk c s) : Reachable c s := by
  rcases h with ⟨calls, _, h⟩
  exact ⟨calls, h⟩

theorem MIN_eq_min (a b : Nat) : MIN a b = min a b := by
  unfold MIN
  by_cases h : a < b
  · rw [if_pos h]; omega
  · rw [if_neg h]; omega

theorem MAX_eq_max (a b : Nat) : MAX a b = max a b := by
  unfold MAX
  by_cases h : a > b
  · rw [if_pos h]; omega
  · rw [if_neg h]; omega

theorem p_mrug_hit_eq (s : arc) :
    p_mrug_hit s = min s.c ((s.p + max (s.mfug.size / s.mrug.size) 1) % ULONG_MOD) := by
  unfold p_mrug_hit uadd
  rw [MIN_eq_min, MAX_eq_max]

/-! ## The claims on the cases of `arc_lookup` -/

/-- C4. Miss on a reachable cache, `create` and `fetch` succeeding. The
lookup calls `create` once (the first new entry of the trace, none later),
the new object is then in the hash table under its key, `arc_balance` runs
with the size of the object on the cache that holds the hashed, unlinked
object and returns `s1`, only then `fetch` is called (the last entry of the
trace); the object is linked at the head of `mru` with `state = &mru`,
`mru.size` is the value after `arc_balance` plus the size of the object (an
`unsigned long` sum), the other lists are as `arc_balance` left them, `p` is
unchanged and the object is returned. -/
theorem arc_lookup_miss_admits (c : Nat) (s : arc) (key size : Nat) (hR : Reachable c s)
    (hmiss : arc_hash_lookup s key = none) :
    ∃ s1 s2 mid,
      arc_balance (s.created key size) (size % ULONG_MOD) = .ok s1 ∧
      arc_lookup s key (some size) true = .ok (s2, some s.objs.length) ∧
      s1.trace = s.trace ++ ([Event.create key, Event.balance (size % ULONG_MOD)] ++ mid) ∧
      (∀ e, e ∈ mid → (∃ i, e = Event.evict i) ∨ (∃ i, e = Event.destroy i)) ∧
      s2.trace = s1.trace ++ [Event.fetch s.objs.length] ∧
      arc_hash_lookup s2 key = some s.objs.length ∧
      s2.mru.head = s.objs.length :: s1.mru.head ∧
      s2.mru.size = uadd s1.mru.size (size % ULONG_MOD) ∧
      (s1.mru.size + size % ULONG_MOD < ULONG_MOD →
        s2.mru.size = s1.mru.size + size % ULONG_MOD) ∧
      s2.objs[s.objs.length]? = some ⟨key, size % ULONG_MOD, some .mru⟩ ∧
      s2.mfu = s1.mfu ∧ s2.mrug = s1.mrug ∧ s2.mfug = s1.mfug ∧
      s2.p = s.p := by
  rcases hR.inv with ⟨hI, hC⟩
  rcases miss_spec hI hC hmiss size with
    ⟨s1, s2, hb, hI2, _, hF1, hF2, _, _, _, ho2, hh2, ht, _, hIf, _⟩
  have hF := hF1.trans hF2
  rcases hF.trace with ⟨mid, hmid, hev⟩
  have hobj := objs_fetched s2 s.objs.length (arc_object_init key size) .mru ho2 s.objs.length
  simp only [if_true] at hobj
  have hsize : (s2.fetched s.objs.length (arc_object_init key size) .mru).mru.size =
      uadd s2.mru.size (size % ULONG_MOD) := by
    have := get_fetched s2 s.objs.length (arc_object_init key size) .mru .mru
    simp only [if_true] at this
    exact congrArg arc_state.size this
  refine ⟨s2, _, mid, hb, ht, ?_, hev, by simp, ?_, ?_, hsize, ?_, hobj, ?_, ?_, ?_, ?_⟩
  · rw [hmid]; simp
  · exact arc_hash_lookup_of_mem hIf (by simpa using hh2) hobj rfl
  · have := get_fetched s2 s.objs.length (arc_object_init key size) .mru .mru
    simp only [if_true] at this
    exact congrArg arc_state.head this
  · intro hfit
    rw [hsize]
    exact Nat.mod_eq_of_lt hfit
  · have := get_fetched s2 s.objs.length (arc_object_init key size) .mru .mfu
    simpa using this
  · have := get_fetched s2 s.objs.length (arc_object_init key size) .mru .mrug
    simpa using this
  · have := get_fetched s2 s.objs.length (arc_object_init key size) .mru .mfug
    simpa using this
  · rw [p_fetched, hF.p_eq]; rfl

theorem uadd_usub_uadd (a b x : Nat) (hx : x < ULONG_MOD) :
    uadd (usub a x) (uadd b x) = uadd a b := by
  unfold uadd usub
  simp only [ULONG_MOD] at *
  omega

theorem uadd_usub_cancel (a x : Nat) (ha : a < ULONG_MOD) (hx : x < ULONG_MOD) :
    uadd (usub a x) x = a := by
  unfold uadd usub
  simp only [ULONG_MOD] at *
  omega

/-- The weight of a list after an object of it was unlinked. -/
theorem weight_unlink {s : arc} (hI : Inv s) {obj : Nat} {o : arc_object} {l : arc_list}
    (ho : s.objs[obj]? = some o) (hl : o.state = some l) (hm : obj ∈ (s.get l).head)
    (l' : arc_list) :
    weight (s.unlink obj o) l' + (if l' = l then o.size else 0) = weight s l' := by
  have hw : weight (s.unlink obj o) l' =
      (List.map (objSize s) ((s.get l').head.erase obj)).sum := by
    unfold weight
    rw [head_unlink hI hl hm l']
    congr 1
    apply List.map_congr_left
    intro id _
    exact objSize_eq_of_objs s _ (objs_unlink s obj o) id
  rw [hw]
  by_cases h : l' = l
  · subst h
    have hsum := List.sum_map_erase (objSize s) hm
    have hos : objSize s obj = o.size := by unfold objSize; rw [ho]
    simp only [if_true]
    unfold weight
    rw [← hsum, hos]
    omega
  · have hnot : obj ∉ (s.get l').head := fun hmem => h (hI.list_unique hmem hm)
    rw [List.erase_of_not_mem hnot]
    simp only [h, if_false]
    rfl

/-- The weights after a detached object was put at the head of a list. -/
theorem weight_insert {s s' : arc} {obj : Nat} {o : arc_object} {l : arc_list}
    (ho : s.objs[obj]? = some o)
    (hg : ∀ l', s'.get l' =
      if l' = l then ⟨uadd (s.get l).size o.size, obj :: (s.get l).head⟩ else s.get l')
    (hobjs : ∀ id, s'.objs[id]? =
      if id = obj then some { o with state := some l } else s.objs[id]?)
    (l' : arc_list) :
    weight s' l' = weight s l' + (if l' = l then o.size else 0) := by
  have hsz := objSize_eq_of_state s s' obj o l ho hobjs
  have hw : weight s' l' = ((s'.get l').head.map (objSize s)).sum := by
    unfold weight
    congr 1
    exact List.map_congr_left (fun id _ => hsz id)
  rw [hw, hg]
  by_cases h : l' = l
  · subst h
    have hos : objSize s obj = o.size := by unfold objSize; rw [ho]
    simp only [if_true, List.map_cons, List.sum_cons, hos]
    unfold weight
    omega
  · simp only [h, if_false]
    rfl

/-- C5. Hit on a record of `mru` or `mfu` in a reachable cache, whatever the
host would answer. The lookup returns the record and puts it at the head of
`mfu`; the other records of `mru` and `mfu` keep their order (the lists are
the old ones without the record); `p`, `mrug` and `mfug` are unchanged; the
sum of the two size fields is unchanged as an `unsigned long` and, whenever
the resident weight fits an `unsigned long`, as a number; the weight of the
two lists is unchanged; the trace is unchanged, so that neither
`arc_balance` nor `fetch`, `evict` or `destroy` ran. -/
theorem arc_lookup_resident_hit (c : Nat) (s : arc) (key obj : Nat) (created : Option Nat)
    (fetchOk : Bool) (hR : Reachable c s) (hk : arc_hash_lookup s key = some obj)
    (hres : obj ∈ s.mru.head ∨ obj ∈ s.mfu.head) :
    ∃ s', arc_lookup s key created fetchOk = .ok (s', some obj) ∧
      s'.mfu.head = obj :: s.mfu.head.erase obj ∧
      s'.mru.head = s.mru.head.erase obj ∧
      (∃ o : arc_object, s'.objs[obj]? = some o ∧ o.state = some .mfu) ∧
      s'.p = s.p ∧ s'.mrug = s.mrug ∧ s'.mfug = s.mfug ∧
      uadd s'.mru.size s'.mfu.size = uadd s.mru.size s.mfu.size ∧
      (weight s .mru + weight s .mfu < ULONG_MOD →
        s'.mru.size + s'.mfu.size = s.mru.size + s.mfu.size) ∧
      weight s' .mru + weight s' .mfu = weight s .mru + weight s .mfu ∧
      s'.trace = s.trace := by
  rcases hR.inv with ⟨hI, hC⟩
  rcases hit_list hI hC hk with ⟨o, l, ho, _, hl, hm, _⟩
  have hl' : l = .mru ∨ l = .mfu := by
    rcases hres with h | h
    · exact Or.inl (hI.list_unique hm (show obj ∈ (s.get .mru).head from h))
    · exact Or.inr (hI.list_unique hm (show obj ∈ (s.get .mfu).head from h))
  have hsrc : o.state = some .mru ∨ o.state = some .mfu := by
    rcases hl' with h | h <;> subst h
    · exact Or.inl hl
    · exact Or.inr hl
  have hI' := (moved_spec hI hC ho hl hm .mfu).1
  have hhead : ∀ l', ((s.moved obj o .mfu).get l').head =
      if l' = .mfu then obj :: (s.get .mfu).head.erase obj else (s.get l').head.erase obj := by
    intro l'
    rw [get_moved]
    by_cases e : l' = .mfu
    · simp only [e, if_true, head_unlink hI hl hm]
    · simp only [e, if_false, head_unlink hI hl hm]
  have hsize : ∀ l', ((s.moved obj o .mfu).get l').size =
      if l' = .mfu then uadd (if arc_list.mfu = l then usub (s.get l).size o.size
        else (s.get .mfu).size) o.size
      else if l' = l then usub (s.get l).size o.size else (s.get l').size := by
    intro l'
    rw [get_moved]
    by_cases e : l' = .mfu
    · simp only [e, if_true, size_unlink hI hl hm]
    · simp only [e, if_false, size_unlink hI hl hm]
  have hosz := hI.size_lt obj o ho
  have hother : ∀ l', l' ≠ l → l' ≠ .mfu → (s.moved obj o .mfu).get l' = s.get l' := by
    intro l' h1 h2
    have hnot : obj ∉ (s.get l').head := fun hmem => h1 (hI.list_unique hmem hm)
    rw [get_moved]
    simp only [h2, if_false]
    exact get_unlink_other s obj o l l' hl h1 hnot
  have hwu := weight_unlink hI ho hl hm
  have hwi := @weight_insert (s.unlink obj o) (s.moved obj o .mfu) obj o .mfu
    (by simpa using ho) (fun l' => by rw [get_moved])
    (fun id => by rw [objs_moved s obj o .mfu ho]; simp)
  have hw : weight (s.moved obj o .mfu) .mru + weight (s.moved obj o .mfu) .mfu =
      weight s .mru + weight s .mfu := by
    have a1 := hwi .mru
    have a2 := hwi .mfu
    have b1 := hwu .mru
    have b2 := hwu .mfu
    simp only [if_true] at a2
    have a1' : weight (s.moved obj o .mfu) .mru = weight (s.unlink obj o) .mru := by
      simpa using a1
    rcases hl' with h | h <;> subst h
    · simp only [if_true] at b1
      have b2' : weight (s.unlink obj o) .mfu = weight s .mfu := by simpa using b2
      omega
    · simp only [if_true] at b2
      have b1' : weight (s.unlink obj o) .mru = weight s .mru := by simpa using b1
      omega
  have hsum : uadd (s.moved obj o .mfu).mru.size (s.moved obj o .mfu).mfu.size =
      uadd s.mru.size s.mfu.size := by
    have e1 := hsize .mru
    have e2 := hsize .mfu
    rcases hl' with h | h <;> subst h
    · have e1' : (s.moved obj o .mfu).mru.size = usub s.mru.size o.size := by
        simpa using e1
      have e2' : (s.moved obj o .mfu).mfu.size = uadd s.mfu.size o.size := by
        simpa using e2
      rw [e1', e2']
      exact uadd_usub_uadd _ _ _ hosz
    · have e1' : (s.moved obj o .mfu).mru.size = s.mru.size := by
        simpa using e1
      have e2' : (s.moved obj o .mfu).mfu.size = uadd (usub s.mfu.size o.size) o.size := by
        simpa using e2
      have hlt : s.mfu.size < ULONG_MOD := by
        have := hI.acct .mfu
        show (s.get .mfu).size < ULONG_MOD
        rw [this]
        exact Nat.mod_lt _ (by decide)
      rw [e1', e2', uadd_usub_cancel _ _ hlt hosz]
  refine ⟨s.moved obj o .mfu, arc_lookup_resident hk ho hsrc created fetchOk, ?_, ?_, ?_,
    by simp, ?_, ?_, hsum, ?_, hw, by simp⟩
  · have := hhead .mfu
    simpa using this
  · have := hhead .mru
    simpa using this
  · refine ⟨{ o with state := some .mfu }, ?_, rfl⟩
    rw [objs_moved s obj o .mfu ho]; simp
  · apply hother .mrug
    · intro e; subst e; rcases hl' with h | h <;> cases h
    · decide
  · apply hother .mfug
    · intro e; subst e; rcases hl' with h | h <;> cases h
    · decide
  · intro hfit
    have a1 := hI.acct .mru
    have a2 := hI.acct .mfu
    have b1 := hI'.acct .mru
    have b2 := hI'.acct .mfu
    have c1 : s.mru.size = weight s .mru % ULONG_MOD := a1
    have c2 : s.mfu.size = weight s .mfu % ULONG_MOD := a2
    have d1 : (s.moved obj o .mfu).mru.size = weight (s.moved obj o .mfu) .mru % ULONG_MOD := b1
    have d2 : (s.moved obj o .mfu).mfu.size = weight (s.moved obj o .mfu) .mfu % ULONG_MOD := b2
    rw [c1, c2, d1, d2]
    simp only [ULONG_MOD] at *
    omega

/-! ## The claims on invariants: capacity, tuning parameter, ghost weight -/

/-- C1 (the code breaks the claim). Capacity 1, records of size 1, `create`
and `fetch` succeed: after the lookups of keys 0, 1, 0 the lists `mru` and
`mfu` together weigh 2, with `p = 1 = c`. In the third lookup the first loop
of `arc_balance` takes its `break` (`mru.size > p` is false and `mfu` is
empty) although `mru` holds a record that could be evicted. -/
theorem resident_weight_exceeds_capacity :
    ∃ s, arc_run (arc_create 1) [Call.unit 0, Call.unit 1, Call.unit 0] = .ok s ∧
      s.c = 1 ∧ s.p = 1 ∧ s.mru.head = [1] ∧ s.mfu.head = [0] ∧
      s.mru.size + s.mfu.size = 2 ∧ ¬ (s.mru.size + s.mfu.size ≤ s.c) :=
  ⟨_, rfl, rfl, rfl, rfl, rfl, rfl, by decide⟩

/-- C2 (the code breaks the claim). After the lookups of keys 0, 0, 1, 0 on
a cache of capacity 1 the field `p` is `2 ^ 64 - 1`; the same happens with
capacity 4 after thirteen lookups. The last lookup is a hit in `mfug` with
`p = 0`, where the unsigned subtraction wraps. -/
theorem tuning_parameter_exceeds_capacity :
    (∃ s, arc_run (arc_create 1) [Call.unit 0, Call.unit 0, Call.unit 1, Call.unit 0] = .ok s ∧
      s.c = 1 ∧ s.p = 18446744073709551615 ∧ ¬ (s.p ≤ s.c)) ∧
    (∃ s, arc_run (arc_create 4)
        [Call.unit 0, Call.unit 0, Call.unit 1, Call.unit 1, Call.unit 2, Call.unit 2,
          Call.unit 3, Call.unit 3, Call.unit 4, Call.unit 0, Call.unit 1, Call.unit 5,
          Call.unit 2] = .ok s ∧
      s.c = 4 ∧ s.p = 18446744073709551615 ∧ ¬ (s.p ≤ s.c)) :=
  ⟨⟨_, rfl, rfl, rfl, by decide⟩, ⟨_, rfl, rfl, rfl, by decide⟩⟩

/-- C3 (the code breaks the claim). Capacity 1, records of size 1. After the
lookups of keys 0, 1, 1 the record of key 0 is in `mrug`; a lookup of key 0
whose `fetch` fails returns `NULL` and leaves `mrug` and `mfug` with one
record each, ghost weight 2, while `p = 1 = c`. With successful callbacks
only, the lookups 0, 0, 1, 1, 0, 2 leave two records in `mfug`. -/
theorem ghost_weight_exceeds_capacity :
    (∃ s s', arc_run (arc_create 1) [Call.unit 0, Call.unit 1, Call.unit 1] = .ok s ∧
      s.mrug.head = [0] ∧ s.mrug.size + s.mfug.size = 1 ∧
      arc_lookup s 0 (some 1) false = .ok (s', none) ∧ s'.c = 1 ∧ s'.p = 1 ∧
      s'.mrug.head = [0] ∧ s'.mfug.head = [1] ∧ s'.mrug.size + s'.mfug.size = 2 ∧
      ¬ (s'.mrug.size + s'.mfug.size ≤ s'.c)) ∧
    (∃ s, arc_run (arc_create 1)
        [Call.unit 0, Call.unit 0, Call.unit 1, Call.unit 1, Call.unit 0, Call.unit 2] = .ok s ∧
      s.c = 1 ∧ s.mrug.size + s.mfug.size = 2 ∧ ¬ (s.mrug.size + s.mfug.size ≤ s.c)) :=
  ⟨⟨_, _, rfl, rfl, rfl, rfl, rfl, rfl, rfl, rfl, rfl, by decide⟩, ⟨_, rfl, rfl, rfl, by decide⟩⟩

/-- A hit in `mrug` or `mfug` whose division is defined: where the record
ends for both answers of `fetch`, and the value of `p`. -/
theorem ghost_hit_spec {s : arc} (hI : Inv s) (hC : Closed s none) {key obj : Nat}
    {l : arc_list} (hk : arc_hash_lookup s key = some obj) (hg : l = .mrug ∨ l = .mfug)
    (hm : obj ∈ (s.get l).head) (hz : (s.get l).size ≠ 0) (created : Option Nat) :
    ∃ (o : arc_object) (s2 : arc), s.objs[obj]? = some o ∧ o.state = some l ∧
      Inv s2 ∧ Detached s2 obj ∧ s2.objs[obj]? = some o ∧
      s2.p = (if l = .mrug then p_mrug_hit s else p_mfug_hit s) ∧
      arc_lookup s key created true = .ok (s2.fetched obj o .mfu, some obj) ∧
      arc_lookup s key created false = .ok (s2.restored obj o l, none) ∧
      Inv (s2.fetched obj o .mfu) ∧ Inv (s2.restored obj o l) := by
  rcases hit_list hI hC hk with ⟨o, l', ho, _, hl', hm', _⟩
  have e : l' = l := hI.list_unique hm' hm
  subst e
  rcases hg with h | h <;> subst h
  · rcases ghost_spec hI hC ho hl' (Or.inl rfl) hm (p_mrug_hit s) with
      ⟨s1, s2, _, hI2, _, hF1, hF2, _, _, hd2, ho2, _, ht, hf, hIf, _, hIr, _⟩
    have hz' : ¬ s.mrug.size = 0 := hz
    refine ⟨o, s2, ho, hl', hI2, hd2, ho2, ?_, ?_, ?_, hIf, hIr⟩
    · rw [(hF1.trans hF2).p_eq]; simp
    · rw [arc_lookup_mrug hk ho hl', if_neg hz']; exact ht
    · rw [arc_lookup_mrug hk ho hl', if_neg hz']; exact hf
  · rcases ghost_spec hI hC ho hl' (Or.inr rfl) hm (p_mfug_hit s) with
      ⟨s1, s2, _, hI2, _, hF1, hF2, _, _, hd2, ho2, _, ht, hf, hIf, _, hIr, _⟩
    have hz' : ¬ s.mfug.size = 0 := hz
    refine ⟨o, s2, ho, hl', hI2, hd2, ho2, ?_, ?_, ?_, hIf, hIr⟩
    · rw [(hF1.trans hF2).p_eq]; simp
    · rw [arc_lookup_mfug hk ho hl', if_neg hz']; exact ht
    · rw [arc_lookup_mfug hk ho hl', if_neg hz']; exact hf

/-- A hit in a ghost list whose size field is zero divides by zero: neither
`arc_balance` nor `fetch` is reached. -/
theorem arc_lookup_ghost_zero {s : arc} (hI : Inv s) (hC : Closed s none) {key obj : Nat}
    {l : arc_list} (hk : arc_hash_lookup s key = some obj) (hg : l = .mrug ∨ l = .mfug)
    (hm : obj ∈ (s.get l).head) (hz : (s.get l).size = 0) (created : Option Nat) (f : Bool) :
    arc_lookup s key created f = .error .divByZero := by
  rcases hit_list hI hC hk with ⟨o, l', ho, _, hl', hm', _⟩
  have e : l' = l := hI.list_unique hm' hm
  subst e
  rcases hg with h | h <;> subst h
  · have hz' : s.mrug.size = 0 := hz
    rw [arc_lookup_mrug hk ho hl', if_pos hz']
  · have hz' : s.mfug.size = 0 := hz
    rw [arc_lookup_mfug hk ho hl', if_pos hz']

/-- Where the record of a ghost hit is after a successful `fetch`. -/
theorem fetched_place {s2 : arc} {obj : Nat} {o : arc_object} (hd : Detached s2 obj)
    (ho : s2.objs[obj]? = some o) :
    (s2.fetched obj o .mfu).mfu.head.head? = some obj ∧
      (∀ l, l ≠ .mfu → obj ∉ ((s2.fetched obj o .mfu).get l).head) ∧
      (∃ o' : arc_object, (s2.fetched obj o .mfu).objs[obj]? = some o' ∧
        o'.state = some .mfu) := by
  refine ⟨?_, ?_, ?_⟩
  · have := get_fetched s2 obj o .mfu .mfu
    simp only [if_true] at this
    show ((s2.fetched obj o .mfu).get .mfu).head.head? = some obj
    rw [this]; rfl
  · intro l hne
    rw [get_fetched]
    simp only [hne, if_false]
    exact hd l
  · refine ⟨{ o with state := some .mfu }, ?_, rfl⟩
    rw [objs_fetched s2 obj o .mfu ho]; simp

/-- C6, as the code has it. Hit in `mrug` on a reachable cache with
`p <= c` and `mrug.size` not 0 (the division by `mrug.size` is defined, so
that `fetch` is reached); `fetch` succeeds. The new `p` is
`min(c, p + max(mfug.size / mrug.size, 1))` of the values before the call,
the sum being an `unsigned long` sum; it is that minimum over the numbers
whenever the sum stays below `2 ^ 64`. The returned record is at the head of
`mfu`, its state names `mfu`, and it is no longer in `mrug`. -/
theorem arc_lookup_mrug_hit (c : Nat) (s : arc) (key obj : Nat) (created : Option Nat)
    (hR : Reachable c s) (_hp : s.p ≤ s.c) (hk : arc_hash_lookup s key = some obj)
    (hm : obj ∈ s.mrug.head) (hz : s.mrug.size ≠ 0) :
    ∃ s', arc_lookup s key created true = .ok (s', some obj) ∧
      s'.p = min s.c ((s.p + max (s.mfug.size / s.mrug.size) 1) % ULONG_MOD) ∧
      (s.p + max (s.mfug.size / s.mrug.size) 1 < ULONG_MOD →
        s'.p = min s.c (s.p + max (s.mfug.size / s.mrug.size) 1)) ∧
      s'.mfu.head.head? = some obj ∧
      (∃ o : arc_object, s'.objs[obj]? = some o ∧ o.state = some .mfu) ∧
      obj ∉ s'.mrug.head := by
  rcases hR.inv with ⟨hI, hC⟩
  rcases ghost_hit_spec hI hC hk (Or.inl rfl) hm hz created with
    ⟨o, s2, _, _, _, hd2, ho2, hp2, ht, _, _, _⟩
  rcases fetched_place hd2 ho2 with ⟨h1, h2, h3⟩
  have hp' : (s2.fetched obj o .mfu).p =
      min s.c ((s.p + max (s.mfug.size / s.mrug.size) 1) % ULONG_MOD) := by
    rw [p_fetched, hp2, if_pos rfl, p_mrug_hit_eq]
  refine ⟨_, ht, hp', ?_, h1, h3, h2 .mrug (by decide)⟩
  intro hlt
  rw [hp', Nat.mod_eq_of_lt hlt]

/-- C7 (the code breaks the claim). Capacity 1, records of size 1. After the
lookups of keys 0, 0, 1 the record of key 0 is in `mfug` with `p = 0`,
`mrug.size = 0` and `mfug.size = 1`, so that `d = max(0 / 1, 1) = 1 > p` and
`max(0, p - d)` is 0 over the integers. The lookup of key 0 leaves
`p = 2 ^ 64 - 1`: the subtraction is unsigned and `MAX(0, ...)` keeps its
result. -/
theorem mfug_hit_wraps_p :
    ∃ s s', arc_run (arc_create 1) [Call.unit 0, Call.unit 0, Call.unit 1] = .ok s ∧
      arc_hash_lookup s 0 = some 0 ∧ s.mfug.head = [0] ∧ s.p = 0 ∧ s.mrug.size = 0 ∧
      s.mfug.size = 1 ∧
      arc_lookup s 0 (some 1) true = .ok (s', some 0) ∧ s'.p = 18446744073709551615 ∧
      ¬ (s'.p ≤ s.p) :=
  ⟨_, _, rfl, rfl, rfl, rfl, rfl, rfl, rfl, rfl, by decide⟩

/-- C8 (the code breaks the claim). On every reachable cache a miss whose
`create` succeeds and whose `fetch` fails ends in the dereference of the
null `obj->state` (`obj->state->size += obj->size` in `arc_move`): the
lookup does not return. -/
theorem arc_lookup_miss_fetch_failure (c : Nat) (s : arc) (key size : Nat) (hR : Reachable c s)
    (hmiss : arc_hash_lookup s key = none) :
    arc_lookup s key (some size) false = .error .nullDeref := by
  rcases hR.inv with ⟨hI, hC⟩
  rcases miss_spec hI hC hmiss size with ⟨_, _, _, _, _, _, _, _, _, _, _, _, _, hf, _, _⟩
  exact hf

/-- C9, as the code has it. Hit in `mrug` or `mfug` on a reachable cache
where the size field of the hit list is not 0 (the division by it is
defined, so that `fetch` is reached); `fetch` fails. The lookup returns
`NULL`; the record is at the head of the ghost list it was in, its state
names that list, it is in no other list, and the size field of that list is
the sum of the sizes of its members modulo `2^64`, hence that sum whenever
it is below `2^64`. -/
theorem arc_lookup_ghost_fetch_failure (c : Nat) (s : arc) (key obj : Nat) (l : arc_list)
    (created : Option Nat) (hR : Reachable c s) (hk : arc_hash_lookup s key = some obj)
    (hg : l = .mrug ∨ l = .mfug) (hm : obj ∈ (s.get l).head) (hz : (s.get l).size ≠ 0) :
    ∃ s', arc_lookup s key created false = .ok (s', none) ∧
      (s'.get l).head.head? = some obj ∧
      (∃ o : arc_object, s'.objs[obj]? = some o ∧ o.state = some l) ∧
      obj ∉ s'.mru.head ∧ obj ∉ s'.mfu.head ∧ (∀ l', l' ≠ l → obj ∉ (s'.get l').head) ∧
      (s'.get l).size = weight s' l % ULONG_MOD ∧
      (weight s' l < ULONG_MOD → (s'.get l).size = weight s' l) := by
  rcases hR.inv with ⟨hI, hC⟩
  rcases ghost_hit_spec hI hC hk hg hm hz created with
    ⟨o, s2, _, hl, _, hd2, ho2, _, _, hf, _, hIr⟩
  have hother : ∀ l', l' ≠ l → obj ∉ ((s2.restored obj o l).get l').head := by
    intro l' hne
    rw [get_restored']
    simp only [hne, if_false]
    exact hd2 l'
  refine ⟨_, hf, ?_, ⟨o, by simpa using ho2, hl⟩, ?_, ?_, hother, hIr.acct l,
    fun hfit => (hIr.acct l).trans (Nat.mod_eq_of_lt hfit)⟩
  · rw [get_restored']; simp
  · apply hother .mru
    rcases hg with h | h <;> subst h <;> decide
  · apply hother .mfu
    rcases hg with h | h <;> subst h <;> decide

/-- C10, as stated, fails. Capacity 2, records of size 1, all callbacks
succeed. After the lookups of keys 0, 1, 2, 0, 3, 4 the record of key 1 was
admitted by a miss and evicted from `mru` into `mrug`, where it still is,
and `p = 2 = c`. Its lookup returns it at the head of `mfu`, and `p` is
still 2. -/
theorem ghost_round_trip_keeps_p :
    ∃ s s', arc_run (arc_create 2)
        [Call.unit 0, Call.unit 1, Call.unit 2, Call.unit 0, Call.unit 3, Call.unit 4] = .ok s ∧
      arc_hash_lookup s 1 = some 1 ∧ s.mrug.head = [1] ∧ Event.create 1 ∈ s.trace ∧
      Event.fetch 1 ∈ s.trace ∧ Event.evict 1 ∈ s.trace ∧ s.p = 2 ∧ s.c = 2 ∧
      arc_lookup s 1 (some 1) true = .ok (s', some 1) ∧ s'.mfu.head = [1] ∧ s'.p = 2 ∧
      ¬ (s.p < s'.p) :=
  ⟨_, _, rfl, rfl, rfl, by decide, by decide, by decide, rfl, rfl, rfl, rfl, rfl, by decide⟩

/-- C10, amended. On a cache reached by successful lookups, the lookup of a
record that is in `mrug` while `mrug.size` is not 0 (the division by it is
defined), `fetch` succeeding,
leaves the record at the head of `mfu` and in no other list, and `p` equal
to `min(c, p + max(mfug.size / mrug.size, 1))` in `unsigned long`
arithmetic: strictly greater than before when `p < c` and the sum stays
below `2 ^ 64`, and unchanged when `p = c`. -/
theorem ghost_round_trip (c : Nat) (s : arc) (key obj : Nat) (created : Option Nat)
    (hR : ReachableOk c s) (hk : arc_hash_lookup s key = some obj)
    (hm : obj ∈ s.mrug.head) (hz : s.mrug.size ≠ 0) :
    ∃ s', arc_lookup s key created true = .ok (s', some obj) ∧
      s'.mfu.head.head? = some obj ∧ (∀ l, l ≠ .mfu → obj ∉ (s'.get l).head) ∧
      s'.p = min s.c ((s.p + max (s.mfug.size / s.mrug.size) 1) % ULONG_MOD) ∧
      (s.p < s.c → s.p + max (s.mfug.size / s.mrug.size) 1 < ULONG_MOD → s.p < s'.p) ∧
      (s.p = s.c → s.p + max (s.mfug.size / s.mrug.size) 1 < ULONG_MOD → s'.p = s.p) := by
  rcases hR.reachable.inv with ⟨hI, hC⟩
  rcases ghost_hit_spec hI hC hk (Or.inl rfl) hm hz created with
    ⟨o, s2, _, _, _, hd2, ho2, hp2, ht, _, _, _⟩
  rcases fetched_place hd2 ho2 with ⟨h1, h2, _⟩
  have hp' : (s2.fetched obj o .mfu).p =
      min s.c ((s.p + max (s.mfug.size / s.mrug.size) 1) % ULONG_MOD) := by
    rw [p_fetched, hp2, if_pos rfl, p_mrug_hit_eq]
  refine ⟨_, ht, h1, h2, hp', ?_, ?_⟩
  · intro hlt hfit
    rw [hp', Nat.mod_eq_of_lt hfit]
    omega
  · intro heq hfit
    rw [hp', Nat.mod_eq_of_lt hfit]
    omega

theorem cache_cold_reachable : ReachableOk 4 cache_cold :=
  ⟨[Call.unit 0, Call.unit 1, Call.unit 2, Call.unit 3],
    by simp [Call.succeeds, Call.unit], rfl⟩

theorem cache_spill_reachable : ReachableOk 4 cache_spill :=
  ⟨[Call.unit 0, Call.unit 1, Call.unit 2, Call.unit 3, Call.unit 4],
    by simp [Call.succeeds, Call.unit], rfl⟩

/-- Witness of C4: the miss of key 4 on `cache_cold`. -/
theorem arc_lookup_miss_admits_witness :
    Reachable 4 cache_cold ∧ arc_hash_lookup cache_cold 4 = none ∧
    ∃ s1 s2 mid,
      arc_balance (cache_cold.created 4 1) (1 % ULONG_MOD) = .ok s1 ∧
      arc_lookup cache_cold 4 (some 1) true = .ok (s2, some cache_cold.objs.length) ∧
      s1.trace = cache_cold.trace ++ ([Event.create 4, Event.balance (1 % ULONG_MOD)] ++ mid) ∧
      (∀ e, e ∈ mid → (∃ i, e = Event.evict i) ∨ (∃ i, e = Event.destroy i)) ∧
      s2.trace = s1.trace ++ [Event.fetch cache_cold.objs.length] ∧
      arc_hash_lookup s2 4 = some cache_cold.objs.length ∧
      s2.mru.head = cache_cold.objs.length :: s1.mru.head ∧
      s2.mru.size = uadd s1.mru.size (1 % ULONG_MOD) ∧
      (s1.mru.size + 1 % ULONG_MOD < ULONG_MOD → s2.mru.size = s1.mru.size + 1 % ULONG_MOD) ∧
      s2.objs[cache_cold.objs.length]? = some ⟨4, 1 % ULONG_MOD, some .mru⟩ ∧
      s2.mfu = s1.mfu ∧ s2.mrug = s1.mrug ∧ s2.mfug = s1.mfug ∧
      s2.p = cache_cold.p :=
  ⟨cache_cold_reachable.reachable, rfl,
    arc_lookup_miss_admits 4 cache_cold 4 1 cache_cold_reachable.reachable rfl⟩

/-- Witness of C5: the hit of key 1, a record of `mru`, on `cache_cold`. -/
theorem arc_lookup_resident_hit_witness :
    Reachable 4 cache_cold ∧ arc_hash_lookup cache_cold 1 = some 1 ∧
    (1 ∈ cache_cold.mru.head ∨ 1 ∈ cache_cold.mfu.head) ∧
    ∃ s', arc_lookup cache_cold 1 none false = .ok (s', some 1) ∧
      s'.mfu.head = 1 :: cache_cold.mfu.head.erase 1 ∧
      s'.mru.head = cache_cold.mru.head.erase 1 ∧
      (∃ o : arc_object, s'.objs[1]? = some o ∧ o.state = some .mfu) ∧
      s'.p = cache_cold.p ∧ s'.mrug = cache_cold.mrug ∧ s'.mfug = cache_cold.mfug ∧
      uadd s'.mru.size s'.mfu.size = uadd cache_cold.mru.size cache_cold.mfu.size ∧
      (weight cache_cold .mru + weight cache_cold .mfu < ULONG_MOD →
        s'.mru.size + s'.mfu.size = cache_cold.mru.size + cache_cold.mfu.size) ∧
      weight s' .mru + weight s' .mfu = weight cache_cold .mru + weight cache_cold .mfu ∧
      s'.trace = cache_cold.trace :=
  ⟨cache_cold_reachable.reachable, rfl, Or.inl (by decide),
    arc_lookup_resident_hit 4 cache_cold 1 1 none false cache_cold_reachable.reachable rfl
      (Or.inl (by decide))⟩

/-- Witness of C6: the hit of key 0, the record of `mrug`, on `cache_spill`. -/
theorem arc_lookup_mrug_hit_witness :
    Reachable 4 cache_spill ∧ cache_spill.p ≤ cache_spill.c ∧
    arc_hash_lookup cache_spill 0 = some 0 ∧ 0 ∈ cache_spill.mrug.head ∧
    cache_spill.mrug.size ≠ 0 ∧
    ∃ s', arc_lookup cache_spill 0 none true = .ok (s', some 0) ∧
      s'.p = min cache_spill.c
        ((cache_spill.p + max (cache_spill.mfug.size / cache_spill.mrug.size) 1) % ULONG_MOD) ∧
      (cache_spill.p + max (cache_spill.mfug.size / cache_spill.mrug.size) 1 < ULONG_MOD →
        s'.p = min cache_spill.c
          (cache_spill.p + max (cache_spill.mfug.size / cache_spill.mrug.size) 1)) ∧
      s'.mfu.head.head? = some 0 ∧
      (∃ o : arc_object, s'.objs[0]? = some o ∧ o.state = some .mfu) ∧
      0 ∉ s'.mrug.head :=
  ⟨cache_spill_reachable.reachable, by decide, rfl, by decide, by decide,
    arc_lookup_mrug_hit 4 cache_spill 0 0 none cache_spill_reachable.reachable (by decide) rfl
      (by decide) (by decide)⟩

/-- Witness of C8: the miss of key 9 on `cache_cold` with a failing `fetch`. -/
theorem arc_lookup_miss_fetch_failure_witness :
    Reachable 4 cache_cold ∧ arc_hash_lookup cache_cold 9 = none ∧
    arc_lookup cache_cold 9 (some 1) false = .error .nullDeref :=
  ⟨cache_cold_reachable.reachable, rfl,
    arc_lookup_miss_fetch_failure 4 cache_cold 9 1 cache_cold_reachable.reachable rfl⟩

/-- Witness of C9: the hit of key 0 in `mrug` on `cache_spill` with a failing
`fetch`. -/
theorem arc_lookup_ghost_fetch_failure_witness :
    Reachable 4 cache_spill ∧ arc_hash_lookup cache_spill 0 = some 0 ∧
    (arc_list.mrug = .mrug ∨ arc_list.mrug = .mfug) ∧ 0 ∈ (cache_spill.get .mrug).head ∧
    (cache_spill.get .mrug).size ≠ 0 ∧
    ∃ s', arc_lookup cache_spill 0 none false = .ok (s', none) ∧
      (s'.get .mrug).head.head? = some 0 ∧
      (∃ o : arc_object, s'.objs[0]? = some o ∧ o.state = some .mrug) ∧
      0 ∉ s'.mru.head ∧ 0 ∉ s'.mfu.head ∧ (∀ l', l' ≠ .mrug → 0 ∉ (s'.get l').head) ∧
      (s'.get .mrug).size = weight s' .mrug % ULONG_MOD ∧
      (weight s' .mrug < ULONG_MOD → (s'.get .mrug).size = weight s' .mrug) :=
  ⟨cache_spill_reachable.reachable, rfl, Or.inl rfl, by decide, by decide,
    arc_lookup_ghost_fetch_failure 4 cache_spill 0 0 .mrug none
      cache_spill_reachable.reachable rfl (Or.inl rfl) (by decide) (by decide)⟩

/-- Witness of C10 as amended: the lookup of key 0 on `cache_spill`, which
was admitted by a miss and evicted into `mrug`. -/
theorem ghost_round_trip_witness :
    ReachableOk 4 cache_spill ∧ arc_hash_lookup cache_spill 0 = some 0 ∧
    0 ∈ cache_spill.mrug.head ∧ cache_spill.mrug.size ≠ 0 ∧
    ∃ s', arc_lookup cache_spill 0 none true = .ok (s', some 0) ∧
      s'.mfu.head.head? = some 0 ∧ (∀ l, l ≠ .mfu → 0 ∉ (s'.get l).head) ∧
      s'.p = min cache_spill.c
        ((cache_spill.p + max (cache_spill.mfug.size / cache_spill.mrug.size) 1) % ULONG_MOD) ∧
      (cache_spill.p < cache_spill.c →
        cache_spill.p + max (cache_spill.mfug.size / cache_spill.mrug.size) 1 < ULONG_MOD →
        cache_spill.p < s'.p) ∧
      (cache_spill.p = cache_spill.c →
        cache_spill.p + max (cache_spill.mfug.size / cache_spill.mrug.size) 1 < ULONG_MOD →
        s'.p = cache_spill.p) :=
  ⟨cache_spill_reachable, rfl, by decide, by decide,
    ghost_round_trip 4 cache_spill 0 0 none cache_spill_reachable rfl (by decide) (by decide)⟩

/-! ## The structural invariant -/

theorem mem_listed (s : arc) (obj : Nat) :
    obj ∈ listed s ↔ ∃ l, obj ∈ (s.get l).head := by
  unfold listed
  simp only [List.mem_append]
  constructor
  · rintro (((h | h) | h) | h)
    · exact ⟨.mru, h⟩
    · exact ⟨.mfu, h⟩
    · exact ⟨.mrug, h⟩
    · exact ⟨.mfug, h⟩
  · rintro ⟨l, h⟩
    cases l
    · exact Or.inl (Or.inr h)
    · exact Or.inl (Or.inl (Or.inl h))
    · exact Or.inl (Or.inl (Or.inr h))
    · exact Or.inr h

theorem Inv.listed_nodup {s : arc} (hI : Inv s) : (listed s).Nodup := by
  unfold listed
  have d : ∀ l l', l ≠ l' → ∀ x, x ∈ (s.get l).head → x ∈ (s.get l').head → False :=
    fun l l' hne x h h' => hne (hI.list_unique h h')
  refine List.Nodup.append (List.Nodup.append (List.Nodup.append (hI.nodup .mru) (hI.nodup .mfu) ?_)
    (hI.nodup .mrug) ?_) (hI.nodup .mfug) ?_
  · intro x h h'
    exact d .mru .mfu (by decide) x h h'
  · intro x h h'
    rcases List.mem_append.1 h with h | h
    · exact d .mru .mrug (by decide) x h h'
    · exact d .mfu .mrug (by decide) x h h'
  · intro x h h'
    rcases List.mem_append.1 h with h | h
    · rcases List.mem_append.1 h with h | h
      · exact d .mru .mfug (by decide) x h h'
      · exact d .mfu .mfug (by decide) x h h'
    · exact d .mrug .mfug (by decide) x h h'

theorem Inv.listed_keys_nodup {s : arc} (hI : Inv s) : ((listed s).map (keyAt s)).Nodup := by
  refine List.Nodup.map_on ?_ hI.listed_nodup
  intro x hx y hy hk
  rcases (mem_listed s x).1 hx with ⟨l, hl⟩
  rcases (mem_listed s y).1 hy with ⟨l', hl'⟩
  rcases hI.state_of_mem l x hl with ⟨ox, hox, _⟩
  rcases hI.state_of_mem l' y hl' with ⟨oy, hoy, _⟩
  unfold keyAt at hk
  rw [hox, hoy] at hk
  exact hI.hash_key x y ox oy (hI.mem_hash l x hl) (hI.mem_hash l' y hl') hox hoy hk

/-- C14. After every lookup of a sequence in which `create` and `fetch`
succeed, the records of the four lists are pairwise distinct as records and
have pairwise distinct keys (so that the lists are disjoint and free of
duplicates), the state of every listed record names the list that holds it,
and the hash table holds exactly the listed records, each once. -/
theorem structural_invariant (c : Nat) (s : arc) (hR : ReachableOk c s) :
    (listed s).Nodup ∧ ((listed s).map (keyAt s)).Nodup ∧
    (∀ l obj, obj ∈ (s.get l).head →
      ∃ o : arc_object, s.objs[obj]? = some o ∧ o.state = some l) ∧
    (∀ l l' obj, obj ∈ (s.get l).head → obj ∈ (s.get l').head → l = l') ∧
    (∀ obj, obj ∈ s.hash ↔ ∃ l, obj ∈ (s.get l).head) ∧
    s.hash.Nodup ∧ s.hash.Perm (listed s) := by
  rcases hR.reachable.inv with ⟨hI, hC⟩
  have hmem : ∀ obj, obj ∈ s.hash ↔ ∃ l, obj ∈ (s.get l).head := by
    intro obj
    constructor
    · intro h
      rcases hC obj h with h' | h'
      · cases h'
      · exact h'
    · rintro ⟨l, h⟩
      exact hI.mem_hash l obj h
  refine ⟨hI.listed_nodup, hI.listed_keys_nodup, hI.state_of_mem,
    fun l l' obj h h' => hI.list_unique h h', hmem, hI.hash_nodup, ?_⟩
  refine (List.perm_ext_iff_of_nodup hI.hash_nodup hI.listed_nodup).2 ?_
  intro obj
  rw [hmem, mem_listed]

/-- Witness of C14: the cache `cache_spill`. -/
theorem structural_invariant_witness :
    ReachableOk 4 cache_spill ∧
    ((listed cache_spill).Nodup ∧ ((listed cache_spill).map (keyAt cache_spill)).Nodup ∧
    (∀ l obj, obj ∈ (cache_spill.get l).head →
      ∃ o : arc_object, cache_spill.objs[obj]? = some o ∧ o.state = some l) ∧
    (∀ l l' obj, obj ∈ (cache_spill.get l).head → obj ∈ (cache_spill.get l').head → l = l') ∧
    (∀ obj, obj ∈ cache_spill.hash ↔ ∃ l, obj ∈ (cache_spill.get l).head) ∧
    cache_spill.hash.Nodup ∧ cache_spill.hash.Perm (listed cache_spill)) :=
  ⟨cache_spill_reachable, structural_invariant 4 cache_spill cache_spill_reachable⟩

/-! ## The steps of `arc_balance` in detail -/

theorem erase_snoc (ys : List Nat) (obj : Nat) (h : (ys ++ [obj]).Nodup) :
    (ys ++ [obj]).erase obj = ys := by
  have hnot : obj ∉ ys := by
    intro hm
    have := List.nodup_append.1 h
    exact this.2.2 hm (List.mem_singleton_self obj)
  rw [List.erase_append_right _ hnot]
  simp

/-- The lists after the least recently used record of the list `l` went to
the head of another list `g`. -/
theorem evicted_lists {s : arc} (hI : Inv s) {obj : Nat} {o : arc_object} {l g : arc_list}
    {rest : List Nat} (hl : o.state = some l) (hlast : (s.get l).head = rest ++ [obj])
    (hne : l ≠ g) :
    (s.evicted obj o g).get l = ⟨usub (s.get l).size o.size, rest⟩ ∧
    (s.evicted obj o g).get g = ⟨uadd (s.get g).size o.size, obj :: (s.get g).head⟩ ∧
    (∀ l', l' ≠ l → l' ≠ g → (s.evicted obj o g).get l' = s.get l') := by
  have hm : obj ∈ (s.get l).head := by rw [hlast]; simp
  have hnd : (rest ++ [obj]).Nodup := by rw [← hlast]; exact hI.nodup l
  have hother : ∀ l', l' ≠ l → (s.unlink obj o).get l' = s.get l' := by
    intro l' h
    have hnot : obj ∉ (s.get l').head := fun hmem => h (hI.list_unique hmem hm)
    exact get_unlink_other s obj o l l' hl h hnot
  refine ⟨?_, ?_, ?_⟩
  · rw [get_evicted, if_neg hne, get_unlink_same s obj o l hl, hlast, erase_snoc rest obj hnd]
  · rw [get_evicted, if_pos rfl, hother g (fun e => hne e.symm)]
  · intro l' h1 h2
    rw [get_evicted, if_neg h2, hother l' h1]

/-- The lists after the least recently used record of the list `l` was
destroyed. -/
theorem destroyed_lists {s : arc} (hI : Inv s) {obj : Nat} {o : arc_object} {l : arc_list}
    {rest : List Nat} (hl : o.state = some l) (hlast : (s.get l).head = rest ++ [obj]) :
    (s.destroyed obj o).get l = ⟨usub (s.get l).size o.size, rest⟩ ∧
    (∀ l', l' ≠ l → (s.destroyed obj o).get l' = s.get l') := by
  have hm : obj ∈ (s.get l).head := by rw [hlast]; simp
  have hnd : (rest ++ [obj]).Nodup := by rw [← hlast]; exact hI.nodup l
  refine ⟨?_, ?_⟩
  · rw [get_destroyed, get_unlink_same s obj o l hl, hlast, erase_snoc rest obj hnd]
  · intro l' h
    have hnot : obj ∉ (s.get l').head := fun hmem => h (hI.list_unique hmem hm)
    rw [get_destroyed, get_unlink_other s obj o l l' hl h hnot]

theorem perm_shuffle (A B C D : List Nat) :
    ((A ++ B) ++ (C ++ D)).Perm ((C ++ A) ++ (D ++ B)) := by
  rw [List.perm_iff_count]
  intro a
  simp only [List.count_append]
  omega

theorem trimmed_refl (s : arc) : Trimmed s s :=
  ⟨[], [], [], by simp, by simp, by simp, by simp, by simp, by simp, rfl, rfl, rfl⟩

theorem trimmed_trans {a b c : arc} (h1 : Trimmed a b) (h2 : Trimmed b c) : Trimmed a c := by
  rcases h1 with ⟨S1, S2, ev, e1, e2, e3, e4, e5, e6, e7, e8, e9⟩
  rcases h2 with ⟨S1', S2', ev', f1, f2, f3, f4, f5, f6, f7, f8, f9⟩
  refine ⟨S1' ++ S1, S2' ++ S2, ev ++ ev', ?_, ?_, ?_, ?_, ?_, ?_, f7.trans e7, f8.trans e8,
    f9.trans e9⟩
  · rw [e1, f1, List.append_assoc]
  · rw [f2, e2, List.append_assoc]
  · rw [e3, f3, List.append_assoc]
  · rw [f4, e4, List.append_assoc]
  · rw [f5, e5, List.map_append, List.append_assoc]
  · exact (e6.append f6).trans (perm_shuffle S1 S2 S1' S2')

theorem dropped_refl (s : arc) : Dropped s s :=
  ⟨[], [], [], by simp, by simp, by simp, by simp, by simp, rfl, rfl, rfl, rfl⟩

theorem dropped_trans {a b c : arc} (h1 : Dropped a b) (h2 : Dropped b c) : Dropped a c := by
  rcases h1 with ⟨D1, D2, ev, e1, e2, e3, e4, e5, e6, e7, e8, e9⟩
  rcases h2 with ⟨D1', D2', ev', f1, f2, f3, f4, f5, f6, f7, f8, f9⟩
  refine ⟨D1' ++ D1, D2' ++ D2, ev ++ ev', ?_, ?_, ?_, ?_, ?_, f6.trans e6, f7.trans e7,
    f8.trans e8, f9.trans e9⟩
  · rw [e1, f1, List.append_assoc]
  · rw [e2, f2, List.append_assoc]
  · rw [f3, e3, List.map_append, List.append_assoc]
  · exact (e4.append f4).trans (perm_shuffle D1 D2 D1' D2')
  · intro obj
    rw [f5, e5]
    simp only [List.mem_append]
    tauto

/-- A step of the first loop that moves the tail of `mru`. -/
theorem trimmed_mru {s : arc} (hI : Inv s) {obj : Nat} {o : arc_object}
    (hs : o.state = some .mru) (hlast : s.mru.head.getLast? = some obj) :
    ∃ rest, s.mru.head = rest ++ [obj] ∧
      (s.evicted obj o .mrug).mru = ⟨usub s.mru.size o.size, rest⟩ ∧
      (s.evicted obj o .mrug).mrug = ⟨uadd s.mrug.size o.size, obj :: s.mrug.head⟩ ∧
      (s.evicted obj o .mrug).mfu = s.mfu ∧ (s.evicted obj o .mrug).mfug = s.mfug ∧
      Trimmed s (s.evicted obj o .mrug) := by
  rcases List.getLast?_eq_some_iff.1 hlast with ⟨rest, hrest⟩
  rcases evicted_lists (g := .mrug) hI hs (show (s.get .mru).head = rest ++ [obj] from hrest)
    (by decide) with ⟨h1, h2, h3⟩
  have h1' : (s.evicted obj o .mrug).mru = ⟨usub s.mru.size o.size, rest⟩ := h1
  have h2' : (s.evicted obj o .mrug).mrug = ⟨uadd s.mrug.size o.size, obj :: s.mrug.head⟩ := h2
  have h3' : (s.evicted obj o .mrug).mfu = s.mfu := h3 .mfu (by decide) (by decide)
  have h4' : (s.evicted obj o .mrug).mfug = s.mfug := h3 .mfug (by decide) (by decide)
  refine ⟨rest, hrest, h1', h2', h3', h4', [obj], [], [obj], ?_, ?_, ?_, ?_, ?_, ?_, ?_, ?_, ?_⟩
  · rw [h1', hrest]
  · rw [h2']; rfl
  · rw [h3']; simp
  · rw [h4']; simp
  · simp
  · simp
  · simp
  · simp
  · simp

/-- A step of the first loop that moves the tail of `mfu`. -/
theorem trimmed_mfu {s : arc} (hI : Inv s) {obj : Nat} {o : arc_object}
    (hs : o.state = some .mfu) (hlast : s.mfu.head.getLast? = some obj) :
    ∃ rest, s.mfu.head = rest ++ [obj] ∧
      (s.evicted obj o .mfug).mfu = ⟨usub s.mfu.size o.size, rest⟩ ∧
      (s.evicted obj o .mfug).mfug = ⟨uadd s.mfug.size o.size, obj :: s.mfug.head⟩ ∧
      (s.evicted obj o .mfug).mru = s.mru ∧ (s.evicted obj o .mfug).mrug = s.mrug ∧
      Trimmed s (s.evicted obj o .mfug) := by
  rcases List.getLast?_eq_some_iff.1 hlast with ⟨rest, hrest⟩
  rcases evicted_lists (g := .mfug) hI hs (show (s.get .mfu).head = rest ++ [obj] from hrest)
    (by decide) with ⟨h1, h2, h3⟩
  have h1' : (s.evicted obj o .mfug).mfu = ⟨usub s.mfu.size o.size, rest⟩ := h1
  have h2' : (s.evicted obj o .mfug).mfug = ⟨uadd s.mfug.size o.size, obj :: s.mfug.head⟩ := h2
  have h3' : (s.evicted obj o .mfug).mru = s.mru := h3 .mru (by decide) (by decide)
  have h4' : (s.evicted obj o .mfug).mrug = s.mrug := h3 .mrug (by decide) (by decide)
  refine ⟨rest, hrest, h1', h2', h3', h4', [], [obj], [obj], ?_, ?_, ?_, ?_, ?_, ?_, ?_, ?_, ?_⟩
  · rw [h3']; simp
  · rw [h4']; simp
  · rw [h1', hrest]
  · rw [h2']; rfl
  · simp
  · simp
  · simp
  · simp
  · simp

theorem dropped_hash {s : arc} (hI : Inv s) (obj : Nat) (x : Nat) :
    x ∈ s.hash.erase obj ↔ x ∈ s.hash ∧ x ≠ obj := by
  rw [hI.hash_nodup.mem_erase_iff]
  tauto

/-- A step of the second loop that destroys the tail of `mfug`. -/
theorem dropped_mfug {s : arc} (hI : Inv s) {obj : Nat} {o : arc_object}
    (hs : o.state = some .mfug) (hlast : s.mfug.head.getLast? = some obj) :
    ∃ rest, s.mfug.head = rest ++ [obj] ∧
      (s.destroyed obj o).mfug = ⟨usub s.mfug.size o.size, rest⟩ ∧
      (s.destroyed obj o).mrug = s.mrug ∧ Dropped s (s.destroyed obj o) := by
  rcases List.getLast?_eq_some_iff.1 hlast with ⟨rest, hrest⟩
  rcases destroyed_lists hI hs (show (s.get .mfug).head = rest ++ [obj] from hrest)
    with ⟨h1, h3⟩
  have h1' : (s.destroyed obj o).mfug = ⟨usub s.mfug.size o.size, rest⟩ := h1
  have h2' : (s.destroyed obj o).mrug = s.mrug := h3 .mrug (by decide)
  have h3' : (s.destroyed obj o).mru = s.mru := h3 .mru (by decide)
  have h4' : (s.destroyed obj o).mfu = s.mfu := h3 .mfu (by decide)
  refine ⟨rest, hrest, h1', h2', [], [obj], [obj], ?_, ?_, ?_, ?_, ?_, h3', h4', ?_, ?_⟩
  · rw [h2']; simp
  · rw [h1', hrest]
  · simp
  · simp
  · intro x
    rw [hash_destroyed, dropped_hash hI]
    simp
  · simp
  · simp

/-- A step of the second loop that destroys the tail of `mrug`. -/
theorem dropped_mrug {s : arc} (hI : Inv s) {obj : Nat} {o : arc_object}
    (hs : o.state = some .mrug) (hlast : s.mrug.head.getLast? = some obj) :
    ∃ rest, s.mrug.head = rest ++ [obj] ∧
      (s.destroyed obj o).mrug = ⟨usub s.mrug.size o.size, rest⟩ ∧
      (s.destroyed obj o).mfug = s.mfug ∧ Dropped s (s.destroyed obj o) := by
  rcases List.getLast?_eq_some_iff.1 hlast with ⟨rest, hrest⟩
  rcases destroyed_lists hI hs (show (s.get .mrug).head = rest ++ [obj] from hrest)
    with ⟨h1, h3⟩
  have h1' : (s.destroyed obj o).mrug = ⟨usub s.mrug.size o.size, rest⟩ := h1
  have h2' : (s.destroyed obj o).mfug = s.mfug := h3 .mfug (by decide)
  have h3' : (s.destroyed obj o).mru = s.mru := h3 .mru (by decide)
  have h4' : (s.destroyed obj o).mfu = s.mfu := h3 .mfu (by decide)
  refine ⟨rest, hrest, h1', h2', [obj], [], [obj], ?_, ?_, ?_, ?_, ?_, h3', h4', ?_, ?_⟩
  · rw [h1', hrest]
  · rw [h2']; simp
  · simp
  · simp
  · intro x
    rw [hash_destroyed, dropped_hash hI]
    simp
  · simp
  · simp

/-! ## The loops of `arc_balance`: passes, fuel, what they leave -/

/-- The result of a loop whose body lowers a measure does not depend on the
fuel once the fuel covers the measure. -/
theorem arc_while_fuel (step : arc → Except Fault (Option arc)) (P : arc → Prop)
    (μ : arc → Nat)
    (hstep : ∀ s, P s → step s = .ok none ∨ ∃ s', step s = .ok (some s') ∧ P s' ∧ μ s' < μ s) :
    ∀ fuel fuel' s, P s → μ s ≤ fuel → μ s ≤ fuel' →
      arc_while step fuel s = arc_while step fuel' s := by
  intro fuel
  induction fuel with
  | zero =>
    intro fuel' s hP h1 _
    rcases hstep s hP with h | ⟨s', _, _, hlt⟩
    · cases fuel' <;> simp only [arc_while, h]
    · omega
  | succ n ih =>
    intro fuel' s hP h1 h2
    rcases hstep s hP with h | ⟨s', hs', hP', hlt⟩
    · cases fuel' <;> simp only [arc_while, h]
    · cases fuel' with
      | zero => omega
      | succ m =>
        simp only [arc_while, hs']
        exact ih m s' hP' (by omega) (by omega)

/-- A loop whose body lowers a measure makes at most as many passes as the
measure says, whatever the fuel. -/
theorem arc_while_passes_le (step : arc → Except Fault (Option arc)) (P : arc → Prop)
    (μ : arc → Nat)
    (hstep : ∀ s, P s → step s = .ok none ∨ ∃ s', step s = .ok (some s') ∧ P s' ∧ μ s' < μ s) :
    ∀ fuel s, P s → arc_while_passes step fuel s ≤ μ s := by
  intro fuel
  induction fuel with
  | zero => intro s _; simp [arc_while_passes]
  | succ n ih =>
    intro s hP
    rcases hstep s hP with h | ⟨s', hs', hP', hlt⟩
    · simp [arc_while_passes, h]
    · simp only [arc_while_passes, hs']
      have := ih s' hP'
      omega

/-- The body of the first loop keeps the invariant and takes a record out
of `mru` or `mfu`. -/
theorem arc_balance_step1_lowers (size : Nat) (s : arc) (hI : Inv s) :
    arc_balance_step1 size s = .ok none ∨
    ∃ s', arc_balance_step1 size s = .ok (some s') ∧ Inv s' ∧ (Frame s s' ∧ Trimmed s s') ∧
      s'.mru.head.length + s'.mfu.head.length < s.mru.head.length + s.mfu.head.length := by
  rcases arc_balance_step1_spec hI size with h | ⟨obj, o, _, _, hlast, hm, ho, hs, h⟩ |
    ⟨obj, o, _, _, _, hlast, hm, ho, hs, h⟩
  · exact Or.inl h.1
  · rcases trimmed_mru hI hs hlast with ⟨rest, hrest, h1, _, h3, _, hT⟩
    refine Or.inr ⟨_, h, hI.evicted ho hs hm _, ⟨frame_evicted hI ho hs hm _, hT⟩, ?_⟩
    rw [h1, h3, hrest]
    simp
  · rcases trimmed_mfu hI hs hlast with ⟨rest, hrest, h1, _, h3, _, hT⟩
    refine Or.inr ⟨_, h, hI.evicted ho hs hm _, ⟨frame_evicted hI ho hs hm _, hT⟩, ?_⟩
    rw [h1, h3, hrest]
    simp

/-- The body of the second loop keeps the invariant and takes a record out
of `mrug` or `mfug`. -/
theorem arc_balance_step2_lowers (s : arc) (hI : Inv s) :
    arc_balance_step2 s = .ok none ∨
    ∃ s', arc_balance_step2 s = .ok (some s') ∧ Inv s' ∧ (Frame s s' ∧ Dropped s s') ∧
      s'.mrug.head.length + s'.mfug.head.length < s.mrug.head.length + s.mfug.head.length := by
  rcases arc_balance_step2_spec hI with h | ⟨obj, o, _, _, hlast, hm, ho, hs, h⟩ |
    ⟨obj, o, _, _, _, hlast, hm, ho, hs, h⟩
  · exact Or.inl h.1
  · rcases dropped_mfug hI hs hlast with ⟨rest, hrest, h1, h2, hT⟩
    refine Or.inr ⟨_, h, hI.destroyed ho hs hm, ⟨frame_destroyed hI hs hm, hT⟩, ?_⟩
    rw [h1, h2, hrest]
    simp
  · rcases dropped_mrug hI hs hlast with ⟨rest, hrest, h1, h2, hT⟩
    refine Or.inr ⟨_, h, hI.destroyed ho hs hm, ⟨frame_destroyed hI hs hm, hT⟩, ?_⟩
    rw [h1, h2, hrest]
    simp

/-- The first loop on a well-formed cache, for every fuel that covers the
records of `mru` and `mfu`. -/
theorem phase1_detail (size : Nat) (s : arc) (hI : Inv s) :
    ∃ s1, (∀ fuel, s.mru.head.length + s.mfu.head.length ≤ fuel →
        arc_while (arc_balance_step1 size) fuel s = .ok s1) ∧
      Inv s1 ∧ Frame s s1 ∧ Trimmed s s1 ∧ arc_balance_step1 size s1 = .ok none := by
  have hstep := arc_balance_step1_lowers size
  rcases arc_while_spec (arc_balance_step1 size) Inv (fun a b => Frame a b ∧ Trimmed a b)
    (fun s => s.mru.head.length + s.mfu.head.length)
    (fun s => ⟨Frame.refl s, trimmed_refl s⟩)
    (fun _ _ _ h1 h2 => ⟨h1.1.trans h2.1, trimmed_trans h1.2 h2.2⟩)
    (fun s hs => hstep s hs) _ s hI (Nat.le_refl _) with ⟨s1, h1, hI1, ⟨hF, hT⟩, hx⟩
  refine ⟨s1, ?_, hI1, hF, hT, hx⟩
  intro fuel hfuel
  rw [← h1]
  refine arc_while_fuel (arc_balance_step1 size) Inv
    (fun s => s.mru.head.length + s.mfu.head.length) ?_ _ _ s hI hfuel (Nat.le_refl _)
  intro t ht
  rcases hstep t ht with h | ⟨t', h, hI', _, hlt⟩
  · exact Or.inl h
  · exact Or.inr ⟨t', h, hI', hlt⟩

/-- The second loop on a well-formed cache, for every fuel that covers the
records of `mrug` and `mfug`. -/
theorem phase2_detail (s : arc) (hI : Inv s) :
    ∃ s1, (∀ fuel, s.mrug.head.length + s.mfug.head.length ≤ fuel →
        arc_while arc_balance_step2 fuel s = .ok s1) ∧
      Inv s1 ∧ Frame s s1 ∧ Dropped s s1 ∧ arc_balance_step2 s1 = .ok none := by
  have hstep := arc_balance_step2_lowers
  rcases arc_while_spec arc_balance_step2 Inv (fun a b => Frame a b ∧ Dropped a b)
    (fun s => s.mrug.head.length + s.mfug.head.length)
    (fun s => ⟨Frame.refl s, dropped_refl s⟩)
    (fun _ _ _ h1 h2 => ⟨h1.1.trans h2.1, dropped_trans h1.2 h2.2⟩)
    (fun s hs => hstep s hs) _ s hI (Nat.le_refl _) with ⟨s1, h1, hI1, ⟨hF, hT⟩, hx⟩
  refine ⟨s1, ?_, hI1, hF, hT, hx⟩
  intro fuel hfuel
  rw [← h1]
  refine arc_while_fuel arc_balance_step2 Inv
    (fun s => s.mrug.head.length + s.mfug.head.length) ?_ _ _ s hI hfuel (Nat.le_refl _)
  intro t ht
  rcases hstep t ht with h | ⟨t', h, hI', _, hlt⟩
  · exact Or.inl h
  · exact Or.inr ⟨t', h, hI', hlt⟩

theorem Inv.log {s : arc} (hI : Inv s) (e : Event) : Inv (s.log e) :=
  hI.congr (fun l => get_log _ _ l) rfl rfl

/-- Function `arc_balance` on a well-formed cache, with the state `s1`
between its loops. -/
theorem arc_balance_detail (size : Nat) (s : arc) (hI : Inv s) :
    ∃ s1 s2, arc_balance s size = .ok s2 ∧
      (∀ fuel, s.mru.head.length + s.mfu.head.length ≤ fuel →
        arc_while (arc_balance_step1 size) fuel (s.log (.balance size)) = .ok s1) ∧
      (∀ fuel, s1.mrug.head.length + s1.mfug.head.length ≤ fuel →
        arc_while arc_balance_step2 fuel s1 = .ok s2) ∧
      Inv s1 ∧ Inv s2 ∧ Trimmed (s.log (.balance size)) s1 ∧ Dropped s1 s2 ∧
      arc_balance_step1 size s1 = .ok none ∧ arc_balance_step2 s2 = .ok none := by
  rcases phase1_detail size (s.log (.balance size)) (hI.log _) with ⟨s1, h1, hI1, _, hT, hx1⟩
  rcases phase2_detail s1 hI1 with ⟨s2, h2, hI2, _, hD, hx2⟩
  refine ⟨s1, s2, ?_, h1, h2, hI1, hI2, hT, hD, hx1, hx2⟩
  unfold arc_balance
  simp only [h1 _ (Nat.le_refl _), h2 _ (Nat.le_refl _)]

theorem size_lt_mod {s : arc} (hI : Inv s) (l : arc_list) : (s.get l).size < ULONG_MOD := by
  rw [hI.acct l]
  exact Nat.mod_lt _ (by decide)

/-! ## The loops of `arc_balance` -/

/-- The first loop of `arc_balance` in `unsigned long` arithmetic. At every
cache that satisfies the invariant and for every incoming size, one
evaluation of the loop either ends it, with `mru.size + mfu.size + size <= c`
(an `unsigned long` sum) or with `mru.size <= p` and `mfu.size = 0`; or,
when `mru.size > p`, moves the tail of `mru` to the head of `mrug`; or, when
`mru.size <= p` and `mfu.size > 0`, moves the tail of `mfu` to the head of
`mfug`; a move calls `evict` on the record and nothing else and leaves `p`
and the other lists alone. The whole loop ends (`Trimmed`) in a state with
one of the two exit conditions. -/
theorem phase1_unsigned (s : arc) (size : Nat) (hI : Inv s) :
    ((arc_balance_step1 size s = .ok none ∧
        (uadd (uadd s.mru.size s.mfu.size) size ≤ s.c ∨ (s.mru.size ≤ s.p ∧ s.mfu.size = 0))) ∨
      (uadd (uadd s.mru.size s.mfu.size) size > s.c ∧ s.mru.size > s.p ∧
        ∃ (obj : Nat) (o : arc_object) (rest : List Nat) (s' : arc),
          s.mru.head = rest ++ [obj] ∧ s.objs[obj]? = some o ∧
          arc_balance_step1 size s = .ok (some s') ∧
          s'.mru = ⟨usub s.mru.size o.size, rest⟩ ∧
          s'.mrug = ⟨uadd s.mrug.size o.size, obj :: s.mrug.head⟩ ∧
          s'.mfu = s.mfu ∧ s'.mfug = s.mfug ∧ s'.p = s.p ∧
          s'.trace = s.trace ++ [Event.evict obj]) ∨
      (uadd (uadd s.mru.size s.mfu.size) size > s.c ∧ s.mru.size ≤ s.p ∧ s.mfu.size > 0 ∧
        ∃ (obj : Nat) (o : arc_object) (rest : List Nat) (s' : arc),
          s.mfu.head = rest ++ [obj] ∧ s.objs[obj]? = some o ∧
          arc_balance_step1 size s = .ok (some s') ∧
          s'.mfu = ⟨usub s.mfu.size o.size, rest⟩ ∧
          s'.mfug = ⟨uadd s.mfug.size o.size, obj :: s.mfug.head⟩ ∧
          s'.mru = s.mru ∧ s'.mrug = s.mrug ∧ s'.p = s.p ∧
          s'.trace = s.trace ++ [Event.evict obj])) ∧
    (∃ s1, (∀ fuel, s.mru.head.length + s.mfu.head.length ≤ fuel →
        arc_while (arc_balance_step1 size) fuel s = .ok s1) ∧
      Trimmed s s1 ∧
      (uadd (uadd s1.mru.size s1.mfu.size) size ≤ s1.c ∨
        (s1.mru.size ≤ s1.p ∧ s1.mfu.size = 0))) := by
  refine ⟨?_, ?_⟩
  · rcases arc_balance_step1_spec hI size with h | ⟨obj, o, hc, hgt, hlast, _, ho, hs, h⟩ |
      ⟨obj, o, hc, hle, hpos, hlast, _, ho, hs, h⟩
    · refine Or.inl ⟨h.1, ?_⟩
      rcases h.2 with h' | h'
      · exact Or.inl (by omega)
      · exact Or.inr h'
    · rcases trimmed_mru hI hs hlast with ⟨rest, hrest, h1, h2, h3, h4, _⟩
      exact Or.inr (Or.inl ⟨hc, hgt, obj, o, rest, _, hrest, ho, h, h1, h2, h3, h4, by simp,
        by simp⟩)
    · rcases trimmed_mfu hI hs hlast with ⟨rest, hrest, h1, h2, h3, h4, _⟩
      exact Or.inr (Or.inr ⟨hc, by omega, hpos, obj, o, rest, _, hrest, ho, h, h1, h2, h3, h4,
        by simp, by simp⟩)
  · rcases phase1_detail size s hI with ⟨s1, h1, hI1, _, hT, hx⟩
    refine ⟨s1, h1, hT, ?_⟩
    rcases arc_balance_step1_spec hI1 size with h | ⟨_, _, _, _, _, _, _, _, h⟩ |
      ⟨_, _, _, _, _, _, _, _, _, h⟩
    · rcases h.2 with h' | h'
      · exact Or.inl (by omega)
      · exact Or.inr h'
    · rw [hx] at h; cases h
    · rw [hx] at h; cases h

/-- What the exit of the second loop means when `p <= c`. -/
theorem step2_exit {s : arc} (hI : Inv s) (hp : s.p ≤ s.c)
    (h : arc_balance_step2 s = .ok none) : uadd s.mrug.size s.mfug.size ≤ s.c := by
  rcases arc_balance_step2_spec hI with h' | ⟨_, _, _, _, _, _, _, _, h'⟩ |
    ⟨_, _, _, _, _, _, _, _, _, h'⟩
  · rcases h'.2 with h2 | ⟨h2, h3⟩
    · omega
    · have hlt : s.mfug.size < ULONG_MOD := size_lt_mod hI .mfug
      have : uadd s.mrug.size s.mfug.size = s.mfug.size := by
        unfold uadd
        rw [h3, Nat.zero_add]
        exact Nat.mod_eq_of_lt hlt
      omega
  · rw [h] at h'; cases h'
  · rw [h] at h'; cases h'

/-- The second loop of `arc_balance` in `unsigned long` arithmetic. At
every cache with `p <= c` that satisfies the invariant, one evaluation of the
loop either ends it, and then `mrug.size + mfug.size <= c` as an
`unsigned long` sum; or, when `mfug.size > p`, destroys the tail of `mfug`;
or, when `mfug.size <= p` and `mrug.size > 0`, destroys the tail of `mrug`;
a step leaves `mru`, `mfu` and `p` alone. `arc_balance` returns a state `s2`
with `mrug.size + mfug.size <= c` as an `unsigned long` sum. -/
theorem phase2_unsigned (s : arc) (size : Nat) (hI : Inv s) (hp : s.p ≤ s.c) :
    ((arc_balance_step2 s = .ok none ∧ uadd s.mrug.size s.mfug.size ≤ s.c) ∨
      (uadd s.mrug.size s.mfug.size > s.c ∧ s.mfug.size > s.p ∧
        ∃ (obj : Nat) (o : arc_object) (rest : List Nat) (s' : arc),
          s.mfug.head = rest ++ [obj] ∧ s.objs[obj]? = some o ∧
          arc_balance_step2 s = .ok (some s') ∧
          s'.mfug = ⟨usub s.mfug.size o.size, rest⟩ ∧ s'.mrug = s.mrug ∧
          s'.mru = s.mru ∧ s'.mfu = s.mfu ∧ s'.p = s.p ∧
          s'.trace = s.trace ++ [Event.destroy obj] ∧ obj ∉ s'.hash) ∨
      (uadd s.mrug.size s.mfug.size > s.c ∧ s.mfug.size ≤ s.p ∧ s.mrug.size > 0 ∧
        ∃ (obj : Nat) (o : arc_object) (rest : List Nat) (s' : arc),
          s.mrug.head = rest ++ [obj] ∧ s.objs[obj]? = some o ∧
          arc_balance_step2 s = .ok (some s') ∧
          s'.mrug = ⟨usub s.mrug.size o.size, rest⟩ ∧ s'.mfug = s.mfug ∧
          s'.mru = s.mru ∧ s'.mfu = s.mfu ∧ s'.p = s.p ∧
          s'.trace = s.trace ++ [Event.destroy obj] ∧ obj ∉ s'.hash)) ∧
    (∃ s1 s2, arc_balance s size = .ok s2 ∧ Trimmed (s.log (.balance size)) s1 ∧
      Dropped s1 s2 ∧ uadd s2.mrug.size s2.mfug.size ≤ s2.c ∧
      (s2.mrug.size + s2.mfug.size < ULONG_MOD → s2.mrug.size + s2.mfug.size ≤ s2.c)) := by
  have hgone : ∀ obj, obj ∉ s.hash.erase obj := fun obj hm =>
    ((hI.hash_nodup.mem_erase_iff).1 hm).1 rfl
  refine ⟨?_, ?_⟩
  · rcases arc_balance_step2_spec hI with h | ⟨obj, o, hc, hgt, hlast, _, ho, hs, h⟩ |
      ⟨obj, o, hc, hle, hpos, hlast, _, ho, hs, h⟩
    · exact Or.inl ⟨h.1, step2_exit hI hp h.1⟩
    · rcases dropped_mfug hI hs hlast with ⟨rest, hrest, h1, h2, D1, D2, ev, _, _, _, _, _,
        h3, h4, _, _⟩
      exact Or.inr (Or.inl ⟨hc, hgt, obj, o, rest, _, hrest, ho, h, h1, h2, h3, h4, by simp,
        by simp, by rw [hash_destroyed]; exact hgone obj⟩)
    · rcases dropped_mrug hI hs hlast with ⟨rest, hrest, h1, h2, D1, D2, ev, _, _, _, _, _,
        h3, h4, _, _⟩
      exact Or.inr (Or.inr ⟨hc, by omega, hpos, obj, o, rest, _, hrest, ho, h, h1, h2, h3, h4,
        by simp, by simp, by rw [hash_destroyed]; exact hgone obj⟩)
  · rcases arc_balance_detail size s hI with ⟨s1, s2, hb, _, _, _, hI2, hT, hD, _, hx2⟩
    rcases hT with ⟨_, _, _, _, _, _, _, _, _, hp1, hc1, _⟩
    have hp2 : s2.p ≤ s2.c := by
      rcases hD with ⟨_, _, _, _, _, _, _, _, _, _, hp', hc'⟩
      rw [hp', hc', hp1, hc1]
      exact hp
    have hle := step2_exit hI2 hp2 hx2
    refine ⟨s1, s2, hb, ⟨_, _, _, by assumption, by assumption, by assumption, by assumption,
      by assumption, by assumption, hp1, hc1, by assumption⟩, hD, hle, ?_⟩
    intro hfit
    unfold uadd at hle
    rw [Nat.mod_eq_of_lt hfit] at hle
    exact hle

/-- The calls of `arc_move` with a ghost list or `NULL` as target never
reach the call of `arc_balance`. -/
theorem arc_move_gen_leaf (bal : arc → Nat → Except Fault arc) (s : arc) (obj : Nat)
    (target : Option arc_list) (f : Bool)
    (ht : target = none ∨ target = some .mrug ∨ target = some .mfug) :
    arc_move_gen bal s obj target f = arc_move_leaf s obj target := by
  cases ho : s.objs[obj]? with
  | none => unfold arc_move_leaf arc_move_gen; simp only [ho]
  | some o =>
    rcases ht with h | h | h <;> subst h
    · rw [arc_move_gen_none bal s obj o f ho, arc_move_leaf_none s obj o ho]
    · rw [arc_move_gen_ghost bal s obj o .mrug f ho (Or.inl rfl),
        arc_move_leaf_ghost s obj o .mrug ho (Or.inl rfl)]
    · rw [arc_move_gen_ghost bal s obj o .mfug f ho (Or.inr rfl),
        arc_move_leaf_ghost s obj o .mfug ho (Or.inr rfl)]

/-- A lookup on a well-formed cache returns, divides by zero or dereferences
a null state; it never runs out of fuel. -/
theorem arc_lookup_total {s : arc} (hI : Inv s) (hC : Closed s none) (key : Nat)
    (created : Option Nat) (f : Bool) :
    (∃ r, arc_lookup s key created f = .ok r) ∨
      arc_lookup s key created f = .error .divByZero ∨
      arc_lookup s key created f = .error .nullDeref := by
  cases hk : arc_hash_lookup s key with
  | none =>
    cases created with
    | none => exact Or.inl ⟨_, arc_lookup_miss_none hk f⟩
    | some size =>
      rcases miss_spec hI hC hk size with ⟨_, _, _, _, _, _, _, _, _, _, _, _, ht, hf, _, _⟩
      cases f with
      | true => exact Or.inl ⟨_, ht⟩
      | false => exact Or.inr (Or.inr hf)
  | some obj =>
    rcases hit_list hI hC hk with ⟨o, l, ho, _, hl, hm, _⟩
    have ghost : l = .mrug ∨ l = .mfug → (∃ r, arc_lookup s key created f = .ok r) ∨
        arc_lookup s key created f = .error .divByZero ∨
        arc_lookup s key created f = .error .nullDeref := by
      intro hg
      by_cases hz : (s.get l).size = 0
      · exact Or.inr (Or.inl (arc_lookup_ghost_zero hI hC hk hg hm hz created f))
      · rcases ghost_hit_spec hI hC hk hg hm hz created with
          ⟨_, _, _, _, _, _, _, _, ht, hf, _, _⟩
        cases f with
        | true => exact Or.inl ⟨_, ht⟩
        | false => exact Or.inl ⟨_, hf⟩
    cases l with
    | mru => exact Or.inl ⟨_, arc_lookup_resident hk ho (Or.inl hl) created f⟩
    | mfu => exact Or.inl ⟨_, arc_lookup_resident hk ho (Or.inr hl) created f⟩
    | mrug => exact ghost (Or.inl rfl)
    | mfug => exact ghost (Or.inr rfl)

/-- C20. On a cache that satisfies the invariants `arc_balance` returns, for
every incoming size. With `s1` the state between its loops: the first loop
gives `s1` for every fuel that covers the records of `mru` and `mfu`, and
makes at most that many passes whatever the fuel; the second loop gives the
result for every fuel that covers the records of `mrug` and `mfug` in `s1`,
and makes at most that many passes. The calls of `arc_move` inside
`arc_balance` (target a ghost list or `NULL`) do not call `arc_balance`
again. Every `arc_lookup` ends: it returns or stops at one of the two faults
of the lookup itself, and never for lack of fuel. -/
theorem arc_balance_terminates (s : arc) (size : Nat) (hI : Inv s) (hC : Closed s none) :
    (∃ s1 s2, arc_balance s size = .ok s2 ∧
      (∀ fuel, s.mru.head.length + s.mfu.head.length ≤ fuel →
        arc_while (arc_balance_step1 size) fuel (s.log (.balance size)) = .ok s1) ∧
      (∀ fuel, arc_while_passes (arc_balance_step1 size) fuel (s.log (.balance size)) ≤
        s.mru.head.length + s.mfu.head.length) ∧
      (∀ fuel, s1.mrug.head.length + s1.mfug.head.length ≤ fuel →
        arc_while arc_balance_step2 fuel s1 = .ok s2) ∧
      (∀ fuel, arc_while_passes arc_balance_step2 fuel s1 ≤
        s1.mrug.head.length + s1.mfug.head.length)) ∧
    (∀ (bal : arc → Nat → Except Fault arc) (t : arc) (obj : Nat) (target : Option arc_list)
        (f : Bool), target = none ∨ target = some .mrug ∨ target = some .mfug →
      arc_move_gen bal t obj target f = arc_move_leaf t obj target) ∧
    (∀ key created f, (∃ r, arc_lookup s key created f = .ok r) ∨
      arc_lookup s key created f = .error .divByZero ∨
      arc_lookup s key created f = .error .nullDeref) := by
  refine ⟨?_, arc_move_gen_leaf, arc_lookup_total hI hC⟩
  rcases arc_balance_detail size s hI with ⟨s1, s2, hb, h1, h2, hI1, _, _, _, _, _⟩
  refine ⟨s1, s2, hb, h1, ?_, h2, ?_⟩
  · intro fuel
    refine arc_while_passes_le (arc_balance_step1 size) Inv
      (fun s => s.mru.head.length + s.mfu.head.length) ?_ fuel _ (hI.log _)
    intro t ht
    rcases arc_balance_step1_lowers size t ht with h | ⟨t', h, hI', _, hlt⟩
    · exact Or.inl h
    · exact Or.inr ⟨t', h, hI', hlt⟩
  · intro fuel
    refine arc_while_passes_le arc_balance_step2 Inv
      (fun s => s.mrug.head.length + s.mfug.head.length) ?_ fuel _ hI1
    intro t ht
    rcases arc_balance_step2_lowers t ht with h | ⟨t', h, hI', _, hlt⟩
    · exact Or.inl h
    · exact Or.inr ⟨t', h, hI', hlt⟩

/-- C18 (the code breaks the claim). Capacity 4, `p = 2`. After the lookups
of keys 0 and 1 (size 1 each) `mru` holds both records. The lookup of key 2
creates a record of size 5 > c: the first loop of `arc_balance(5)` sees
`2 + 0 + 5 > 4`, `mru.size > p` false (2 > 2) and `mfu.size > 0` false, and
leaves at once with both records still in `mru`; after the admission `mru`
holds three records of weight 7. -/
theorem oversized_admission_keeps_residents :
    ∃ s s0 s1 s2, arc_run (arc_create 4) [Call.unit 0, Call.unit 1] = .ok s ∧
      s0 = (s.created 2 5).log (.balance 5) ∧
      arc_while (arc_balance_step1 5) (s0.mru.head.length + s0.mfu.head.length) s0 = .ok s1 ∧
      s1.c = 4 ∧ s1.p = 2 ∧ s1.mru.head = [1, 0] ∧ s1.mru.size = 2 ∧ s1.mfu.size = 0 ∧
      arc_lookup s 2 (some 5) true = .ok (s2, some 2) ∧
      s2.mru.head = [2, 1, 0] ∧ s2.mru.size = 7 ∧ s2.mfu.head = [] :=
  ⟨_, _, _, _, rfl, rfl, rfl, rfl, rfl, rfl, rfl, rfl, rfl, rfl, rfl, rfl⟩

/-! ## Teardown -/

theorem arc_destroy_walk_nil (s : arc) (l : arc_list) (h : (s.get l).head = []) :
    arc_destroy_walk s l = .ok s := by
  unfold arc_destroy_walk
  rw [h]

/-- C13 (the code breaks the claim). On `cache_cold`, whose four records
are in `mru`, `arc_destroy` passes the first record (address 3) to
`arc_move(cache, obj, NULL)`: that call invokes `destroy` on it (and not
`evict`) and leaves the other three records in `mru` and in the hash table;
`list_for_each_entry` then reads the links of the record that was just
unlinked and destroyed, and `arc_destroy` does not complete: the other three
records are neither destroyed nor taken out of the hash table. -/
theorem arc_destroy_leaves_records :
    cache_cold.mru.head = [3, 2, 1, 0] ∧ arc_destroy cache_cold = .error .useAfterFree ∧
    ∃ s', arc_move cache_cold 3 none true = .ok (s', none) ∧
      s'.trace = cache_cold.trace ++ [Event.destroy 3] ∧ Event.evict 3 ∉ s'.trace ∧
      s'.mru.head = [2, 1, 0] ∧ s'.hash = [2, 1, 0] :=
  ⟨rfl, rfl, _, rfl, rfl, by decide, rfl, rfl⟩

/-- What `arc_move(cache, obj, NULL)` does. On a reachable cache whose
four lists are empty `arc_destroy` returns and calls nothing. For every
record of one of the four lists of a reachable cache, the call
`arc_move(cache, obj, NULL)` returns `NULL`, calls `destroy` on the record
once and no other callback (`evict` neither), and takes the record, and only
it, out of its list and out of the hash table. -/
theorem arc_destroy_by_record (c : Nat) (s : arc) (hR : Reachable c s) :
    ((∀ l, (s.get l).head = []) → arc_destroy s = .ok s) ∧
    (∀ l obj, obj ∈ (s.get l).head →
      ∃ s', arc_move s obj none true = .ok (s', none) ∧
        s'.trace = s.trace ++ [Event.destroy obj] ∧ obj ∉ s'.hash ∧
        (∀ l', obj ∉ (s'.get l').head) ∧
        (∀ l' id, id ≠ obj → (id ∈ (s'.get l').head ↔ id ∈ (s.get l').head)) ∧
        (∀ id, id ≠ obj → (id ∈ s'.hash ↔ id ∈ s.hash))) := by
  rcases hR.inv with ⟨hI, _⟩
  refine ⟨?_, ?_⟩
  · intro h
    unfold arc_destroy
    simp only [arc_destroy_walk_nil s _ (h _)]
  · intro l obj hm
    rcases hI.state_of_mem l obj hm with ⟨o, ho, hl⟩
    refine ⟨s.destroyed obj o, arc_move_gen_none _ s obj o true ho, by simp, ?_, ?_, ?_, ?_⟩
    · rw [hash_destroyed]
      exact fun h => ((hI.hash_nodup.mem_erase_iff).1 h).1 rfl
    · intro l' h
      exact ((mem_destroyed hI hl hm l' obj).1 h).1 rfl
    · intro l' id hne
      rw [mem_destroyed hI hl hm l' id]
      tauto
    · intro id hne
      rw [hash_destroyed, List.mem_erase_of_ne hne]

/-! ## Repeated lookups of one key -/

/-- After a lookup that returned with `create` and `fetch` succeeding, the
key belongs to the returned record, which is in `mru` or `mfu`. -/
theorem after_lookup_resident {s s1 : arc} (hI : Inv s) (hC : Closed s none) {key size : Nat}
    {r1 : Option Nat} (h1 : arc_lookup s key (some size) true = .ok (s1, r1)) :
    ∃ obj, r1 = some obj ∧ arc_hash_lookup s1 key = some obj ∧
      (obj ∈ s1.mru.head ∨ obj ∈ s1.mfu.head) := by
  have hI1 := (arc_lookup_inv hI hC h1).1
  cases hk : arc_hash_lookup s key with
  | none =>
    rcases miss_spec hI hC hk size with ⟨_, s2, _, _, _, _, _, _, _, _, ho2, hh2, ht, _, _, _⟩
    rw [ht] at h1
    cases h1
    have hobj := objs_fetched s2 s.objs.length (arc_object_init key size) .mru ho2 s.objs.length
    simp only [if_true] at hobj
    refine ⟨s.objs.length, rfl, arc_hash_lookup_of_mem hI1 (by simpa using hh2) hobj rfl,
      Or.inl ?_⟩
    have := get_fetched s2 s.objs.length (arc_object_init key size) .mru .mru
    simp only [if_true] at this
    show s.objs.length ∈ ((s2.fetched s.objs.length (arc_object_init key size) .mru).get .mru).head
    rw [this]
    exact List.mem_cons_self _ _
  | some obj =>
    rcases hit_list hI hC hk with ⟨o, l, ho, hkey, hl, hm, hh⟩
    have resident : o.state = some .mru ∨ o.state = some .mfu →
        ∃ obj, r1 = some obj ∧ arc_hash_lookup s1 key = some obj ∧
          (obj ∈ s1.mru.head ∨ obj ∈ s1.mfu.head) := by
      intro hsrc
      rw [arc_lookup_resident hk ho hsrc] at h1
      cases h1
      have hobj : (s.moved obj o .mfu).objs[obj]? = some { o with state := some .mfu } := by
        rw [objs_moved s obj o .mfu ho]; simp
      refine ⟨obj, rfl, arc_hash_lookup_of_mem hI1 (by simpa using hh) hobj hkey, Or.inr ?_⟩
      show obj ∈ ((s.moved obj o .mfu).get .mfu).head
      rw [get_moved, if_pos rfl]
      exact List.mem_cons_self _ _
    have ghost : l = .mrug ∨ l = .mfug →
        ∃ obj, r1 = some obj ∧ arc_hash_lookup s1 key = some obj ∧
          (obj ∈ s1.mru.head ∨ obj ∈ s1.mfu.head) := by
      intro hg
      by_cases hz : (s.get l).size = 0
      · rw [arc_lookup_ghost_zero hI hC hk hg hm hz (some size) true] at h1
        cases h1
      · rcases ghost_hit_spec hI hC hk hg hm hz (some size) with
          ⟨o', s2, ho', _, _, _, ho2, _, ht, _, _, _⟩
        rw [ho] at ho'
        cases ho'
        rw [ht] at h1
        cases h1
        have hobj : (s2.fetched obj o .mfu).objs[obj]? = some { o with state := some .mfu } := by
          rw [objs_fetched s2 obj o .mfu ho2]; simp
        have hh1 : obj ∈ (s2.fetched obj o .mfu).hash := by
          have hin : obj ∈ ((s2.fetched obj o .mfu).get .mfu).head := by
            rw [get_fetched, if_pos rfl]
            exact List.mem_cons_self _ _
          exact hI1.mem_hash .mfu obj hin
        refine ⟨obj, rfl, arc_hash_lookup_of_mem hI1 hh1 hobj hkey, Or.inr ?_⟩
        show obj ∈ ((s2.fetched obj o .mfu).get .mfu).head
        rw [get_fetched, if_pos rfl]
        exact List.mem_cons_self _ _
    cases l with
    | mru => exact resident (Or.inl hl)
    | mfu => exact resident (Or.inr hl)
    | mrug => exact ghost (Or.inl rfl)
    | mfug => exact ghost (Or.inr rfl)

/-- Moving the head of `mfu` to the head of `mfu` changes nothing but,
possibly, the mark `underflow`. -/
theorem moved_head_mfu {s : arc} (hI : Inv s) {obj : Nat} {o : arc_object} {rest : List Nat}
    (ho : s.objs[obj]? = some o) (hs : o.state = some .mfu)
    (hhead : s.mfu.head = obj :: rest) :
    (∀ l, (s.moved obj o .mfu).get l = s.get l) ∧ (s.moved obj o .mfu).objs = s.objs := by
  have hm : obj ∈ (s.get .mfu).head := by
    show obj ∈ s.mfu.head
    rw [hhead]; exact List.mem_cons_self _ _
  refine ⟨?_, ?_⟩
  · intro l
    rw [get_moved]
    by_cases h : l = .mfu
    · subst h
      rw [if_pos rfl, get_unlink_same s obj o .mfu hs]
      have h1 : (s.get .mfu).head = obj :: rest := hhead
      have h2 : uadd (usub (s.get .mfu).size o.size) o.size = (s.get .mfu).size :=
        uadd_usub_cancel _ _ (size_lt_mod hI .mfu) (hI.size_lt obj o ho)
      show (⟨uadd (usub (s.get .mfu).size o.size) o.size,
        obj :: (s.get .mfu).head.erase obj⟩ : arc_state) = s.get .mfu
      rw [h2, h1, List.erase_cons_head]
      rw [← h1]
    · rw [if_neg h]
      have hnot : obj ∉ (s.get l).head := fun hmem => h (hI.list_unique hmem hm)
      exact get_unlink_other s obj o .mfu l hs h hnot
  · apply List.ext_getElem?
    intro id
    rw [objs_moved s obj o .mfu ho]
    by_cases h : id = obj
    · subst h
      rw [if_pos rfl, ho]
      congr 1
      cases o
      simp only at hs
      subst hs
      rfl
    · rw [if_neg h]

/-- C11. On a cache reached with successful callbacks, if a lookup of `k`
returns (`create` and `fetch` succeeding), a second lookup of `k` returns
the same record, leaves it at the head of `mfu` and leaves `p` as the first
call left it; a third lookup of `k` returns it again and leaves `c`, `p`,
the four lists with their sizes, the hash table, the memory of the objects
and the trace exactly as the second call left them. -/
theorem idempotent_hit (c : Nat) (s s1 : arc) (key size : Nat) (r1 : Option Nat)
    (created2 created3 : Option Nat) (f2 f3 : Bool) (hR : ReachableOk c s)
    (h1 : arc_lookup s key (some size) true = .ok (s1, r1)) :
    ∃ obj s2 s3, r1 = some obj ∧
      arc_lookup s1 key created2 f2 = .ok (s2, some obj) ∧
      s2.mfu.head.head? = some obj ∧ s2.p = s1.p ∧
      arc_lookup s2 key created3 f3 = .ok (s3, some obj) ∧
      s3.c = s2.c ∧ s3.p = s2.p ∧ s3.mru = s2.mru ∧ s3.mfu = s2.mfu ∧ s3.mrug = s2.mrug ∧
      s3.mfug = s2.mfug ∧ s3.hash = s2.hash ∧ s3.objs = s2.objs ∧ s3.trace = s2.trace := by
  rcases hR.reachable.inv with ⟨hI, hC⟩
  rcases arc_lookup_inv hI hC h1 with ⟨hI1, hC1⟩
  rcases after_lookup_resident hI hC h1 with ⟨obj, hr, hk1, hres⟩
  rcases hit_list hI1 hC1 hk1 with ⟨o1, l, ho1, hkey1, hl, hm, hh⟩
  have hl' : l = .mru ∨ l = .mfu := by
    rcases hres with h | h
    · exact Or.inl (hI1.list_unique hm (show obj ∈ (s1.get .mru).head from h))
    · exact Or.inr (hI1.list_unique hm (show obj ∈ (s1.get .mfu).head from h))
  have hsrc : o1.state = some .mru ∨ o1.state = some .mfu := by
    rcases hl' with h | h <;> subst h
    · exact Or.inl hl
    · exact Or.inr hl
  have h2 := arc_lookup_resident hk1 ho1 hsrc created2 f2
  rcases moved_spec hI1 hC1 ho1 hl hm .mfu with ⟨hI2, hC2⟩
  have ho2 : (s1.moved obj o1 .mfu).objs[obj]? = some { o1 with state := some .mfu } := by
    rw [objs_moved s1 obj o1 .mfu ho1]; simp
  have hhead : (s1.moved obj o1 .mfu).mfu.head = obj :: ((s1.unlink obj o1).get .mfu).head := by
    have := get_moved s1 obj o1 .mfu .mfu
    rw [if_pos rfl] at this
    exact congrArg arc_state.head this
  have hk2 : arc_hash_lookup (s1.moved obj o1 .mfu) key = some obj :=
    arc_hash_lookup_of_mem hI2 (by simpa using hh) ho2 hkey1
  have h3 := arc_lookup_resident hk2 ho2 (Or.inr rfl) created3 f3
  rcases moved_head_mfu hI2 ho2 rfl hhead with ⟨hget, hobjs⟩
  refine ⟨obj, _, _, hr, h2, ?_, by simp, h3, by simp, by simp, hget .mru, hget .mfu,
    hget .mrug, hget .mfug, by simp, hobjs, by simp⟩
  rw [hhead]; rfl

/-- Witness of C11: three lookups of key 0 on `cache_spill`, where its
record is in `mrug`. -/
theorem idempotent_hit_witness :
    ReachableOk 4 cache_spill ∧
    arc_lookup cache_spill 0 (some 1) true =
      .ok (cacheAfter 4 [Call.unit 0, Call.unit 1, Call.unit 2, Call.unit 3, Call.unit 4,
        Call.unit 0], some 0) ∧
    ∃ obj s2 s3, some 0 = some obj ∧
      arc_lookup (cacheAfter 4 [Call.unit 0, Call.unit 1, Call.unit 2, Call.unit 3,
        Call.unit 4, Call.unit 0]) 0 none false = .ok (s2, some obj) ∧
      s2.mfu.head.head? = some obj ∧
      s2.p = (cacheAfter 4 [Call.unit 0, Call.unit 1, Call.unit 2, Call.unit 3, Call.unit 4,
        Call.unit 0]).p ∧
      arc_lookup s2 0 none false = .ok (s3, some obj) ∧
      s3.c = s2.c ∧ s3.p = s2.p ∧ s3.mru = s2.mru ∧ s3.mfu = s2.mfu ∧ s3.mrug = s2.mrug ∧
      s3.mfug = s2.mfug ∧ s3.hash = s2.hash ∧ s3.objs = s2.objs ∧ s3.trace = s2.trace :=
  ⟨cache_spill_reachable, rfl,
    idempotent_hit 4 cache_spill _ 0 1 (some 0) none none false false cache_spill_reachable rfl⟩

/-! ## Weights that fit an `unsigned long` -/

/-- The size of a member is at most the weight of its list. -/
theorem size_le_weight {s : arc} {obj : Nat} {o : arc_object} {l : arc_list}
    (ho : s.objs[obj]? = some o) (hm : obj ∈ (s.get l).head) : o.size ≤ weight s l := by
  have hsum := List.sum_map_erase (objSize s) hm
  have hos : objSize s obj = o.size := by unfold objSize; rw [ho]
  unfold weight
  rw [← hsum, hos]
  omega

/-- Where the weights fit an `unsigned long` the size fields are the
weights. -/
theorem Inv.exact {s : arc} (hI : Inv s) (l : arc_list) (hfit : weight s l < ULONG_MOD) :
    (s.get l).size = weight s l := by
  rw [hI.acct l]
  exact Nat.mod_eq_of_lt hfit

@[simp] theorem underflow_set (s : arc) (l : arc_list) (st : arc_state) :
    (s.set l st).underflow = s.underflow := by
  cases l <;> rfl
@[simp] theorem underflow_log (s : arc) (e : Event) : (s.log e).underflow = s.underflow := rfl
@[simp] theorem underflow_setState (s : arc) (obj : Nat) (l : arc_list) :
    (s.setState obj l).underflow = s.underflow := by
  unfold arc.setState; split <;> rfl
@[simp] theorem underflow_linked (s : arc) (obj : Nat) (size : Nat) (l : arc_list) :
    (((s.listAdd obj l).setState obj l).addSize l size).underflow = s.underflow := by
  simp [arc.addSize, arc.listAdd]
/-- C19, counterexample. With capacity `2^64 - 2` and five records, each of
a size of at least 1 (`2^62`, `2^63`, `2^62 - 1`, `2^63`, `2^62`), `create`
and `fetch` succeeding in all calls, seven lookups leave the two records of
size `2^63` in `mrug`, whose `size` field wrapped to 0. The lookup of key 1
is then a hit in `mrug` and divides by `mrug.size`, which is 0. -/
theorem wrapped_ghost_size_divides_by_zero :
    ∃ (s : arc) (o : arc_object),
      arc_run (arc_create (2 ^ 64 - 2))
        [⟨0, some (2 ^ 62), true⟩, ⟨0, some (2 ^ 62), true⟩, ⟨1, some (2 ^ 63), true⟩,
         ⟨2, some (2 ^ 62 - 1), true⟩, ⟨3, some (2 ^ 63), true⟩, ⟨2, some (2 ^ 62 - 1), true⟩,
         ⟨4, some (2 ^ 62), true⟩] = .ok s ∧
      (∀ r, r ∈ s.objs → 1 ≤ r.size) ∧
      arc_hash_lookup s 1 = some 1 ∧ s.objs[1]? = some o ∧ o.state = some .mrug ∧
      s.mrug.head = [3, 1] ∧ s.mrug.size = 0 ∧
      arc_lookup s 1 (some (2 ^ 63)) true = .error .divByZero :=
  ⟨_, _, rfl, by decide, rfl, rfl, rfl, rfl, rfl, rfl⟩

/-- C19, as the code has it. In every state that a sequence of lookups with
successful `create` and `fetch` reaches, if every record has a size of at
least 1 and the sizes of the records of `mrug` and those of `mfug` each sum
to less than `2^64`, then a hit in `mrug` finds `mrug.size > 0`, a hit in
`mfug` finds `mfug.size > 0`, and the next lookup with successful callbacks
returns a record: it raises no fault, so it neither divides by zero nor does
its `arc_balance` take the LRU entry of an empty list (`Fault.badPointer`);
nor does `arc_balance` on the state itself, for any incoming size. -/
theorem no_undefined_step (c : Nat) (s : arc) (key size : Nat) (hR : ReachableOk c s)
    (hpos : ∀ r, r ∈ s.objs → 1 ≤ r.size)
    (hfit : weight s .mrug < ULONG_MOD ∧ weight s .mfug < ULONG_MOD) :
    (∀ (obj : Nat) (o : arc_object), arc_hash_lookup s key = some obj →
      s.objs[obj]? = some o →
      (o.state = some .mrug → 0 < s.mrug.size) ∧ (o.state = some .mfug → 0 < s.mfug.size)) ∧
    (∃ s' obj, arc_lookup s key (some size) true = .ok (s', some obj)) ∧
    (∀ n, ∃ s2, arc_balance s n = .ok s2) := by
  rcases hR.reachable.inv with ⟨hI, hC⟩
  have hsize : ∀ (obj : Nat) (l : arc_list), (l = .mrug ∨ l = .mfug) →
      obj ∈ (s.get l).head → 0 < (s.get l).size := by
    intro obj l hg hm
    rcases hI.state_of_mem l obj hm with ⟨o, ho, _⟩
    have h1 := hpos o (List.getElem?_mem ho)
    have h2 := size_le_weight ho hm
    have h3 : weight s l < ULONG_MOD := by
      rcases hg with h | h <;> subst h
      · exact hfit.1
      · exact hfit.2
    rw [hI.exact l h3]
    omega
  refine ⟨?_, ?_, ?_⟩
  · intro obj o hk ho
    rcases hit_list hI hC hk with ⟨o', l, ho', _, hl, hm, _⟩
    rw [ho] at ho'
    cases ho'
    constructor
    · intro hs
      rw [hl] at hs
      cases hs
      exact hsize obj .mrug (Or.inl rfl) hm
    · intro hs
      rw [hl] at hs
      cases hs
      exact hsize obj .mfug (Or.inr rfl) hm
  · cases hk : arc_hash_lookup s key with
    | none =>
      rcases miss_spec hI hC hk size with ⟨_, _, _, _, _, _, _, _, _, _, _, _, ht, _, _, _⟩
      exact ⟨_, _, ht⟩
    | some obj =>
      rcases hit_list hI hC hk with ⟨o, l, ho, _, hl, hm, _⟩
      have ghost : l = .mrug ∨ l = .mfug →
          ∃ s' obj, arc_lookup s key (some size) true = .ok (s', some obj) := by
        intro hg
        have hz : (s.get l).size ≠ 0 := Nat.pos_iff_ne_zero.1 (hsize obj l hg hm)
        rcases ghost_hit_spec hI hC hk hg hm hz (some size) with
          ⟨_, _, _, _, _, _, _, _, ht, _, _, _⟩
        exact ⟨_, _, ht⟩
      cases l with
      | mru => exact ⟨_, _, arc_lookup_resident hk ho (Or.inl hl) (some size) true⟩
      | mfu => exact ⟨_, _, arc_lookup_resident hk ho (Or.inr hl) (some size) true⟩
      | mrug => exact ghost (Or.inl rfl)
      | mfug => exact ghost (Or.inr rfl)
  · intro n
    rcases arc_balance_spec hI hC n with ⟨_, s2, hb, _⟩
    exact ⟨s2, hb⟩

/-- Witness of C19: the cache of capacity 4 after the lookups of keys 0 to
4, where key 0 is in `mrug`; its lookup is a hit in `mrug`. -/
theorem no_undefined_step_witness :
    ReachableOk 4 cache_spill ∧ (∀ r, r ∈ cache_spill.objs → 1 ≤ r.size) ∧
    (weight cache_spill .mrug < ULONG_MOD ∧ weight cache_spill .mfug < ULONG_MOD) ∧
    arc_hash_lookup cache_spill 0 = some 0 ∧
    ((∀ (obj : Nat) (o : arc_object), arc_hash_lookup cache_spill 0 = some obj →
      cache_spill.objs[obj]? = some o →
      (o.state = some .mrug → 0 < cache_spill.mrug.size) ∧
      (o.state = some .mfug → 0 < cache_spill.mfug.size)) ∧
    (∃ s' obj, arc_lookup cache_spill 0 (some 1) true = .ok (s', some obj)) ∧
    (∀ n, ∃ s2, arc_balance cache_spill n = .ok s2)) :=
  ⟨cache_spill_reachable, by decide, by decide, rfl,
    no_undefined_step 4 cache_spill 0 1 cache_spill_reachable (by decide) (by decide)⟩

/-- Witness of C20: the cache of capacity 4 after the lookups of keys 0 to
4 and the incoming size 1. -/
theorem arc_balance_terminates_witness :
    Inv cache_spill ∧ Closed cache_spill none ∧
    ((∃ s1 s2, arc_balance cache_spill 1 = .ok s2 ∧
      (∀ fuel, cache_spill.mru.head.length + cache_spill.mfu.head.length ≤ fuel →
        arc_while (arc_balance_step1 1) fuel (cache_spill.log (.balance 1)) = .ok s1) ∧
      (∀ fuel, arc_while_passes (arc_balance_step1 1) fuel (cache_spill.log (.balance 1)) ≤
        cache_spill.mru.head.length + cache_spill.mfu.head.length) ∧
      (∀ fuel, s1.mrug.head.length + s1.mfug.head.length ≤ fuel →
        arc_while arc_balance_step2 fuel s1 = .ok s2) ∧
      (∀ fuel, arc_while_passes arc_balance_step2 fuel s1 ≤
        s1.mrug.head.length + s1.mfug.head.length)) ∧
    (∀ (bal : arc → Nat → Except Fault arc) (t : arc) (obj : Nat) (target : Option arc_list)
        (f : Bool), target = none ∨ target = some .mrug ∨ target = some .mfug →
      arc_move_gen bal t obj target f = arc_move_leaf t obj target) ∧
    (∀ key created f, (∃ r, arc_lookup cache_spill key created f = .ok r) ∨
      arc_lookup cache_spill key created f = .error .divByZero ∨
      arc_lookup cache_spill key created f = .error .nullDeref)) :=
  ⟨cache_spill_reachable.reachable.inv.1, cache_spill_reachable.reachable.inv.2,
    arc_balance_terminates cache_spill 1 cache_spill_reachable.reachable.inv.1
      cache_spill_reachable.reachable.inv.2⟩

/-! ## Cold fill (C12) -/

theorem countdown_zero (top : Nat) : countdown top 0 = [] := rfl

theorem countdown_cons (m a : Nat) : m :: countdown m a = countdown (m + 1) (a + 1) := by
  unfold countdown
  rw [List.range_succ_eq_map]
  simp only [List.map_cons, List.map_map]
  congr 1
  apply List.map_congr_left
  intro j _
  simp only [Function.comp]
  omega

theorem countdown_snoc (top a : Nat) :
    countdown top (a + 1) = countdown top a ++ [top - 1 - a] := by
  unfold countdown
  rw [List.range_succ, List.map_append]
  rfl

theorem length_countdown (top a : Nat) : (countdown top a).length = a := by
  unfold countdown
  simp

theorem mem_countdown (top a i : Nat) : i ∈ countdown top a ↔ ∃ j, j < a ∧ top - 1 - j = i := by
  unfold countdown
  simp

theorem getElem?_countdown (top a j : Nat) (h : j < a) :
    (countdown top a)[j]? = some (top - 1 - j) := by
  unfold countdown
  rw [List.getElem?_map, List.getElem?_range h]
  rfl

/-- A loop whose condition fails returns the state it is in. -/
theorem arc_while_stop {step : arc → Except Fault (Option arc)} {s : arc}
    (h : step s = .ok none) (fuel : Nat) : arc_while step fuel s = .ok s := by
  cases fuel <;> simp only [arc_while, h]

/-- A loop whose body runs goes on from the state that the body leaves. -/
theorem arc_while_step {step : arc → Except Fault (Option arc)} {s s' : arc}
    (h : step s = .ok (some s')) (fuel : Nat) :
    arc_while step (fuel + 1) s = arc_while step fuel s' := by
  simp only [arc_while, h]

/-- The result of `arc_balance` from the results of its two loops, run with
any fuel that covers the lists. -/
theorem arc_balance_of_runs {s s1 s2 : arc} (hI : Inv s) (n f1 f2 : Nat)
    (h1 : arc_while (arc_balance_step1 n) (s.mru.head.length + s.mfu.head.length + f1)
      (s.log (.balance n)) = .ok s1)
    (h2 : arc_while arc_balance_step2 (s1.mrug.head.length + s1.mfug.head.length + f2) s1 =
      .ok s2) : arc_balance s n = .ok s2 := by
  rcases arc_balance_detail n s hI with ⟨t1, t2, hb, g1, g2, _⟩
  have e1 := g1 _ (Nat.le_add_right _ f1)
  rw [h1] at e1
  cases e1
  have e2 := g2 _ (Nat.le_add_right _ f2)
  rw [h2] at e2
  cases e2
  exact hb

/-- A key that no record has is not in the table. -/
theorem arc_hash_lookup_fresh {s : arc} {key : Nat}
    (h : key ∉ s.objs.map (fun o => o.key)) : arc_hash_lookup s key = none := by
  unfold arc_hash_lookup
  rw [List.find?_eq_none]
  intro obj _
  cases ho : s.objs[obj]? with
  | none => simp
  | some o =>
    have hm : o.key ∈ s.objs.map (fun o => o.key) :=
      List.mem_map.2 ⟨o, List.getElem?_mem ho, rfl⟩
    have : o.key ≠ key := fun e => h (e ▸ hm)
    simpa using this

/-- Assignments to `obj->state` change nothing that does not read the
state. -/
theorem map_of_state {α : Type} (f : arc_object → α)
    (hf : ∀ (o : arc_object) (l : arc_list), f { o with state := some l } = f o)
    {s s' : arc} {obj : Nat} {o : arc_object} {l : arc_list}
    (ho : s.objs[obj]? = some o)
    (hobjs : ∀ id, s'.objs[id]? =
      if id = obj then some { o with state := some l } else s.objs[id]?) :
    s'.objs.map f = s.objs.map f := by
  apply List.ext_getElem?
  intro id
  simp only [List.getElem?_map, hobjs id]
  by_cases h : id = obj
  · subst h; simp [ho, hf]
  · simp [h]

theorem keyAt_eq {s : arc} {keys : List Nat} (h : s.objs.map (fun o => o.key) = keys)
    (i : Nat) : keyAt s i = keys[i]?.getD 0 := by
  unfold keyAt
  rw [← h, List.getElem?_map]
  cases s.objs[i]? <;> rfl

theorem uadd_small {a b : Nat} (h : a + b < ULONG_MOD) : uadd a b = a + b :=
  Nat.mod_eq_of_lt h

theorem usub_small {a b : Nat} (h : b ≤ a) (ha : a < ULONG_MOD) : usub a b = a - b := by
  unfold usub
  have : a + ULONG_MOD - b = (a - b) + ULONG_MOD := by omega
  rw [this, Nat.add_mod_right]
  exact Nat.mod_eq_of_lt (by omega)

/-- The keys of a countdown of addresses are a piece of the reversed list of
keys. -/
theorem map_countdown (keys : List Nat) (d a : Nat) (h : d + a ≤ keys.length) :
    (countdown (keys.length - d) a).map (fun i => keys[i]?.getD 0) =
      (keys.reverse.drop d).take a := by
  apply List.ext_getElem?
  intro j
  by_cases hj : j < a
  · rw [List.getElem?_map, getElem?_countdown _ _ _ hj, List.getElem?_take_of_lt hj,
      List.getElem?_drop, List.getElem?_reverse (by omega)]
    have e : keys.length - d - 1 - j = keys.length - 1 - (d + j) := by omega
    have hlt : keys.length - 1 - (d + j) < keys.length := by omega
    simp only [Option.map_some', e, List.getElem?_eq_getElem hlt, Option.getD_some]
  · rw [List.getElem?_eq_none (by simp [length_countdown]; omega),
      List.getElem?_eq_none (by simp; omega)]

theorem arc_balance_step1_none {n : Nat} {t : arc}
    (h : ¬ uadd (uadd t.mru.size t.mfu.size) n > t.c) : arc_balance_step1 n t = .ok none := by
  unfold arc_balance_step1
  rw [if_neg h]

theorem arc_balance_step2_none {t : arc}
    (h : ¬ uadd t.mrug.size t.mfug.size > t.c) : arc_balance_step2 t = .ok none := by
  unfold arc_balance_step2
  rw [if_neg h]

/-- What `arc_balance(1)` does to a cache of unit records whose `mru` holds
the newest `min m c` of `m` addresses and whose `mrug` the ones before
them. -/
theorem cold_balance {c m : Nat} {t0 : arc} (hI : Inv t0) (hc : 1 ≤ c)
    (hfit1 : m < c → m + 1 < ULONG_MOD) (hfit2 : c ≤ m → c + 1 < ULONG_MOD)
    (hce : t0.c = c) (hpe : t0.p = c / 2)
    (hsz : ∀ x, x ∈ t0.objs.map (fun o => o.size) → x = 1)
    (hmru : t0.mru = ⟨min m c, countdown m (min m c)⟩)
    (hmrug : t0.mrug = ⟨min (m - c) c, countdown (m - c) (min (m - c) c)⟩)
    (hmfu : t0.mfu = ⟨0, []⟩) (hmfug : t0.mfug = ⟨0, []⟩) :
    ∃ s1 s2, (∀ fuel, arc_while (arc_balance_step1 1) (fuel + 1) t0 = .ok s1) ∧
      (∀ fuel, arc_while arc_balance_step2 (fuel + 1) s1 = .ok s2) ∧
      s2.c = c ∧ s2.p = c / 2 ∧
      s2.objs.map (fun o => o.key) = t0.objs.map (fun o => o.key) ∧
      s2.objs.map (fun o => o.size) = t0.objs.map (fun o => o.size) ∧
      s2.mru = ⟨min (m + 1) c - 1, countdown m (min (m + 1) c - 1)⟩ ∧
      s2.mrug = ⟨min (m + 1 - c) c, countdown (m + 1 - c) (min (m + 1 - c) c)⟩ ∧
      s2.mfu = ⟨0, []⟩ ∧ s2.mfug = ⟨0, []⟩ ∧
      (∀ e, e ∈ t0.trace → e ∈ s2.trace) ∧
      (c + c < m + 1 → Event.destroy (m - c - c) ∈ s2.trace) := by
  have hu0 : ∀ a : Nat, a < ULONG_MOD → uadd a 0 = a := fun a ha => uadd_small (by omega)
  by_cases hmc : m < c
  · -- nothing to trim
    have ea : min m c = m := by omega
    have eb : min (m - c) c = 0 := by omega
    have ea' : min (m + 1) c - 1 = m := by omega
    have eb' : min (m + 1 - c) c = 0 := by omega
    have h1 : arc_balance_step1 1 t0 = .ok none := by
      apply arc_balance_step1_none
      rw [hmru, hmfu, hce, ea]
      show ¬ uadd (uadd m 0) 1 > c
      rw [hu0 m (by have := hfit1 hmc; omega), uadd_small (hfit1 hmc)]
      omega
    have h2 : arc_balance_step2 t0 = .ok none := by
      apply arc_balance_step2_none
      rw [hmrug, hmfug, hce, eb]
      show ¬ uadd 0 0 > c
      rw [hu0 0 (by decide)]
      omega
    refine ⟨t0, t0, fun _ => arc_while_stop h1 _, fun _ => arc_while_stop h2 _, hce, hpe,
      rfl, rfl, ?_, ?_, hmfu, hmfug, fun _ h => h, fun h => by omega⟩
    · rw [hmru, ea, ea']
    · rw [hmrug, eb, eb', countdown_zero, countdown_zero]
  · have hcm : c ≤ m := by omega
    have hcM := hfit2 hcm
    have ea : min m c = c := by omega
    have ea' : min (m + 1) c - 1 = c - 1 := by omega
    have ec : c = (c - 1) + 1 := by omega
    rw [ea] at hmru
    have hsize1 : t0.mru.size = c := by rw [hmru]
    have hsize2 : t0.mfu.size = 0 := by rw [hmfu]
    have hcond : uadd (uadd c 0) 1 > c := by
      rw [hu0 c (by omega), uadd_small hcM]; omega
    rcases arc_balance_step1_spec hI 1 with hstop | ⟨obj, o, _, _, hlast, _, ho, hs, hstep⟩ |
      ⟨obj, o, _, hnp, _⟩
    · exfalso
      rcases hstop.2 with h | h
      · rw [hsize1, hsize2, hce] at h; exact h hcond
      · rw [hsize1, hpe] at h
        have := Nat.div_lt_self (show 0 < c by omega) (show 1 < 2 by decide)
        omega
    · -- the tail of `mru` goes to `mrug`
      have hI1 : Inv (t0.evicted obj o .mrug) := by
        rcases arc_balance_step1_lowers 1 t0 hI with h | ⟨s', h, hI', _, _⟩
        · rw [hstep] at h; cases h
        · rw [hstep] at h; cases h; exact hI'
      rcases trimmed_mru hI hs hlast with ⟨rest, hrest, hm1, hm2, hm3, hm4, _⟩
      have hhead : t0.mru.head = countdown m (c - 1) ++ [m - 1 - (c - 1)] := by
        rw [hmru]
        show countdown m c = _
        rw [← countdown_snoc, ← ec]
      rw [hhead] at hrest
      have hinj := List.append_inj' hrest.symm rfl
      have hobj : obj = m - c := by
        have := hinj.2
        simp only [List.cons.injEq, and_true] at this
        omega
      have hosz : o.size = 1 := hsz _ (List.mem_map.2 ⟨o, List.getElem?_mem ho, rfl⟩)
      have hkeys1 : (t0.evicted obj o .mrug).objs.map (fun o => o.key) =
          t0.objs.map (fun o => o.key) :=
        map_of_state (fun o => o.key) (fun _ _ => rfl) ho (objs_evicted t0 obj o .mrug ho)
      have hsizes1 : (t0.evicted obj o .mrug).objs.map (fun o => o.size) =
          t0.objs.map (fun o => o.size) :=
        map_of_state (fun o => o.size) (fun _ _ => rfl) ho (objs_evicted t0 obj o .mrug ho)
      have hmru1 : (t0.evicted obj o .mrug).mru = ⟨c - 1, countdown m (c - 1)⟩ := by
        rw [hm1, hsize1, hosz, ← hinj.1, usub_small hc (by omega)]
      have hmrug1 : (t0.evicted obj o .mrug).mrug =
          ⟨min (m - c) c + 1, countdown (m - c + 1) (min (m - c) c + 1)⟩ := by
        rw [hm2, hmrug, hosz, hobj]
        show arc_state.mk (uadd (min (m - c) c) 1) ((m - c) :: countdown (m - c) (min (m - c) c))
          = _
        rw [uadd_small (by omega), countdown_cons]
      have hmfu1 : (t0.evicted obj o .mrug).mfu = ⟨0, []⟩ := by rw [hm3, hmfu]
      have hmfug1 : (t0.evicted obj o .mrug).mfug = ⟨0, []⟩ := by rw [hm4, hmfug]
      have h1 : arc_balance_step1 1 (t0.evicted obj o .mrug) = .ok none := by
        apply arc_balance_step1_none
        rw [hmru1, hmfu1, c_evicted, hce]
        show ¬ uadd (uadd (c - 1) 0) 1 > c
        rw [hu0 (c - 1) (by omega), uadd_small (by omega)]
        omega
      have hw1 : ∀ fuel, arc_while (arc_balance_step1 1) (fuel + 1) t0 =
          .ok (t0.evicted obj o .mrug) := fun fuel => by
        rw [arc_while_step hstep]; exact arc_while_stop h1 _
      by_cases hb : m - c < c
      · -- `mrug` has room
        have eb : min (m - c) c = m - c := by omega
        have eb' : min (m + 1 - c) c = m + 1 - c := by omega
        have h2 : arc_balance_step2 (t0.evicted obj o .mrug) = .ok none := by
          apply arc_balance_step2_none
          rw [hmrug1, hmfug1, c_evicted, hce, eb]
          show ¬ uadd (m - c + 1) 0 > c
          rw [hu0 _ (by omega)]
          omega
        refine ⟨_, _, hw1, fun _ => arc_while_stop h2 _, by rw [c_evicted, hce],
          by rw [p_evicted, hpe], hkeys1, hsizes1, ?_, ?_, hmfu1, hmfug1, ?_, fun h => by omega⟩
        · rw [hmru1, ea']
        · rw [hmrug1, eb, eb']
          have : m - c + 1 = m + 1 - c := by omega
          rw [this]
        · intro e he
          rw [trace_evicted]
          exact List.mem_append_left _ he
      · -- the tail of `mrug` is destroyed
        have eb : min (m - c) c = c := by omega
        have eb' : min (m + 1 - c) c = c := by omega
        rw [eb] at hmrug1
        have hg1 : (t0.evicted obj o .mrug).mrug.size = c + 1 := by rw [hmrug1]
        have hg2 : (t0.evicted obj o .mrug).mfug.size = 0 := by rw [hmfug1]
        have hcond2 : uadd (c + 1) 0 > c := by rw [hu0 _ hcM]; omega
        rcases arc_balance_step2_spec hI1 with hstop | ⟨_, _, _, hgt, _⟩ |
          ⟨obj2, o2, _, _, _, hlast2, _, ho2, hs2, hstep2⟩
        · exfalso
          rcases hstop.2 with h | h
          · rw [hg1, hg2, c_evicted, hce] at h; exact h hcond2
          · rw [hg1] at h; omega
        · exfalso
          rw [hg2] at hgt
          omega
        · rcases dropped_mrug hI1 hs2 hlast2 with ⟨rest2, hrest2, hd1, hd2, hD⟩
          rcases hD with ⟨_, _, _, _, _, _, _, _, hdmru, hdmfu, _, _⟩
          have hhead2 : (t0.evicted obj o .mrug).mrug.head =
              countdown (m - c + 1) c ++ [m - c + 1 - 1 - c] := by
            rw [hmrug1]
            show countdown (m - c + 1) (c + 1) = _
            rw [countdown_snoc]
          rw [hhead2] at hrest2
          have hinj2 := List.append_inj' hrest2.symm rfl
          have hobj2 : obj2 = m - c - c := by
            have := hinj2.2
            simp only [List.cons.injEq, and_true] at this
            omega
          have ho2sz : o2.size = 1 := by
            apply hsz
            rw [← hsizes1]
            exact List.mem_map.2 ⟨o2, List.getElem?_mem ho2, rfl⟩
          have h2 : arc_balance_step2 ((t0.evicted obj o .mrug).destroyed obj2 o2) =
              .ok none := by
            apply arc_balance_step2_none
            rw [hd1, hd2, hmfug1, c_destroyed, c_evicted, hce, hg1, ho2sz]
            show ¬ uadd (usub (c + 1) 1) 0 > c
            rw [usub_small (by omega) hcM, hu0 _ (by omega)]
            omega
          refine ⟨_, _, hw1, fun fuel => by
              rw [arc_while_step hstep2]; exact arc_while_stop h2 _,
            by rw [c_destroyed, c_evicted, hce], by rw [p_destroyed, p_evicted, hpe],
            by rw [objs_destroyed, hkeys1], by rw [objs_destroyed, hsizes1], ?_, ?_,
            by rw [hdmfu, hmfu1], by rw [hd2, hmfug1], ?_, fun _ => ?_⟩
          · rw [hdmru, hmru1, ea']
          · rw [hd1, hg1, ho2sz, hinj2.1, eb', usub_small (by omega) hcM]
            have : m - c + 1 = m + 1 - c := by omega
            rw [this]
            rfl
          · intro e he
            rw [trace_destroyed, trace_evicted]
            exact List.mem_append_left _ (List.mem_append_left _ he)
          · rw [trace_destroyed, hobj2]
            exact List.mem_append_right _ (List.mem_singleton.2 rfl)
    · exfalso
      rw [hsize1, hpe] at hnp
      have := Nat.div_lt_self (show 0 < c by omega) (show 1 < 2 by decide)
      omega

/-- One more admission into a cold cache. -/
theorem cold_step {c : Nat} {done : List Nat} {s : arc} (k : Nat) (hc : 1 ≤ c)
    (hfit1 : done.length < c → done.length + 1 < ULONG_MOD)
    (hfit2 : c ≤ done.length → c + 1 < ULONG_MOD)
    (hI : Inv s) (hC : Closed s none) (h : Cold c done s) (hk : k ∉ done) :
    ∃ s', arc_lookup s k (some 1) true = .ok (s', some done.length) ∧
      Cold c (done ++ [k]) s' := by
  have hlen : s.objs.length = done.length := by rw [← h.keys, List.length_map]
  have hkn : arc_hash_lookup s k = none := arc_hash_lookup_fresh (by rw [h.keys]; exact hk)
  have hI0 := (created_spec hI hC hkn 1).1
  rcases miss_spec hI hC hkn 1 with ⟨_, s2, hb, _, _, _, _, _, _, _, ho2, _, ht, _, _, _⟩
  rw [hlen] at ht ho2
  have hsz0 : ∀ x, x ∈ ((s.created k 1).log (.balance 1)).objs.map (fun o => o.size) →
      x = 1 := by
    intro x hx
    rw [objs_log, objs_created, List.map_append, List.mem_append] at hx
    rcases hx with hx | hx
    · exact h.sizes x hx
    · simp only [List.map_cons, List.map_nil, List.mem_singleton] at hx
      rw [hx]; rfl
  rcases @cold_balance c done.length ((s.created k 1).log (.balance 1)) (hI0.log _) hc hfit1
    hfit2 h.c_eq h.p_eq hsz0 h.mru h.mrug h.mfu h.mfug with
    ⟨s1, s2', hw1, hw2, hc2, hp2, hk2, hs2, hmru2, hmrug2, hmfu2, hmfug2, htr, hgone⟩
  have hb' : arc_balance (s.created k 1) 1 = .ok s2' :=
    arc_balance_of_runs hI0 1 1 1 (hw1 _) (hw2 _)
  have e : s2 = s2' := by
    have h1 : (1 : Nat) % ULONG_MOD = 1 := rfl
    rw [h1, hb'] at hb
    cases hb
    rfl
  subst e
  refine ⟨_, ht, ?_⟩
  have hm : (done ++ [k]).length = done.length + 1 := by simp
  have hfmru := get_fetched s2 done.length (arc_object_init k 1) .mru .mru
  have hfmrug := get_fetched s2 done.length (arc_object_init k 1) .mru .mrug
  have hfmfu := get_fetched s2 done.length (arc_object_init k 1) .mru .mfu
  have hfmfug := get_fetched s2 done.length (arc_object_init k 1) .mru .mfug
  simp only [if_true, reduceCtorEq, if_false] at hfmru hfmrug hfmfu hfmfug
  have ha1 : 1 ≤ min (done.length + 1) c := by omega
  have haM : min (done.length + 1) c < ULONG_MOD := by
    by_cases hd : done.length < c
    · have := hfit1 hd; omega
    · have := hfit2 (by omega); omega
  constructor
  · rw [c_fetched, hc2]
  · rw [p_fetched, hp2]
  · rw [map_of_state (fun o => o.key) (fun _ _ => rfl) ho2
      (objs_fetched s2 done.length (arc_object_init k 1) .mru ho2), hk2, objs_log, objs_created,
      List.map_append, h.keys]
    rfl
  · rw [map_of_state (fun o => o.size) (fun _ _ => rfl) ho2
      (objs_fetched s2 done.length (arc_object_init k 1) .mru ho2), hs2]
    exact hsz0
  · show (s2.fetched done.length (arc_object_init k 1) .mru).get .mru = _
    rw [hfmru, hm]
    show arc_state.mk (uadd s2.mru.size 1) (done.length :: s2.mru.head) = _
    rw [hmru2]
    show arc_state.mk (uadd (min (done.length + 1) c - 1) 1)
      (done.length :: countdown done.length (min (done.length + 1) c - 1)) = _
    rw [uadd_small (by omega), countdown_cons, Nat.sub_add_cancel ha1]
  · show (s2.fetched done.length (arc_object_init k 1) .mru).get .mrug = _
    rw [hfmrug, hm]
    exact hmrug2
  · show (s2.fetched done.length (arc_object_init k 1) .mru).get .mfu = _
    rw [hfmfu]
    exact hmfu2
  · show (s2.fetched done.length (arc_object_init k 1) .mru).get .mfug = _
    rw [hfmfug]
    exact hmfug2
  · intro i hi
    rw [hm] at hi
    rw [trace_fetched]
    apply List.mem_append_left
    by_cases hlt : i + c + c < done.length
    · apply htr
      rw [trace_log, trace_created]
      apply List.mem_append_left
      apply List.mem_append_left
      exact h.gone i (by omega)
    · have h2c : c + c < done.length + 1 := by omega
      have : i = done.length - c - c := by omega
      rw [this]
      exact hgone h2c

/-- A run of admissions of distinct keys keeps the cache cold. -/
theorem cold_run {c : Nat} (hc : 1 ≤ c) : ∀ (rest done : List Nat) (s : arc),
    Inv s → Closed s none → Cold c done s → (done ++ rest).Nodup →
    (c + 1 < ULONG_MOD ∨ (done ++ rest).length < ULONG_MOD) →
    ∃ s', arc_run s (rest.map Call.unit) = .ok s' ∧ Closed s' none ∧ Cold c (done ++ rest) s' := by
  intro rest
  induction rest with
  | nil =>
    intro done s _ hC h _ _
    exact ⟨s, rfl, hC, by rw [List.append_nil]; exact h⟩
  | cons k rest ih =>
    intro done s hI hC h hnd hfit
    have hlen : (done ++ k :: rest).length = done.length + 1 + rest.length := by
      simp; omega
    have hk : k ∉ done := by
      intro hm
      have := List.nodup_append.1 hnd
      exact this.2.2 hm (List.mem_cons_self _ _) 
    rcases cold_step k hc (fun hd => by rcases hfit with h' | h' <;> omega)
      (fun hd => by rcases hfit with h' | h' <;> omega) hI hC h hk with ⟨s1, hl, hcold⟩
    rcases arc_lookup_inv hI hC hl with ⟨hI1, hC1⟩
    have e : done ++ k :: rest = (done ++ [k]) ++ rest := by simp
    rcases ih (done ++ [k]) s1 hI1 hC1 hcold (e ▸ hnd) (e ▸ hfit) with ⟨s', hrun, hC', h'⟩
    refine ⟨s', ?_, hC', e ▸ h'⟩
    simp only [List.map_cons, arc_run]
    have hl' : arc_lookup s (Call.unit k).key (Call.unit k).created (Call.unit k).fetchOk =
        .ok (s1, some done.length) := hl
    rw [hl']
    exact hrun

/-- The fresh cache is cold. -/
theorem cold_create {c : Nat} (hcM : c < ULONG_MOD) : Cold c [] (arc_create c) := by
  have e : c % ULONG_MOD = c := Nat.mod_eq_of_lt hcM
  constructor
  · exact e
  · show (c % ULONG_MOD) >>> 1 = c / 2
    rw [e, Nat.shiftRight_eq_div_pow]
  · rfl
  · intro x hx; cases hx
  · simp [arc_create, countdown]
  · simp [arc_create, countdown]
  · rfl
  · rfl
  · intro i hi
    simp at hi

/-- C12. For every capacity `c >= 1` (an `unsigned long`) and every list of
pairwise distinct keys, looked up in order on a fresh cache with one record
of size 1 each and successful callbacks (where `c + 1` or the number of keys
is below `2^64`): the run returns; the keys of `mru`, head first, are the
newest `min n c` keys, newest first; the keys of `mrug` are the at most `c`
keys before them, newest first; on every older record (one that is `2c` or
more lookups behind the newest) `destroy` was called, and it is in no list
and not in the hash table; `mfu` and `mfug` are empty and `p = c / 2`. The
size fields are the numbers of records. -/
theorem cold_fill (c : Nat) (keys : List Nat) (hc : 1 ≤ c) (hcM : c < ULONG_MOD)
    (hk : keys.Nodup) (hfit : c + 1 < ULONG_MOD ∨ keys.length < ULONG_MOD) :
    ∃ s, arc_run (arc_create c) (keys.map Call.unit) = .ok s ∧
      s.mru.head.map (keyAt s) = keys.reverse.take c ∧
      s.mrug.head.map (keyAt s) = (keys.reverse.drop c).take c ∧
      (∀ k, k ∈ keys.reverse.drop (c + c) → ∃ obj, keyAt s obj = k ∧
        Event.destroy obj ∈ s.trace ∧ (∀ l, obj ∉ (s.get l).head) ∧ obj ∉ s.hash) ∧
      s.mfu.head = [] ∧ s.mfug.head = [] ∧ s.p = c / 2 ∧
      s.mru.size = min keys.length c ∧ s.mrug.size = min (keys.length - c) c ∧
      s.mfu.size = 0 ∧ s.mfug.size = 0 := by
  rcases cold_run hc keys [] (arc_create c) (arc_create_inv c).1 (arc_create_inv c).2
    (cold_create hcM) (by simpa using hk) (by simpa using hfit) with ⟨s, hrun, hC, h⟩
  rw [List.nil_append] at h
  have hkey : keyAt s = fun i => keys[i]?.getD 0 := funext (keyAt_eq h.keys)
  have hmru : s.mru.head = countdown keys.length (min keys.length c) := by rw [h.mru]
  have hmrug : s.mrug.head = countdown (keys.length - c) (min (keys.length - c) c) := by
    rw [h.mrug]
  refine ⟨s, hrun, ?_, ?_, ?_, by rw [h.mfu], by rw [h.mfug], h.p_eq, by rw [h.mru],
    by rw [h.mrug], by rw [h.mfu], by rw [h.mfug]⟩
  · rw [hmru, hkey]
    have := map_countdown keys 0 (min keys.length c) (by omega)
    rw [Nat.sub_zero, List.drop_zero] at this
    rw [this]
    apply List.take_eq_take.2
    simp only [List.length_reverse]
    omega
  · by_cases hlt : keys.length < c
    · have e0 : min (keys.length - c) c = 0 := by omega
      rw [hmrug, e0, countdown_zero, List.drop_of_length_le (by simp; omega)]
      simp
    · rw [hmrug, hkey, map_countdown keys c (min (keys.length - c) c) (by omega)]
      apply List.take_eq_take.2
      simp only [List.length_drop, List.length_reverse]
      omega
  · intro k hm
    rcases List.getElem_of_mem hm with ⟨j, hj, e⟩
    rw [List.length_drop, List.length_reverse] at hj
    rw [List.getElem_drop, List.getElem_reverse] at e
    have hi : keys.length - 1 - (c + c + j) < keys.length := by omega
    refine ⟨keys.length - 1 - (c + c + j), ?_, ?_, ?_, ?_⟩
    · rw [hkey]
      show keys[keys.length - 1 - (c + c + j)]?.getD 0 = k
      rw [List.getElem?_eq_getElem hi]
      exact e
    · exact h.gone _ (by omega)
    · have hnl : ∀ l, keys.length - 1 - (c + c + j) ∉ (s.get l).head := by
        intro l hl
        cases l with
        | mrug =>
          have hl' : keys.length - 1 - (c + c + j) ∈ s.mrug.head := hl
          rw [hmrug, mem_countdown] at hl'
          rcases hl' with ⟨j', hj', e'⟩
          omega
        | mru =>
          have hl' : keys.length - 1 - (c + c + j) ∈ s.mru.head := hl
          rw [hmru, mem_countdown] at hl'
          rcases hl' with ⟨j', hj', e'⟩
          omega
        | mfu =>
          have hl' : keys.length - 1 - (c + c + j) ∈ s.mfu.head := hl
          rw [h.mfu] at hl'
          cases hl'
        | mfug =>
          have hl' : keys.length - 1 - (c + c + j) ∈ s.mfug.head := hl
          rw [h.mfug] at hl'
          cases hl'
      exact hnl
    · intro hh
      rcases hC _ hh with h' | ⟨l, h'⟩
      · cases h'
      · revert h'
        cases l with
        | mrug =>
          intro hl
          have hl' : keys.length - 1 - (c + c + j) ∈ s.mrug.head := hl
          rw [hmrug, mem_countdown] at hl'
          rcases hl' with ⟨j', hj', e'⟩
          omega
        | mru =>
          intro hl
          have hl' : keys.length - 1 - (c + c + j) ∈ s.mru.head := hl
          rw [hmru, mem_countdown] at hl'
          rcases hl' with ⟨j', hj', e'⟩
          omega
        | mfu =>
          intro hl
          have hl' : keys.length - 1 - (c + c + j) ∈ s.mfu.head := hl
          rw [h.mfu] at hl'
          cases hl'
        | mfug =>
          intro hl
          have hl' : keys.length - 1 - (c + c + j) ∈ s.mfug.head := hl
          rw [h.mfug] at hl'
          cases hl'

/-- Witness of C12: capacity 4 and the keys 10, 20, 30, 40, 50: `mru` holds
the keys 50, 40, 30, 20, `mrug` the key 10, and `p` is 2. -/
theorem cold_fill_witness :
    1 ≤ 4 ∧ 4 < ULONG_MOD ∧ [10, 20, 30, 40, 50].Nodup ∧
    (4 + 1 < ULONG_MOD ∨ [10, 20, 30, 40, 50].length < ULONG_MOD) ∧
    (∃ s, arc_run (arc_create 4) ([10, 20, 30, 40, 50].map Call.unit) = .ok s ∧
      s.mru.head.map (keyAt s) = [10, 20, 30, 40, 50].reverse.take 4 ∧
      s.mrug.head.map (keyAt s) = ([10, 20, 30, 40, 50].reverse.drop 4).take 4 ∧
      (∀ k, k ∈ [10, 20, 30, 40, 50].reverse.drop (4 + 4) → ∃ obj, keyAt s obj = k ∧
        Event.destroy obj ∈ s.trace ∧ (∀ l, obj ∉ (s.get l).head) ∧ obj ∉ s.hash) ∧
      s.mfu.head = [] ∧ s.mfug.head = [] ∧ s.p = 4 / 2 ∧
      s.mru.size = min [10, 20, 30, 40, 50].length 4 ∧
      s.mrug.size = min ([10, 20, 30, 40, 50].length - 4) 4 ∧
      s.mfu.size = 0 ∧ s.mfug.size = 0) :=
  ⟨by decide, by decide, by decide, Or.inl (by decide),
    cold_fill 4 [10, 20, 30, 40, 50] (by decide) (by decide) (by decide) (Or.inl (by decide))⟩

/-! ## The loops of `arc_balance` where the weights fit an `unsigned long` -/

theorem weight_log (s : arc) (e : Event) (l : arc_list) : weight (s.log e) l = weight s l :=
  weight_eq_of s _ l rfl (get_log s e l)

theorem listedWeight_log (s : arc) (e : Event) : listedWeight (s.log e) = listedWeight s := by
  unfold listedWeight
  simp only [weight_log]

/-- The weights after a record of the list `l` went to the head of `g`. -/
theorem weight_evicted {s : arc} (hI : Inv s) {obj : Nat} {o : arc_object} {l : arc_list}
    (ho : s.objs[obj]? = some o) (hl : o.state = some l) (hm : obj ∈ (s.get l).head)
    (g l' : arc_list) :
    weight (s.evicted obj o g) l' + (if l' = l then o.size else 0) =
      weight s l' + (if l' = g then o.size else 0) := by
  have h1 := weight_unlink hI ho hl hm l'
  have h2 : weight ((s.unlink obj o).log (.evict obj)) l' = weight (s.unlink obj o) l' :=
    weight_log _ _ _
  have h3 := @weight_insert ((s.unlink obj o).log (.evict obj)) (s.evicted obj o g) obj o g
    (by simpa using ho)
    (fun l'' => by rw [get_evicted]; simp only [get_log])
    (fun id => by rw [objs_evicted s obj o g ho]; simp) l'
  omega

/-- The weights after a record of the list `l` was destroyed. -/
theorem weight_destroyed {s : arc} (hI : Inv s) {obj : Nat} {o : arc_object} {l : arc_list}
    (ho : s.objs[obj]? = some o) (hl : o.state = some l) (hm : obj ∈ (s.get l).head)
    (l' : arc_list) :
    weight (s.destroyed obj o) l' + (if l' = l then o.size else 0) = weight s l' := by
  have h1 := weight_unlink hI ho hl hm l'
  have h2 : weight (s.destroyed obj o) l' = weight (s.unlink obj o) l' :=
    weight_eq_of (s.unlink obj o) _ l' (by simp) (get_destroyed s obj o l')
  omega

/-- A pass of the first loop lowers the weight of `mru` and `mfu` and keeps
the weight of the four lists. -/
theorem arc_balance_step1_weights (size : Nat) (B1 B2 : Nat) (s : arc)
    (h : Inv s ∧ weight s .mru + weight s .mfu ≤ B1 ∧ listedWeight s ≤ B2) :
    arc_balance_step1 size s = .ok none ∨
    ∃ s', arc_balance_step1 size s = .ok (some s') ∧
      (Inv s' ∧ weight s' .mru + weight s' .mfu ≤ B1 ∧ listedWeight s' ≤ B2) ∧ True ∧
      s'.mru.head.length + s'.mfu.head.length < s.mru.head.length + s.mfu.head.length := by
  rcases h with ⟨hI, hb1, hb2⟩
  rcases arc_balance_step1_lowers size s hI with h | ⟨s', h, hI', _, hlt⟩
  · exact Or.inl h
  · refine Or.inr ⟨s', h, ⟨hI', ?_⟩, trivial, hlt⟩
    unfold listedWeight at hb2 ⊢
    rcases arc_balance_step1_spec hI size with h' | ⟨obj, o, _, _, _, hm, ho, hs, h'⟩ |
      ⟨obj, o, _, _, _, _, hm, ho, hs, h'⟩
    · rw [h] at h'; cases h'.1
    · rw [h] at h'; cases h'
      have a1 := weight_evicted hI ho hs hm .mrug .mru
      have a2 := weight_evicted hI ho hs hm .mrug .mfu
      have a3 := weight_evicted hI ho hs hm .mrug .mrug
      have a4 := weight_evicted hI ho hs hm .mrug .mfug
      simp only [if_true, reduceCtorEq, if_false] at a1 a2 a3 a4
      constructor <;> omega
    · rw [h] at h'; cases h'
      have a1 := weight_evicted hI ho hs hm .mfug .mru
      have a2 := weight_evicted hI ho hs hm .mfug .mfu
      have a3 := weight_evicted hI ho hs hm .mfug .mrug
      have a4 := weight_evicted hI ho hs hm .mfug .mfug
      simp only [if_true, reduceCtorEq, if_false] at a1 a2 a3 a4
      constructor <;> omega

/-- A pass of the second loop lowers the weight of the four lists. -/
theorem arc_balance_step2_weights (B2 : Nat) (s : arc) (h : Inv s ∧ listedWeight s ≤ B2) :
    arc_balance_step2 s = .ok none ∨
    ∃ s', arc_balance_step2 s = .ok (some s') ∧ (Inv s' ∧ listedWeight s' ≤ B2) ∧ True ∧
      s'.mrug.head.length + s'.mfug.head.length < s.mrug.head.length + s.mfug.head.length := by
  rcases h with ⟨hI, hb2⟩
  rcases arc_balance_step2_lowers s hI with h | ⟨s', h, hI', _, hlt⟩
  · exact Or.inl h
  · refine Or.inr ⟨s', h, ⟨hI', ?_⟩, trivial, hlt⟩
    unfold listedWeight at hb2 ⊢
    rcases arc_balance_step2_spec hI with h' | ⟨obj, o, _, _, _, hm, ho, hs, h'⟩ |
      ⟨obj, o, _, _, _, _, hm, ho, hs, h'⟩
    · rw [h] at h'; cases h'.1
    · rw [h] at h'; cases h'
      have a1 := weight_destroyed hI ho hs hm .mru
      have a2 := weight_destroyed hI ho hs hm .mfu
      have a3 := weight_destroyed hI ho hs hm .mrug
      have a4 := weight_destroyed hI ho hs hm .mfug
      simp only [if_true, reduceCtorEq, if_false] at a1 a2 a3 a4
      omega
    · rw [h] at h'; cases h'
      have a1 := weight_destroyed hI ho hs hm .mru
      have a2 := weight_destroyed hI ho hs hm .mfu
      have a3 := weight_destroyed hI ho hs hm .mrug
      have a4 := weight_destroyed hI ho hs hm .mfug
      simp only [if_true, reduceCtorEq, if_false] at a1 a2 a3 a4
      omega

/-- The first loop never raises the weight of `mru` and `mfu`, nor the
weight of the four lists. -/
theorem phase1_weights (size : Nat) {s s1 : arc} (hI : Inv s) (fuel : Nat)
    (hfuel : s.mru.head.length + s.mfu.head.length ≤ fuel)
    (h : arc_while (arc_balance_step1 size) fuel s = .ok s1) :
    weight s1 .mru + weight s1 .mfu ≤ weight s .mru + weight s .mfu ∧
      listedWeight s1 ≤ listedWeight s := by
  rcases arc_while_spec (arc_balance_step1 size)
    (fun t => Inv t ∧ weight t .mru + weight t .mfu ≤ weight s .mru + weight s .mfu ∧
      listedWeight t ≤ listedWeight s)
    (fun _ _ => True) (fun t => t.mru.head.length + t.mfu.head.length) (fun _ => trivial)
    (fun _ _ _ _ _ => trivial) (arc_balance_step1_weights size _ _) fuel s
    ⟨hI, Nat.le_refl _, Nat.le_refl _⟩ hfuel with ⟨s1', e, hP, _, _⟩
  rw [h] at e
  cases e
  exact hP.2

/-- The second loop never raises the weight of the four lists. -/
theorem phase2_weights {s s1 : arc} (hI : Inv s) (fuel : Nat)
    (hfuel : s.mrug.head.length + s.mfug.head.length ≤ fuel)
    (h : arc_while arc_balance_step2 fuel s = .ok s1) :
    listedWeight s1 ≤ listedWeight s := by
  rcases arc_while_spec arc_balance_step2
    (fun t => Inv t ∧ listedWeight t ≤ listedWeight s)
    (fun _ _ => True) (fun t => t.mrug.head.length + t.mfug.head.length) (fun _ => trivial)
    (fun _ _ _ _ _ => trivial) (arc_balance_step2_weights _) fuel s
    ⟨hI, Nat.le_refl _⟩ hfuel with ⟨s1', e, hP, _, _⟩
  rw [h] at e
  cases e
  exact hP.2

theorem uadd3_small {a b n : Nat} (h : a + b + n < ULONG_MOD) :
    uadd (uadd a b) n = a + b + n := by
  rw [uadd_small (show a + b < ULONG_MOD by omega), uadd_small h]

theorem mem_of_snoc {l rest : List Nat} {obj : Nat} (h : l = rest ++ [obj]) : obj ∈ l := by
  rw [h]; simp

theorem cache_ghosts_reachable : Reachable 1 cache_ghosts :=
  ⟨[Call.unit 0, Call.unit 1, Call.unit 1, ⟨0, some 1, false⟩], rfl⟩

/-- C16, counterexample. Capacity 1, one record of size 1 in `mru`, `p = 0`;
every size field is the sum of the sizes of its records. For the incoming
size `2^64 - 1` the `unsigned long` sum `mru.size + mfu.size + size` wraps to
0, the first loop of `arc_balance` ends at once, and neither exit condition
of the claim holds: `1 + 0 + (2^64 - 1) > c` and `mru.size = 1 > p = 0`. -/
theorem phase1_exit_wraps :
    ∃ s, arc_run (arc_create 1) [Call.unit 0] = .ok s ∧
      (∀ l, (s.get l).size = weight s l) ∧
      s.c = 1 ∧ s.p = 0 ∧ s.mru.head = [0] ∧ s.mru.size = 1 ∧ s.mfu.size = 0 ∧
      arc_balance_step1 (2 ^ 64 - 1) s = .ok none ∧
      (∀ fuel, arc_while (arc_balance_step1 (2 ^ 64 - 1)) fuel s = .ok s) ∧
      ¬ (s.mru.size + s.mfu.size + (2 ^ 64 - 1) ≤ s.c) ∧
      ¬ (s.mru.size ≤ s.p ∧ s.mfu.size = 0) :=
  ⟨_, rfl, fun l => by cases l <;> rfl, rfl, rfl, rfl, rfl, rfl, rfl,
    fun fuel => arc_while_stop rfl fuel, by decide, by decide⟩

/-- C16, as the code has it. At every cache that satisfies the invariant and
for every incoming size such that the sizes of the records of `mru` and
`mfu` and the incoming size sum to less than `2^64` (all sums below are sums
of numbers): one evaluation of the first loop of `arc_balance` either ends
the loop, with `mru.size + mfu.size + size <= c` or with `mru.size <= p` and
`mfu.size = 0`; or, when `mru.size > p`, moves the tail of `mru` to the head
of `mrug`; or, when `mru.size <= p` and `mfu.size > 0` (so `mru.size = p`
selects `mfu`), moves the tail of `mfu` to the head of `mfug`; a move
subtracts the size of the record from the size of its list, adds it to the
size of the ghost list (an `unsigned long` `+=`), calls `evict` on the record
and nothing else, and leaves `p` and the other lists alone. The whole loop
ends (`Trimmed`: tails of `mru` and `mfu` went to the heads of `mrug` and
`mfug`, one `evict` per moved record and no other callback, `p` unchanged)
in a state with one of the two exit conditions. -/
theorem balance_phase1 (s : arc) (size : Nat) (hI : Inv s)
    (hfit : weight s .mru + weight s .mfu + size < ULONG_MOD) :
    ((arc_balance_step1 size s = .ok none ∧
        (s.mru.size + s.mfu.size + size ≤ s.c ∨ (s.mru.size ≤ s.p ∧ s.mfu.size = 0))) ∨
      (s.mru.size + s.mfu.size + size > s.c ∧ s.mru.size > s.p ∧
        ∃ (obj : Nat) (o : arc_object) (rest : List Nat) (s' : arc),
          s.mru.head = rest ++ [obj] ∧ s.objs[obj]? = some o ∧
          arc_balance_step1 size s = .ok (some s') ∧ o.size ≤ s.mru.size ∧
          s'.mru = ⟨s.mru.size - o.size, rest⟩ ∧
          s'.mrug = ⟨uadd s.mrug.size o.size, obj :: s.mrug.head⟩ ∧
          s'.mfu = s.mfu ∧ s'.mfug = s.mfug ∧ s'.p = s.p ∧
          s'.trace = s.trace ++ [Event.evict obj]) ∨
      (s.mru.size + s.mfu.size + size > s.c ∧ s.mru.size ≤ s.p ∧ s.mfu.size > 0 ∧
        ∃ (obj : Nat) (o : arc_object) (rest : List Nat) (s' : arc),
          s.mfu.head = rest ++ [obj] ∧ s.objs[obj]? = some o ∧
          arc_balance_step1 size s = .ok (some s') ∧ o.size ≤ s.mfu.size ∧
          s'.mfu = ⟨s.mfu.size - o.size, rest⟩ ∧
          s'.mfug = ⟨uadd s.mfug.size o.size, obj :: s.mfug.head⟩ ∧
          s'.mru = s.mru ∧ s'.mrug = s.mrug ∧ s'.p = s.p ∧
          s'.trace = s.trace ++ [Event.evict obj])) ∧
    (∃ s1, (∀ fuel, s.mru.head.length + s.mfu.head.length ≤ fuel →
        arc_while (arc_balance_step1 size) fuel s = .ok s1) ∧
      Trimmed s s1 ∧
      (s1.mru.size + s1.mfu.size + size ≤ s1.c ∨
        (s1.mru.size ≤ s1.p ∧ s1.mfu.size = 0))) := by
  have e1 : s.mru.size = weight s .mru := hI.exact .mru (by omega)
  have e2 : s.mfu.size = weight s .mfu := hI.exact .mfu (by omega)
  have hsum : uadd (uadd s.mru.size s.mfu.size) size = s.mru.size + s.mfu.size + size :=
    uadd3_small (by omega)
  refine ⟨?_, ?_⟩
  · rcases (phase1_unsigned s size hI).1 with ⟨h, hx⟩ |
      ⟨hc, hgt, obj, o, rest, s', hrest, ho, hstep, h1, h2, h3, h4, h5, h6⟩ |
      ⟨hc, hle, hpos, obj, o, rest, s', hrest, ho, hstep, h1, h2, h3, h4, h5, h6⟩
    · rw [hsum] at hx
      exact Or.inl ⟨h, hx⟩
    · rw [hsum] at hc
      have hos : o.size ≤ s.mru.size := by
        rw [e1]; exact size_le_weight ho (mem_of_snoc hrest)
      rw [usub_small hos (by omega)] at h1
      exact Or.inr (Or.inl ⟨hc, hgt, obj, o, rest, s', hrest, ho, hstep, hos, h1, h2, h3, h4,
        h5, h6⟩)
    · rw [hsum] at hc
      have hos : o.size ≤ s.mfu.size := by
        rw [e2]; exact size_le_weight ho (mem_of_snoc hrest)
      rw [usub_small hos (by omega)] at h1
      exact Or.inr (Or.inr ⟨hc, hle, hpos, obj, o, rest, s', hrest, ho, hstep, hos, h1, h2,
        h3, h4, h5, h6⟩)
  · rcases phase1_detail size s hI with ⟨s1, h1, hI1, _, hT, hx⟩
    have hw := (phase1_weights size hI _ (Nat.le_refl _) (h1 _ (Nat.le_refl _))).1
    have f1 : s1.mru.size = weight s1 .mru := hI1.exact .mru (by omega)
    have f2 : s1.mfu.size = weight s1 .mfu := hI1.exact .mfu (by omega)
    have hsum1 : uadd (uadd s1.mru.size s1.mfu.size) size =
        s1.mru.size + s1.mfu.size + size := uadd3_small (by omega)
    refine ⟨s1, h1, hT, ?_⟩
    rcases arc_balance_step1_spec hI1 size with h | ⟨_, _, _, _, _, _, _, _, h⟩ |
      ⟨_, _, _, _, _, _, _, _, _, h⟩
    · rcases h.2 with h' | h'
      · rw [hsum1] at h'
        exact Or.inl (by omega)
      · exact Or.inr h'
    · rw [hx] at h; cases h
    · rw [hx] at h; cases h

/-- C17, counterexample. Capacity 1, `p = 0`; the lookups of key 0 (size
`2^63`), of key 0 again and of key 1 (size `2^63 + 1`) leave one record in
`mfu` and one in `mru`, and every size field is the sum of the sizes of its
records. `arc_balance(1)` moves both records to the ghost lists; the
`unsigned long` sum `mrug.size + mfug.size` wraps to 1, the second loop ends
at once, and `arc_balance` returns with `mrug.size + mfug.size = 2^64 + 1`,
which exceeds `c = 1`. -/
theorem phase2_exit_wraps :
    ∃ s s2, arc_run (arc_create 1)
        [⟨0, some (2 ^ 63), true⟩, ⟨0, some (2 ^ 63), true⟩, ⟨1, some (2 ^ 63 + 1), true⟩] =
          .ok s ∧
      (∀ l, (s.get l).size = weight s l) ∧ s.p ≤ s.c ∧ s.c = 1 ∧
      arc_balance s 1 = .ok s2 ∧ s2.c = 1 ∧
      s2.mrug = ⟨2 ^ 63 + 1, [1]⟩ ∧ s2.mfug = ⟨2 ^ 63, [0]⟩ ∧
      (∀ l, (s2.get l).size = weight s2 l) ∧
      arc_balance_step2 s2 = .ok none ∧
      ¬ (s2.mrug.size + s2.mfug.size ≤ s2.c) :=
  ⟨_, _, rfl, fun l => by cases l <;> rfl, by decide, rfl, rfl, rfl, rfl, rfl,
    fun l => by cases l <;> rfl, rfl, by decide⟩

/-- C17, as the code has it. At every cache with `p <= c` that satisfies the
invariant and in which the sizes of the records of the four lists sum to
less than `2^64` (all sums below are sums of numbers): one evaluation of the
second loop of `arc_balance` either ends the loop, and then
`mrug.size + mfug.size <= c` (the `break` is not taken while the sum exceeds
`c`); or, when `mfug.size > p`, destroys the tail of `mfug`; or, when
`mfug.size <= p` and `mrug.size > 0`, destroys the tail of `mrug` (the
comparison uses `p`); a step calls `destroy` on the record and nothing else,
takes it out of the hash table and leaves `mru`, `mfu` and `p` alone.
`arc_balance` returns a state with `mrug.size + mfug.size <= c`, the two
fields being the sums of the sizes of the records of `mrug` and `mfug`; its
second loop (`Dropped`) only destroyed tails of `mrug` and `mfug` and left
`mru`, `mfu` and `p` alone. -/
theorem balance_phase2 (s : arc) (size : Nat) (hI : Inv s) (hp : s.p ≤ s.c)
    (hfit : listedWeight s < ULONG_MOD) :
    ((arc_balance_step2 s = .ok none ∧ s.mrug.size + s.mfug.size ≤ s.c) ∨
      (s.mrug.size + s.mfug.size > s.c ∧ s.mfug.size > s.p ∧
        ∃ (obj : Nat) (o : arc_object) (rest : List Nat) (s' : arc),
          s.mfug.head = rest ++ [obj] ∧ s.objs[obj]? = some o ∧
          arc_balance_step2 s = .ok (some s') ∧ o.size ≤ s.mfug.size ∧
          s'.mfug = ⟨s.mfug.size - o.size, rest⟩ ∧ s'.mrug = s.mrug ∧
          s'.mru = s.mru ∧ s'.mfu = s.mfu ∧ s'.p = s.p ∧
          s'.trace = s.trace ++ [Event.destroy obj] ∧ obj ∉ s'.hash) ∨
      (s.mrug.size + s.mfug.size > s.c ∧ s.mfug.size ≤ s.p ∧ s.mrug.size > 0 ∧
        ∃ (obj : Nat) (o : arc_object) (rest : List Nat) (s' : arc),
          s.mrug.head = rest ++ [obj] ∧ s.objs[obj]? = some o ∧
          arc_balance_step2 s = .ok (some s') ∧ o.size ≤ s.mrug.size ∧
          s'.mrug = ⟨s.mrug.size - o.size, rest⟩ ∧ s'.mfug = s.mfug ∧
          s'.mru = s.mru ∧ s'.mfu = s.mfu ∧ s'.p = s.p ∧
          s'.trace = s.trace ++ [Event.destroy obj] ∧ obj ∉ s'.hash)) ∧
    (∃ s1 s2, arc_balance s size = .ok s2 ∧ Trimmed (s.log (.balance size)) s1 ∧
      Dropped s1 s2 ∧ s2.mrug.size + s2.mfug.size ≤ s2.c ∧
      s2.mrug.size = weight s2 .mrug ∧ s2.mfug.size = weight s2 .mfug) := by
  have hfit' := hfit
  unfold listedWeight at hfit'
  have e1 : s.mrug.size = weight s .mrug := hI.exact .mrug (by omega)
  have e2 : s.mfug.size = weight s .mfug := hI.exact .mfug (by omega)
  have hsum : uadd s.mrug.size s.mfug.size = s.mrug.size + s.mfug.size :=
    uadd_small (by omega)
  refine ⟨?_, ?_⟩
  · rcases (phase2_unsigned s size hI hp).1 with ⟨h, hx⟩ |
      ⟨hc, hgt, obj, o, rest, s', hrest, ho, hstep, h1, h2, h3, h4, h5, h6, h7⟩ |
      ⟨hc, hle, hpos, obj, o, rest, s', hrest, ho, hstep, h1, h2, h3, h4, h5, h6, h7⟩
    · rw [hsum] at hx
      exact Or.inl ⟨h, hx⟩
    · rw [hsum] at hc
      have hos : o.size ≤ s.mfug.size := by
        rw [e2]; exact size_le_weight ho (mem_of_snoc hrest)
      rw [usub_small hos (by omega)] at h1
      exact Or.inr (Or.inl ⟨hc, hgt, obj, o, rest, s', hrest, ho, hstep, hos, h1, h2, h3, h4,
        h5, h6, h7⟩)
    · rw [hsum] at hc
      have hos : o.size ≤ s.mrug.size := by
        rw [e1]; exact size_le_weight ho (mem_of_snoc hrest)
      rw [usub_small hos (by omega)] at h1
      exact Or.inr (Or.inr ⟨hc, hle, hpos, obj, o, rest, s', hrest, ho, hstep, hos, h1, h2,
        h3, h4, h5, h6, h7⟩)
  · rcases arc_balance_detail size s hI with ⟨s1, s2, hb, g1, g2, hI1, hI2, hT, hD, _, hx2⟩
    have w1 := (phase1_weights size (hI.log (.balance size)) _ (Nat.le_refl _)
      (g1 _ (Nat.le_refl _))).2
    rw [listedWeight_log] at w1
    have w2 := phase2_weights hI1 _ (Nat.le_refl _) (g2 _ (Nat.le_refl _))
    have hp2 : s2.p ≤ s2.c := by
      rcases hT with ⟨_, _, _, _, _, _, _, _, _, hp1, hc1, _⟩
      rcases hD with ⟨_, _, _, _, _, _, _, _, _, _, hp', hc'⟩
      rw [hp', hc', hp1, hc1]
      exact hp
    have hle := step2_exit hI2 hp2 hx2
    have hfit2 : listedWeight s2 < ULONG_MOD := by omega
    unfold listedWeight at hfit2
    have f1 : s2.mrug.size = weight s2 .mrug := hI2.exact .mrug (by omega)
    have f2 : s2.mfug.size = weight s2 .mfug := hI2.exact .mfug (by omega)
    rw [uadd_small (by omega)] at hle
    exact ⟨s1, s2, hb, hT, hD, hle, f1, f2⟩

/-- Witness of C16: the cache of capacity 4 with the records of keys 0 to 3
in `mru` (`mru.size = 4 > p = 2`) and the incoming size 1: the pass moves the
record of key 0, the tail of `mru`, to `mrug`. -/
theorem balance_phase1_witness :
    Inv cache_cold ∧ weight cache_cold .mru + weight cache_cold .mfu + 1 < ULONG_MOD ∧
    (∃ s', arc_balance_step1 1 cache_cold = .ok (some s') ∧ s'.mru.head = [3, 2, 1] ∧
      s'.mrug.head = [0]) ∧
    (((arc_balance_step1 1 cache_cold = .ok none ∧
        (cache_cold.mru.size + cache_cold.mfu.size + 1 ≤ cache_cold.c ∨ (cache_cold.mru.size ≤ cache_cold.p ∧ cache_cold.mfu.size = 0))) ∨
      (cache_cold.mru.size + cache_cold.mfu.size + 1 > cache_cold.c ∧ cache_cold.mru.size > cache_cold.p ∧
        ∃ (obj : Nat) (o : arc_object) (rest : List Nat) (s' : arc),
          cache_cold.mru.head = rest ++ [obj] ∧ cache_cold.objs[obj]? = some o ∧
          arc_balance_step1 1 cache_cold = .ok (some s') ∧ o.size ≤ cache_cold.mru.size ∧
          s'.mru = ⟨cache_cold.mru.size - o.size, rest⟩ ∧
          s'.mrug = ⟨uadd cache_cold.mrug.size o.size, obj :: cache_cold.mrug.head⟩ ∧
          s'.mfu = cache_cold.mfu ∧ s'.mfug = cache_cold.mfug ∧ s'.p = cache_cold.p ∧
          s'.trace = cache_cold.trace ++ [Event.evict obj]) ∨
      (cache_cold.mru.size + cache_cold.mfu.size + 1 > cache_cold.c ∧ cache_cold.mru.size ≤ cache_cold.p ∧ cache_cold.mfu.size > 0 ∧
        ∃ (obj : Nat) (o : arc_object) (rest : List Nat) (s' : arc),
          cache_cold.mfu.head = rest ++ [obj] ∧ cache_cold.objs[obj]? = some o ∧
          arc_balance_step1 1 cache_cold = .ok (some s') ∧ o.size ≤ cache_cold.mfu.size ∧
          s'.mfu = ⟨cache_cold.mfu.size - o.size, rest⟩ ∧
          s'.mfug = ⟨uadd cache_cold.mfug.size o.size, obj :: cache_cold.mfug.head⟩ ∧
          s'.mru = cache_cold.mru ∧ s'.mrug = cache_cold.mrug ∧ s'.p = cache_cold.p ∧
          s'.trace = cache_cold.trace ++ [Event.evict obj])) ∧
    (∃ s1, (∀ fuel, cache_cold.mru.head.length + cache_cold.mfu.head.length ≤ fuel →
        arc_while (arc_balance_step1 1) fuel cache_cold = .ok s1) ∧
      Trimmed cache_cold s1 ∧
      (s1.mru.size + s1.mfu.size + 1 ≤ s1.c ∨
        (s1.mru.size ≤ s1.p ∧ s1.mfu.size = 0)))) :=
  ⟨cache_cold_reachable.reachable.inv.1, by decide, ⟨_, rfl, rfl, rfl⟩,
    balance_phase1 cache_cold 1 cache_cold_reachable.reachable.inv.1 (by decide)⟩

/-- Witness of C17: the cache of capacity 1 with one record of size 1 in
`mrug` and one in `mfug` and `p = 1`: the ghost weight is 2 > c, `mfug.size`
is not above `p`, and the pass destroys the tail of `mrug`; `arc_balance`
returns with `mrug` empty. -/
theorem balance_phase2_witness :
    Inv cache_ghosts ∧ cache_ghosts.p ≤ cache_ghosts.c ∧
    listedWeight cache_ghosts < ULONG_MOD ∧
    (∃ s', arc_balance_step2 cache_ghosts = .ok (some s') ∧ s'.mrug.head = [] ∧
      s'.mfug.head = [1] ∧ s'.trace = cache_ghosts.trace ++ [Event.destroy 0]) ∧
    (((arc_balance_step2 cache_ghosts = .ok none ∧ cache_ghosts.mrug.size + cache_ghosts.mfug.size ≤ cache_ghosts.c) ∨
      (cache_ghosts.mrug.size + cache_ghosts.mfug.size > cache_ghosts.c ∧ cache_ghosts.mfug.size > cache_ghosts.p ∧
        ∃ (obj : Nat) (o : arc_object) (rest : List Nat) (s' : arc),
          cache_ghosts.mfug.head = rest ++ [obj] ∧ cache_ghosts.objs[obj]? = some o ∧
          arc_balance_step2 cache_ghosts = .ok (some s') ∧ o.size ≤ cache_ghosts.mfug.size ∧
          s'.mfug = ⟨cache_ghosts.mfug.size - o.size, rest⟩ ∧ s'.mrug = cache_ghosts.mrug ∧
          s'.mru = cache_ghosts.mru ∧ s'.mfu = cache_ghosts.mfu ∧ s'.p = cache_ghosts.p ∧
          s'.trace = cache_ghosts.trace ++ [Event.destroy obj] ∧ obj ∉ s'.hash) ∨
      (cache_ghosts.mrug.size + cache_ghosts.mfug.size > cache_ghosts.c ∧ cache_ghosts.mfug.size ≤ cache_ghosts.p ∧ cache_ghosts.mrug.size > 0 ∧
        ∃ (obj : Nat) (o : arc_object) (rest : List Nat) (s' : arc),
          cache_ghosts.mrug.head = rest ++ [obj] ∧ cache_ghosts.objs[obj]? = some o ∧
          arc_balance_step2 cache_ghosts = .ok (some s') ∧ o.size ≤ cache_ghosts.mrug.size ∧
          s'.mrug = ⟨cache_ghosts.mrug.size - o.size, rest⟩ ∧ s'.mfug = cache_ghosts.mfug ∧
          s'.mru = cache_ghosts.mru ∧ s'.mfu = cache_ghosts.mfu ∧ s'.p = cache_ghosts.p ∧
          s'.trace = cache_ghosts.trace ++ [Event.destroy obj] ∧ obj ∉ s'.hash)) ∧
    (∃ s1 s2, arc_balance cache_ghosts 1 = .ok s2 ∧ Trimmed (cache_ghosts.log (.balance 1)) s1 ∧
      Dropped s1 s2 ∧ s2.mrug.size + s2.mfug.size ≤ s2.c ∧
      s2.mrug.size = weight s2 .mrug ∧ s2.mfug.size = weight s2 .mfug)) :=
  ⟨cache_ghosts_reachable.inv.1, by decide, by decide, ⟨_, rfl, rfl, rfl, rfl⟩,
    balance_phase2 cache_ghosts 1 cache_ghosts_reachable.inv.1 (by decide) (by decide)⟩

/-! ## Ghost hits on a list whose size field is 0 -/

/-- C6, counterexample. Capacity 1; `create` returns a record of size 0 for
key 0 and records of size 1 for keys 1 and 2, all callbacks succeed. After
the lookups of keys 0, 1, 2, 1 the record of key 0 is the only record of
`mrug`, `mrug.size` is 0 and `p = 1 <= c`. The lookup of key 0 evaluates
`mfug.size / mrug.size`, a division by zero, before `arc_move` and `fetch`
are reached: it returns no record and sets no new `p`. -/
theorem mrug_hit_divides_by_zero :
    ∃ (s : arc) (o : arc_object),
      arc_run (arc_create 1) [⟨0, some 0, true⟩, Call.unit 1, Call.unit 2, Call.unit 1] =
        .ok s ∧
      s.p ≤ s.c ∧ arc_hash_lookup s 0 = some 0 ∧ s.objs[0]? = some o ∧
      o.state = some .mrug ∧ s.mrug = ⟨0, [0]⟩ ∧
      arc_lookup s 0 (some 0) true = .error .divByZero :=
  ⟨_, _, rfl, by decide, rfl, rfl, rfl, rfl, rfl⟩

/-- C9, counterexample. Capacity 2; `create` returns a record of size 0 for
key 0 and records of size 1 for the other keys, `fetch` succeeds. After the
lookups of keys 0, 0, 1, 1, 2, 3, 1 the record of key 0 is the only record
of `mfug` and `mfug.size` is 0. The lookup of key 0 in which `fetch` would
fail evaluates `mrug.size / mfug.size`, a division by zero, before `fetch`
is reached: it does not return `NULL`. -/
theorem mfug_hit_divides_by_zero :
    ∃ (s : arc) (o : arc_object),
      arc_run (arc_create 2) [⟨0, some 0, true⟩, ⟨0, some 0, true⟩, Call.unit 1, Call.unit 1,
        Call.unit 2, Call.unit 3, Call.unit 1] = .ok s ∧
      arc_hash_lookup s 0 = some 0 ∧ s.objs[0]? = some o ∧
      o.state = some .mfug ∧ s.mfug = ⟨0, [0]⟩ ∧ s.mrug = ⟨1, [2]⟩ ∧
      arc_lookup s 0 (some 0) false = .error .divByZero :=
  ⟨_, _, rfl, rfl, rfl, rfl, rfl, rfl, rfl⟩

end ARC
